import Mathlib

/-!
Verification of the Atria entity layer (`atria/core/entities.py`).

We shallowly embed the data model and the operations of the entity engine:
Python values become the inductive type `PVal`, dicts become association
lists, entities become records in an explicit `World` state, and the
operations (`_set_attr_val`, `serialize`, `deserialize`, `find`, `load`,
`save`, `clone`, `make_uid`, the schema merge, and registration) become
executable Lean functions mirroring the source line by line.

External collaborators that are not part of the checked sources
(`utils/funcs.int_to_base_n`, the `HasTags`/`HasFlags` mixins, the pylru
LRU cache, the clock) are modelled from the spec and marked as such.
-/

set_option autoImplicit false

namespace Atria

/-! ## Definitions -/

/-- Python values as they flow through the entity layer: the `Unset`
sentinel, `None`, booleans, integers, strings, tuples/lists and dicts.
`vnone` models Python `None` (e.g. the result of a missing `dict.get`). -/
inductive PVal where
  | unset : PVal
  | vnone : PVal
  | vbool : Bool → PVal
  | vint : Int → PVal
  | vstr : String → PVal
  | vlist : List PVal → PVal
  | vdict : List (String × PVal) → PVal
deriving Repr


mutual

/-- Structural equality on Python values: the embedding of Python `==`
for the value types used by the entity layer. -/
def pbeq : PVal → PVal → Bool
  | .unset, .unset => true
  | .vnone, .vnone => true
  | .vbool a, .vbool b => a == b
  | .vint a, .vint b => a == b
  | .vstr a, .vstr b => a == b
  | .vlist a, .vlist b => pbeqList a b
  | .vdict a, .vdict b => pbeqDict a b
  | _, _ => false

/-- Elementwise `pbeq` on lists of values. -/
def pbeqList : List PVal → List PVal → Bool
  | [], [] => true
  | x :: xs, y :: ys => pbeq x y && pbeqList xs ys
  | _, _ => false

/-- Elementwise `pbeq` on string-keyed entry lists. -/
def pbeqDict : List (String × PVal) → List (String × PVal) → Bool
  | [], [] => true
  | (k, v) :: xs, (l, w) :: ys => k == l && pbeq v w && pbeqDict xs ys
  | _, _ => false

end


/-- Whether a value is the `Unset` sentinel: the embedding of the identity
test `value is Unset` in the source. -/
def PVal.isUnset : PVal → Bool
  | .unset => true
  | _ => false


/-- Whether a value is Python `None` (identity test `value is None`). -/
def PVal.isNone : PVal → Bool
  | .vnone => true
  | _ => false


/-! ### Association lists (the embedding of Python dicts)

String-keyed dicts (`_attrs`, `_attr_values`, tags, serialized records)
use `String` keys; the store and the key caches are keyed by entity keys,
which are arbitrary values compared with `pbeq`. -/

/-- Dict lookup for string keys (`d.get(k)` yielding `some`/`none`). -/
def alook {α : Type} : List (String × α) → String → Option α
  | [], _ => none
  | (k, v) :: rest, key => if k == key then some v else alook rest key


/-- Dict assignment `d[k] = v`: replaces the binding in place if the key
is present, otherwise appends it (Python dict insertion-order semantics). -/
def aset {α : Type} : List (String × α) → String → α → List (String × α)
  | [], key, v => [(key, v)]
  | (k, w) :: rest, key, v =>
      if k == key then (key, v) :: rest else (k, w) :: aset rest key v


/-- Dict deletion `del d[k]`. -/
def aerase {α : Type} : List (String × α) → String → List (String × α)
  | [], _ => []
  | (k, w) :: rest, key =>
      if k == key then aerase rest key else (k, w) :: aerase rest key


/-- Lookup in a `pbeq`-keyed map (the store, the key caches). -/
def plook {α : Type} : List (PVal × α) → PVal → Option α
  | [], _ => none
  | (k, v) :: rest, key => if pbeq k key then some v else plook rest key


/-- Assignment in a `pbeq`-keyed map. -/
def pset {α : Type} : List (PVal × α) → PVal → α → List (PVal × α)
  | [], key, v => [(key, v)]
  | (k, w) :: rest, key, v =>
      if pbeq k key then (key, v) :: rest else (k, w) :: pset rest key v


/-- Deletion in a `pbeq`-keyed map. -/
def perase {α : Type} : List (PVal × α) → PVal → List (PVal × α)
  | [], _ => []
  | (k, w) :: rest, key =>
      if pbeq k key then perase rest key else (k, w) :: perase rest key


/-! ### Identity generation (`Entity.make_uid`)

The counter ratchet is translated from `Entity.make_uid`; the base-58
rendering is modelled from the spec because `utils/funcs.int_to_base_n`
is not among the checked sources. -/

/-- The resolution multiplier `_uid_timecode_multiplier` from the source. -/
def uidTimecodeMultiplier : Nat := 10000


/-- The timecode alphabet `_uid_timecode_charset` from the source:
58 visually unambiguous characters. -/
def uidTimecodeCharset : List Char :=
  "0123456789aAbBcCdDeEfFgGhHijJkKLmMnNopPqQrRstTuUvVwWxXyYzZ".toList


/-- Little-endian base-58 digit expansion, with fuel for structural
termination (fuel `n` always suffices for input `n`). -/
def toDigitsRev : Nat → Nat → List Nat
  | 0, _ => []
  | _, 0 => []
  | fuel + 1, n => n % 58 :: toDigitsRev fuel (n / 58)


/-- Evaluation of a little-endian base-58 digit list, inverse of
`toDigitsRev`. -/
def fromDigits : List Nat → Nat
  | [] => 0
  | d :: ds => d + 58 * fromDigits ds


/-- Modelled from the spec: `int_to_base_n` (from the absent
`utils/funcs` module) renders an integer in the fixed base-58 alphabet,
most significant digit first. -/
def intToBaseN (n : Nat) : String :=
  String.mk (((toDigitsRev n n).map
    (fun d => uidTimecodeCharset.getD d ' ')).reverse)


/-- One identity request: the counter update of `Entity.make_uid`.
Computes `big_time = time * multiplier`, adopts it when it exceeds the
stored counter and otherwise increments the counter by one. -/
def uidStep (time counter : Nat) : Nat :=
  let bigTime := time * uidTimecodeMultiplier
  if bigTime > counter then bigTime else counter + 1


/-- The identifier string built by `make_uid` from a type code and the
updated counter: `code ++ "-" ++ timecode`. -/
def makeUidStr (code : String) (counter : Nat) : String :=
  code ++ "-" ++ intToBaseN counter


/-- The sequence of counter values produced by successive `make_uid`
calls against a list of clock readings. -/
def uidCounters : List Nat → Nat → List Nat
  | [], _ => []
  | t :: ts, c =>
      let c' := uidStep t c
      c' :: uidCounters ts c'


/-! ### Data blobs (`DataBlob`, `Attribute`)

A blob instance couples the attribute descriptors (`_attrs`), the
per-instance attribute values (`_attr_values`) and the instantiated
sub-blobs (`_blobs`).  Descriptor hooks become Lean functions; the
side-effecting `_changed` hook of the base class is a no-op and has no
observable effect in the value semantics, so it carries no field here. -/

/-- An attribute descriptor (`Attribute`): default value, read-only flag,
and the `_validate` / `_finalize` / `_serialize` / `_deserialize` hooks.
`validate` may fail, embedding a raised validation exception. -/
structure AttrSpec where
  default : PVal
  readOnly : Bool
  validate : PVal → Except String PVal
  finalize : PVal → PVal
  ser : PVal → PVal
  deser : PVal → PVal


/-- A `DataBlob` instance: descriptors, attribute values, sub-blobs. -/
inductive Blob where
  | mk : List (String × AttrSpec) → List (String × PVal) →
      List (String × Blob) → Blob


/-- The descriptor table `_attrs` of a blob. -/
def Blob.attrs : Blob → List (String × AttrSpec)
  | .mk a _ _ => a


/-- The value table `_attr_values` of a blob. -/
def Blob.vals : Blob → List (String × PVal)
  | .mk _ v _ => v


/-- The sub-blob table `_blobs` of a blob. -/
def Blob.subs : Blob → List (String × Blob)
  | .mk _ _ s => s


mutual

/-- A freshly constructed blob of the same schema (`DataBlob.__init__`):
every attribute initialized to its descriptor's default, every sub-blob
freshly instantiated. -/
def freshBlob : Blob → Blob
  | .mk attrs _ subs =>
      .mk attrs (attrs.map fun p => (p.1, p.2.default)) (freshSubs subs)

/-- Fresh instantiation of a sub-blob table. -/
def freshSubs : List (String × Blob) → List (String × Blob)
  | [] => []
  | (k, s) :: rest => (k, freshBlob s) :: freshSubs rest

end


/-- The attribute loop of `DataBlob.serialize`: for each descriptor, fail
on a duplicate blob key, read the stored value (`None` when absent), skip
the `_serialize` hook exactly when the value is the `Unset` sentinel. -/
def serializeAttrs : List (String × AttrSpec) → List (String × PVal) →
    List (String × PVal) → Except String (List (String × PVal))
  | [], _, data => .ok data
  | (key, a) :: rest, vals, data =>
      if (alook data key).isSome then
        .error "KeyError: duplicate blob key"
      else
        let value := (alook vals key).getD .vnone
        let value := if value.isUnset then value else a.ser value
        serializeAttrs rest vals (aset data key value)


mutual

/-- Translation of `DataBlob.serialize`: serialize every sub-blob, then
every attribute value (applying the `_serialize` hook only to values that
are not the `Unset` sentinel), raising `KeyError` when an attribute name
collides with an already-emitted sub-blob key. -/
def serializeBlob : Blob → Except String (List (String × PVal))
  | .mk attrs vals subs =>
      match serializeSubs subs [] with
      | .ok data => serializeAttrs attrs vals data
      | .error e => .error e

/-- The sub-blob loop of `DataBlob.serialize`. -/
def serializeSubs : List (String × Blob) → List (String × PVal) →
    Except String (List (String × PVal))
  | [], data => .ok data
  | (k, s) :: rest, data =>
      match serializeBlob s with
      | .ok d => serializeSubs rest (aset data k (.vdict d))
      | .error e => .error e

end


/-- Translation of the loop body of `DataBlob.deserialize`: known
attribute keys go through the `_deserialize` hook (skipped for the
`Unset` sentinel) and are committed raw and unvalidated; known sub-blob
keys recurse (their payload must be a dict); unknown keys are logged and
dropped.  The entity-level effects of the raw `_set_attr_val` commit
(dirty flag, cache migration) are modelled in the `World` section; here
only the value semantics matter. -/
def deserializeItems : Blob → List (String × PVal) → Except String Blob
  | b, [] => .ok b
  | .mk attrs vals subs, (key, value) :: rest =>
      match alook attrs key with
      | some a =>
          let v := if value.isUnset then value else a.deser value
          deserializeItems (.mk attrs (aset vals key v) subs) rest
      | none =>
          match alook subs key with
          | some sub =>
              match value with
              | .vdict d =>
                  match deserializeItems sub d with
                  | .ok sub2 =>
                      deserializeItems (.mk attrs vals (aset subs key sub2)) rest
                  | .error e => .error e
              | _ => .error "TypeError: sub-blob data must be a dict"
          | none => deserializeItems (.mk attrs vals subs) rest
termination_by _ items => sizeOf items
decreasing_by all_goals (simp_wf; try omega)


/-- Well-formedness of a blob, as established by registration and
construction: descriptor and sub-blob names are duplicate-free, no name
is both an attribute and a sub-blob, the value table covers exactly the
descriptor names in order, and sub-blobs are recursively well-formed. -/
inductive BlobWF : Blob → Prop where
  | mk {attrs : List (String × AttrSpec)} {vals : List (String × PVal)}
      {subs : List (String × Blob)} :
      (attrs.map Prod.fst).Nodup →
      (subs.map Prod.fst).Nodup →
      (∀ k, k ∈ attrs.map Prod.fst → k ∉ subs.map Prod.fst) →
      vals.map Prod.fst = attrs.map Prod.fst →
      (∀ p ∈ subs, BlobWF p.2) →
      BlobWF (.mk attrs vals subs)


/-- The hook coherence the spec assumes of `serialize`/`deserialize`
pairs: on every stored non-`Unset` value, `_serialize` produces a
storable primitive (never the sentinel, which "must never reach
serialization logic") and `_deserialize` undoes `_serialize`. -/
inductive HookInv : Blob → Prop where
  | mk {attrs : List (String × AttrSpec)} {vals : List (String × PVal)}
      {subs : List (String × Blob)} :
      (∀ p ∈ attrs, ∀ v, alook vals p.1 = some v → v.isUnset = false →
          (p.2.ser v).isUnset = false ∧ p.2.deser (p.2.ser v) = v) →
      (∀ p ∈ subs, HookInv p.2) →
      HookInv (.mk attrs vals subs)


/-! ### Round-trip of blob serialization (claim C3) -/

/-- The value emitted for one attribute by the `DataBlob.serialize` loop:
the stored value (Python `None` when absent), passed through the
`_serialize` hook unless it is the `Unset` sentinel. -/
def serValOf (vals : List (String × PVal)) (p : String × AttrSpec) : PVal :=
  let v := (alook vals p.1).getD .vnone
  if v.isUnset then v else p.2.ser v


/-- An attribute descriptor with identity hooks and no default, like the
base `Attribute` class. -/
def idAttr : AttrSpec :=
  { default := .unset, readOnly := false, validate := fun v => .ok v,
    finalize := id, ser := id, deser := id }


/-- A concrete sub-blob used by witnesses. -/
def sampleSub : Blob :=
  .mk [("depth", { idAttr with default := .vint 0 })] [("depth", .vint 3)] []


/-- A concrete blob: one string field, one unset field, one sub-blob. -/
def sampleBlob : Blob :=
  .mk [("name", idAttr), ("hp", idAttr)]
    [("name", .vstr "Kira"), ("hp", .unset)] [("coords", sampleSub)]


/-! ### Schema composition across the type hierarchy (claim C4)

`Entity.__init__` builds the instance's base blob by recursively merging
the `_base_blob` of every ancestor class (`_build_base_blob`): bases are
processed left to right before the class itself, a `checked` set prevents
re-merging a class reached through several inheritance paths, and
`DataBlob._update` gives later merges precedence.  We model the class
hierarchy as a tree of class occurrences (a class reached through two
paths appears twice; a coherence hypothesis states that equal names mean
equal classes, which is Python's object identity).  Schemas track the
registered descriptor and sub-blob identities by name; the merged
attribute values follow the descriptors and are covered by the
construction model in the `World` section. -/

/-- The field tables registered on one class's own `_base_blob`:
sub-blob name → blob-class identity, attribute name → descriptor
identity. -/
structure BlobSchema where
  blobs : List (String × Nat)
  attrs : List (String × Nat)


/-- Python `dict.update`: bindings of the second dict override. -/
def dictUpdate {α : Type} (d upd : List (String × α)) : List (String × α) :=
  upd.foldl (fun acc p => aset acc p.1 p.2) d


/-- Translation of `DataBlob._update` at the schema level: merge
`_blobs` and `_attrs`, the argument taking precedence. -/
def schemaUpdate (s t : BlobSchema) : BlobSchema :=
  { blobs := dictUpdate s.blobs t.blobs, attrs := dictUpdate s.attrs t.attrs }


/-- A class occurrence in the inheritance tree: name, whether it is a
subclass of `Entity`, its own registered sub-blobs and attributes, and
its base classes in declaration order. -/
inductive PyClass where
  | mk : String → Bool → List (String × Nat) → List (String × Nat) →
      List PyClass → PyClass


/-- The class's name (its identity under registration). -/
def nameOf : PyClass → String
  | .mk n _ _ _ _ => n


/-- Whether the class is a subclass of `Entity`. -/
def isEntOf : PyClass → Bool
  | .mk _ e _ _ _ => e


/-- The class's base list. -/
def basesOf : PyClass → List PyClass
  | .mk _ _ _ _ bs => bs


/-- The schema registered on the class itself (its own `_base_blob`). -/
def ownSchema : PyClass → BlobSchema
  | .mk _ _ blobs attrs _ => { blobs := blobs, attrs := attrs }


mutual

/-- Names of the `Entity`-derived classes in postorder: for each class,
its bases' contributions left to right, then (when it is an entity
class) the class itself — the order in which `_build_base_blob` reaches
merge candidates. -/
def entAncestors : PyClass → List String
  | .mk n e _ _ bases => entAncestorsL bases ++ (if e then [n] else [])

/-- Postorder entity-class names of a base list. -/
def entAncestorsL : List PyClass → List String
  | [] => []
  | b :: bs => entAncestors b ++ entAncestorsL bs

end


mutual

/-- All class occurrences in the inheritance tree (the class itself and
everything reachable through bases). -/
def classesIn : PyClass → List PyClass
  | .mk n e blobs attrs bases => classesInL bases ++ [.mk n e blobs attrs bases]

/-- All class occurrences of a base list. -/
def classesInL : List PyClass → List PyClass
  | [] => []
  | b :: bs => classesIn b ++ classesInL bs

end


/-- The proper entity ancestors of a class: the entity classes reachable
through its bases. -/
def strictEntAncestors (c : PyClass) : List String :=
  entAncestorsL (basesOf c)


mutual

/-- Translation of `_build_base_blob`: starting from an accumulated
schema and the `checked` set (as merge-ordered names), recurse through
the bases left to right, then merge the class's own schema if it is an
entity class not yet checked. -/
def buildBase : PyClass → BlobSchema × List String → BlobSchema × List String
  | .mk n e blobs attrs bases, acc =>
      let acc1 := buildBaseL bases acc
      if e then
        if n ∈ acc1.2 then acc1
        else (schemaUpdate acc1.1 { blobs := blobs, attrs := attrs },
              acc1.2 ++ [n])
      else acc1

/-- The bases loop of `_build_base_blob`. -/
def buildBaseL : List PyClass → BlobSchema × List String →
    BlobSchema × List String
  | [], acc => acc
  | b :: bs, acc => buildBaseL bs (buildBase b acc)

end


/-- The schema an `Entity.__init__` call assembles: the initial blob is
an instance of the constructed class's own `_base_blob`, then
`_build_base_blob` merges every entity ancestor exactly once, the class
itself last. -/
def buildEntitySchema (c : PyClass) : BlobSchema × List String :=
  buildBase c (ownSchema c, [])


/-- Set-style insertion used to characterize the `checked` bookkeeping. -/
def insertNew (acc : List String) (n : String) : List String :=
  if n ∈ acc then acc else acc ++ [n]


/-- Strict precedence in a list: `a` occurs before an occurrence of
`b`. -/
def Before (l : List String) (a b : String) : Prop :=
  ∃ l1 l2, l = l1 ++ b :: l2 ∧ a ∈ l1


def clsEntity : PyClass :=
  .mk "Entity" true [("core", 20)] [("version", 0), ("pow", 0)] []


def clsA : PyClass :=
  .mk "A" true [("core", 21), ("stats", 10)] [("pow", 1)] [clsEntity]


def clsB : PyClass := .mk "B" true [("gear", 11)] [] [clsEntity]


def clsC : PyClass := .mk "C" true [] [] [clsA, clsB]


def sigC : String → BlobSchema := fun n =>
  if n = "Entity" then
    { blobs := [("core", 20)], attrs := [("version", 0), ("pow", 0)] }
  else if n = "A" then
    { blobs := [("core", 21), ("stats", 10)], attrs := [("pow", 1)] }
  else if n = "B" then { blobs := [("gear", 11)], attrs := [] }
  else { blobs := [], attrs := [] }


/-! ### The entity world (claims C1, C5, C6, C7, C8, C10)

An explicit state for one entity type with an attribute-only (flat)
schema: the heap of live entity objects (indices model Python object
identity; the weak `_instances` table and the key cache hold indices so
aliasing is exact), the `_instances` registry keyed by UID, the bounded
LRU key cache (modelled from the spec — pylru is external — as a
most-recent-first list truncated to its capacity; recency refresh on
reads only affects eviction order and is not modelled), the optional
bound store (`cls._store`), and the process-wide UID counter.

The `HasTags`/`HasFlags` mixins are not among the checked sources; they
are modelled from the spec as a tag mapping and a flag set whose
mutations mark the entity dirty (`_tags_changed`/`_flags_changed` in
`entities.py` call `dirty()`).  The storage key is a plain field name
(or `"uid"`), the common configuration; the `(name, getter, setter)`
triple form is not modelled. -/

/-- A serialized entity record (the dict held by the store). -/
abbrev Rec := List (String × PVal)


/-- A live entity object: `_uid` (Python `None` before assignment),
`_attr_values` of its flat base blob, flags, tags, the dirty and savable
flags, and the active flag. -/
structure Ent where
  uid : PVal
  vals : List (String × PVal)
  flags : List String
  tags : List (String × PVal)
  dirty : Bool
  savable : Bool
  active : Bool


/-- The schema of the entity type: its flat attribute table, the storage
key name (`_store_key`), and the UID code (`_uid_code`). -/
structure EntSchema where
  attrs : List (String × AttrSpec)
  storeKey : String
  uidCode : String


/-- The world: entity heap, `_instances`, the key cache with its
capacity, the optional store, and the UID counter. -/
structure World where
  ents : List Ent
  instances : List (PVal × Nat)
  cache : List (PVal × Nat)
  cacheCap : Nat
  store : Option (List (PVal × Rec))
  uidCounter : Nat


/-- Placeholder entity for out-of-range heap reads (never hit under the
well-formedness hypotheses of the theorems). -/
def defaultEnt : Ent :=
  { uid := .vnone, vals := [], flags := [], tags := [],
    dirty := false, savable := true, active := false }


/-- Heap read. -/
def entAt (w : World) (eid : Nat) : Ent := w.ents.getD eid defaultEnt


/-- Heap write. -/
def setEnt (w : World) (eid : Nat) (e : Ent) : World :=
  { w with ents := w.ents.set eid e }


/-- The value of the entity's storage key (`Entity.key`):
`getattr(self, self._store_key)` — the UID for `"uid"`, otherwise the
attribute value (`None` when absent). -/
def entKey (sc : EntSchema) (e : Ent) : PVal :=
  if sc.storeKey = "uid" then e.uid else (alook e.vals sc.storeKey).getD .vnone


/-- `getattr(entity, name)` as used by `find`: the UID or an attribute
value.  (For a name that is neither, the source raises
`AttributeError`; the claims only use registered names.) -/
def attrGet (e : Ent) (name : String) : PVal :=
  if name = "uid" then e.uid else (alook e.vals name).getD .vnone


/-- Membership of a key in a set of keys under Python `==`. -/
def pmem (l : List PVal) (k : PVal) : Bool := l.any (fun c => pbeq c k)


/-- Cache write (modelled from the spec: bounded LRU): drop any existing
binding, insert most-recent-first, evict beyond capacity. -/
def cacheSet (w : World) (k : PVal) (eid : Nat) : World :=
  { w with cache := ((k, eid) :: perase w.cache k).take w.cacheCap }


/-- Cache invalidation (`del cache[key]`). -/
def cacheDel (w : World) (k : PVal) : World :=
  { w with cache := perase w.cache k }


/-- Tag assignment (`entity.tags[k] = v`); tag changes dirty the entity
(`Entity._tags_changed`). -/
def setTag (e : Ent) (k : String) (v : PVal) : Ent :=
  { e with tags := aset e.tags k v, dirty := true }


/-- Tag deletion (`del entity.tags[k]`); dirties like any tag change. -/
def delTag (e : Ent) (k : String) : Ent :=
  { e with tags := aerase e.tags k, dirty := true }


/-- The validate/finalize pipeline of `_set_attr_val`: both steps are
skipped for the `Unset` sentinel, validation only when `validate`,
finalization only when not `raw`; a validation failure propagates. -/
def applyPipeline (a : AttrSpec) (v : PVal) (validate raw : Bool) :
    Except String PVal :=
  if v.isUnset then .ok v
  else
    match (if validate then a.validate v else .ok v) with
    | .error err => .error err
    | .ok v1 => .ok (if raw then v1 else a.finalize v1)


/-- The commit phase of `_set_attr_val`, at the entity level: write the
value; when the storage key changed, note the old key in the `_old_key`
tag; mark dirty. -/
def commitEnt (sc : EntSchema) (e : Ent) (name : String) (v : PVal) : Ent :=
  let oldKey := entKey sc e
  let e1 := { e with vals := aset e.vals name v }
  if pbeq (entKey sc e1) oldKey then { e1 with dirty := true }
  else { setTag e1 "_old_key" oldKey with dirty := true }


/-- The commit phase of `_set_attr_val`, at the world level: the entity
commit plus, on a key change, the cache relocation — delete the old
key's slot if present, insert the entity under the new key. -/
def commitAttr (sc : EntSchema) (w : World) (eid : Nat) (name : String)
    (v : PVal) : World :=
  let e := entAt w eid
  let oldKey := entKey sc e
  let e1 := { e with vals := aset e.vals name v }
  let newKey := entKey sc e1
  if pbeq newKey oldKey then setEnt w eid { e1 with dirty := true }
  else
    let w2 := setEnt w eid { setTag e1 "_old_key" oldKey with dirty := true }
    let w3 := if (plook w2.cache oldKey).isSome then cacheDel w2 oldKey else w2
    cacheSet w3 newKey eid


/-- Translation of `DataBlob._set_attr_val`: descriptor lookup, the
validate/finalize pipeline (exceptions propagate before any mutation,
exactly as in the source, where the assignment follows validation), then
the commit. -/
def setAttrVal (sc : EntSchema) (w : World) (eid : Nat) (name : String)
    (value : PVal) (validate raw : Bool) : Except String World :=
  match alook sc.attrs name with
  | none => .error "KeyError"
  | some a =>
      match applyPipeline a value validate raw with
      | .error err => .error err
      | .ok v => .ok (commitAttr sc w eid name v)


/-- A field write as the caller observes it: the updated world on
success, the original world and the raised error on failure (a Python
exception unwinds before any mutation here, because `_set_attr_val`
validates before assigning). -/
def setAttrTry (sc : EntSchema) (w : World) (eid : Nat) (name : String)
    (value : PVal) (validate raw : Bool) : World × Option String :=
  match setAttrVal sc w eid name value validate raw with
  | .ok w2 => (w2, none)
  | .error err => (w, some err)


/-- Entity serialization (`Entity.serialize`): the blob's attribute loop
followed by the reserved `uid`, `flags` and `tags` entries. -/
def serializeEnt (sc : EntSchema) (e : Ent) : Except String Rec :=
  match serializeAttrs sc.attrs e.vals [] with
  | .error err => .error err
  | .ok d =>
      .ok (aset (aset (aset d "uid" e.uid)
        "flags" (.vlist (e.flags.map .vstr))) "tags" (.vdict e.tags))


/-- Flag strings carried by a serialized `flags` tuple (modelled from
the spec; flags are names). -/
def flagsFrom (v : PVal) : List String :=
  match v with
  | .vlist xs => xs.filterMap (fun x => match x with
      | .vstr s => some s
      | _ => none)
  | _ => []


/-- The pure entity-level effect of `Entity.deserialize` on its own
state: pop `uid`, add `flags`, replace `tags` (each mutation dirties via
the mixin hooks), then run the blob deserialization over the remaining
items with `validate=False, raw=True` (`applyRecToEnt` below).
`flagsMerge` is `flags.add(*data["flags"])`. -/
def flagsMerge (old : List String) (v : PVal) : List String :=
  (flagsFrom v).foldl (fun acc s => if s ∈ acc then acc else acc ++ [s]) old


/-- The tag mapping carried by a serialized `tags` dict. -/
def tagsFrom (v : PVal) : List (String × PVal) :=
  match v with
  | .vdict d => d
  | _ => []


/-- The per-item step of the deserialization loop at the entity level: a
known attribute key is committed through the `_deserialize` hook (skipped
for the `Unset` sentinel) with `validate=False, raw=True`; unknown keys
are logged and dropped. -/
def deserStepE (sc : EntSchema) (e : Ent) (p : String × PVal) : Ent :=
  match alook sc.attrs p.1 with
  | some a => commitEnt sc e p.1 (if p.2.isUnset then p.2 else a.deser p.2)
  | none => e


/-- The same step at the world level (the raw `_set_attr_val` commit
includes the cache relocation on key changes). -/
def deserStepW (sc : EntSchema) (eid : Nat) (w : World) (p : String × PVal) :
    World :=
  match alook sc.attrs p.1 with
  | some a => commitAttr sc w eid p.1 (if p.2.isUnset then p.2 else a.deser p.2)
  | none => w


def applyRecToEnt (sc : EntSchema) (e : Ent) (r : Rec) : Ent :=
  let e1 := match alook r "uid" with
    | some u => { e with uid := u }
    | none => e
  let r1 := aerase r "uid"
  let e2 := match alook r1 "flags" with
    | some fv => { e1 with flags := flagsMerge e1.flags fv, dirty := true }
    | none => e1
  let r2 := aerase r1 "flags"
  let e3 := match alook r2 "tags" with
    | some tv => { e2 with tags := tagsFrom tv, dirty := true }
    | none => e2
  let r3 := aerase r2 "tags"
  r3.foldl (deserStepE sc) e3


/-- The world-level effect of `Entity.deserialize` at `eid`: the entity
evolves by `applyRecToEnt`; additionally every blob commit that changes
the storage key relocates the cache slot (`_set_attr_val`). -/
def deserializeEnt (sc : EntSchema) (w : World) (eid : Nat) (r : Rec) :
    World :=
  let w1 := match alook r "uid" with
    | some u => setEnt w eid { entAt w eid with uid := u }
    | none => w
  let r1 := aerase r "uid"
  let w2 := match alook r1 "flags" with
    | some fv => setEnt w1 eid { entAt w1 eid with
        flags := flagsMerge (entAt w1 eid).flags fv, dirty := true }
    | none => w1
  let r2 := aerase r1 "flags"
  let w3 := match alook r2 "tags" with
    | some tv => setEnt w2 eid { entAt w2 eid with
        tags := tagsFrom tv, dirty := true }
    | none => w2
  let r3 := aerase r2 "tags"
  r3.foldl (deserStepW sc eid) w3


/-- The fresh entity at the start of `Entity.__init__`: defaults from
the schema, clean, no UID yet. -/
def freshEnt (sc : EntSchema) (active savable : Bool) : Ent :=
  { uid := .vnone, vals := sc.attrs.map (fun p => (p.1, p.2.default)),
    flags := [], tags := [], dirty := false, savable := savable,
    active := active }


/-- Translation of `Entity.__init__`: append a fresh entity to the heap,
deserialize the supplied data if any, generate a UID if none resulted,
register in `_instances`, and insert into the key cache if that key is
not already occupied. -/
def construct (sc : EntSchema) (w : World) (data : Option Rec)
    (active savable : Bool) (now : Nat) : World × Nat :=
  let eid := w.ents.length
  let w1 := { w with ents := w.ents ++ [freshEnt sc active savable] }
  let w2 := match data with
    | some r => deserializeEnt sc w1 eid r
    | none => w1
  let w3 :=
    if (entAt w2 eid).uid.isNone then
      let c2 := uidStep now w2.uidCounter
      setEnt { w2 with uidCounter := c2 } eid
        { entAt w2 eid with uid := .vstr (makeUidStr sc.uidCode c2) }
    else w2
  let w4 := { w3 with
    instances := pset w3.instances (entAt w3 eid).uid eid }
  let key := entKey sc (entAt w4 eid)
  let w5 := if (plook w4.cache key).isSome then w4 else cacheSet w4 key eid
  (w5, eid)


/-- Set or clear the dirty flag directly (`entity._dirty = False` after
`load`/`find` materialization). -/
def setDirty (w : World) (eid : Nat) (b : Bool) : World :=
  setEnt w eid { entAt w eid with dirty := b }


/-- Whether the entity can be saved (`Entity.is_savable`): a bound store
and the instance flag. -/
def isSavable (w : World) (e : Ent) : Bool := w.store.isSome && e.savable


/-- Translation of `Entity.save`: no-op for non-savable entities;
otherwise retire a pending `_old_key` (delete the stale record if the
store has it, drop the tag), serialize, write through under the current
key, clear dirty. -/
def save (sc : EntSchema) (w : World) (eid : Nat) : Except String World :=
  match w.store with
  | none => .ok w
  | some st =>
      if (entAt w eid).savable = false then .ok w
      else
        let e := entAt w eid
        let (w1, st1) :=
          match alook e.tags "_old_key" with
          | some oldKey =>
              let st2 := if (plook st oldKey).isSome then perase st oldKey
                else st
              (setEnt { w with store := some st2 } eid (delTag e "_old_key"),
                st2)
          | none => (w, st)
        let e1 := entAt w1 eid
        match serializeEnt sc e1 with
        | .error err => .error err
        | .ok r =>
            .ok (setEnt { w1 with store := some (pset st1 (entKey sc e1) r) }
              eid { e1 with dirty := false })


/-- What `load` falls back to when nothing is found: a plain default
value, or an exception kind to raise. -/
inductive LoadDefault where
  | val : PVal → LoadDefault
  | exc : String → LoadDefault


/-- The observable outcome of `load`. -/
inductive LoadRes where
  | ent : Nat → LoadRes
  | val : PVal → LoadRes
  | raised : String → LoadRes


/-- The `_instances` scan of `load` for non-UID keys: the first live
entity whose key equals the requested one. -/
def scanInstances (sc : EntSchema) (w : World) (key : PVal) :
    List (PVal × Nat) → Option Nat
  | [] => none
  | (_, eid) :: rest =>
      if pbeq (entKey sc (entAt w eid)) key then some eid
      else scanInstances sc w key rest


/-- The `_find` closure inside `Entity.load`: cache lookups when
`from_cache` permits (the `_instances` table for UID keys, then the key
cache, then a full instance scan for non-UID keys), then the store read
that materializes a clean new entity. -/
def loadCore (sc : EntSchema) (w : World) (key : PVal) (fromCache : Bool)
    (now : Nat) : World × Option Nat :=
  let cached : Option Nat :=
    if fromCache then
      if sc.storeKey = "uid" then
        match plook w.instances key with
        | some eid => some eid
        | none => plook w.cache key
      else
        match plook w.cache key with
        | some eid => some eid
        | none => scanInstances sc w key w.instances
    else none
  match cached with
  | some eid => (w, some eid)
  | none =>
      match w.store with
      | some st =>
          match plook st key with
          | some r =>
              if r.isEmpty then (w, none)
              else
                let (w2, eid) := construct sc w (some r) false true now
                (setDirty w2 eid false, some eid)
          | none => (w, none)
      | none => (w, none)


/-- Translation of `Entity.load`: run `_find`; back-fill the key cache
when something was found and the key is not cached; otherwise return the
caller's default, or raise it when it names an exception kind. -/
def load (sc : EntSchema) (w : World) (key : PVal) (fromCache : Bool)
    (default : LoadDefault) (now : Nat) : World × LoadRes :=
  let (w1, found) := loadCore sc w key fromCache now
  match found with
  | some eid =>
      let w2 := if (plook w1.cache key).isSome then w1 else cacheSet w1 key eid
      (w2, .ent eid)
  | none =>
      match default with
      | .exc nm => (w1, .raised nm)
      | .val v => (w1, .val v)


/-- The `match` policy parameter of `find` (`all` or `any`). -/
inductive MatchPolicy where
  | pall : MatchPolicy
  | pany : MatchPolicy


/-- Evaluation of the match policy on the comparison results
(`all([]) = True`, `any([]) = False`, as in Python). -/
def evalMatch : MatchPolicy → List Bool → Bool
  | .pall, bs => bs.all id
  | .pany, bs => bs.any id


/-- Set insertion for the `found` result set (identity-based: entity
objects hash by identity, our heap indices). -/
def insertSet (found : List Nat) (eid : Nat) : List Nat :=
  if eid ∈ found then found else found ++ [eid]


/-- Whether a live entity matches the criteria
(`getattr(entity, attr) == value` per pair, combined by the policy). -/
def entMatches (w : World) (pairs : List (String × PVal)) (mp : MatchPolicy)
    (eid : Nat) : Bool :=
  evalMatch mp (pairs.map (fun p => pbeq (attrGet (entAt w eid) p.1) p.2))


/-- Whether a store record matches the criteria
(`data.get(attr) == value`; a missing key compares as `None`). -/
def recMatches (pairs : List (String × PVal)) (mp : MatchPolicy)
    (r : Rec) : Bool :=
  evalMatch mp (pairs.map (fun p => pbeq ((alook r p.1).getD .vnone) p.2))


/-- The cache scan of `Entity.find` over the live `_instances`: collect
matches, break once a nonzero limit is met (the breaking entity's key is
not added to `checked_keys`), record every other scanned entity's key. -/
def findCacheLoop (sc : EntSchema) (w : World) (pairs : List (String × PVal))
    (mp : MatchPolicy) (n : Nat) :
    List Nat → List Nat → List PVal → List Nat × List PVal
  | [], found, checked => (found, checked)
  | eid :: rest, found, checked =>
      let m := entMatches w pairs mp eid
      let found2 := if m then insertSet found eid else found
      if m ∧ n ≠ 0 ∧ n ≤ found2.length then (found2, checked)
      else findCacheLoop sc w pairs mp n rest found2
        (checked ++ [entKey sc (entAt w eid)])


/-- The store scan of `Entity.find`: walk the store's keys, skip keys
already checked in memory, skip pending-deletion and empty records,
materialize a clean new entity for each matching record, break once a
nonzero limit is met. -/
def findStoreLoop (sc : EntSchema) (pairs : List (String × PVal))
    (mp : MatchPolicy) (n : Nat) (now : Nat) (st : List (PVal × Rec)) :
    List PVal → World → List Nat → List PVal → World × List Nat
  | [], w, found, _ => (w, found)
  | k :: keys, w, found, checked =>
      if pmem checked k then findStoreLoop sc pairs mp n now st keys w found checked
      else
        match plook st k with
        | none => findStoreLoop sc pairs mp n now st keys w found checked
        | some r =>
            if r.isEmpty then
              findStoreLoop sc pairs mp n now st keys w found checked
            else if recMatches pairs mp r then
              let (w2, eid) := construct sc w (some r) false true now
              let w3 := setDirty w2 eid false
              let found2 := insertSet found eid
              if n ≠ 0 ∧ n ≤ found2.length then (w3, found2)
              else findStoreLoop sc pairs mp n now st keys w3 found2 checked
            else findStoreLoop sc pairs mp n now st keys w found checked


/-- The observable outcome of `find`: a single optional entity when the
limit is 1, otherwise a list. -/
inductive FindRes where
  | one : Option Nat → FindRes
  | many : List Nat → FindRes


/-- Translation of `Entity.find`: scan the cache of live instances when
`cache`, fall back to the store's key enumeration when `store` and the
limit is not yet met, and shape the result by the limit.  (The source
iterates `cls._store.keys()`; a class with no bound store would raise
there, so the store is taken as a parameter.) -/
def find (sc : EntSchema) (w : World) (st : List (PVal × Rec))
    (pairs : List (String × PVal)) (cache store : Bool) (mp : MatchPolicy)
    (n : Nat) (now : Nat) : World × FindRes :=
  let (found1, checked) :=
    if cache then
      findCacheLoop sc w pairs mp n (w.instances.map Prod.snd) [] []
    else ([], [])
  let (w2, found2) :=
    if store ∧ (n = 0 ∨ found1.length < n) then
      findStoreLoop sc pairs mp n now st (st.map Prod.fst) w found1 checked
    else (w, found1)
  if n = 1 then
    (w2, .one found2.head?)
  else (w2, .many found2)


/-- Translation of `Entity.clone`: fail without a store or when the new
key already exists; otherwise duplicate the serialized data minus the
UID, construct a new entity from it, and assign the new key through the
key property (which silently no-ops for a read-only key attribute and
cannot assign the UID property). -/
def clone (sc : EntSchema) (w : World) (eid : Nat) (newKey : PVal)
    (now : Nat) : Except String (World × Nat) :=
  match w.store with
  | none => .error "TypeError: cannot clone entity with no store"
  | some st =>
      if (plook st newKey).isSome then
        .error "KeyError: key exists in entity store"
      else
        match serializeEnt sc (entAt w eid) with
        | .error err => .error err
        | .ok r =>
            let r2 := aerase r "uid"
            let (w1, nid) := construct sc w (some r2) false true now
            if sc.storeKey = "uid" then
              .error "AttributeError: cannot set uid"
            else
              match alook sc.attrs sc.storeKey with
              | none => .error "AttributeError"
              | some a =>
                  if a.readOnly then .ok (w1, nid)
                  else
                    match setAttrVal sc w1 nid sc.storeKey newKey true false with
                    | .ok w2 => .ok (w2, nid)
                    | .error err => .error err


/-! ### Registration (claim C9) -/

/-- Translation of `EntityManager.register` at the name/code level: the
manager's `_entities` maps registered class names to their `_uid_code`;
a duplicate class name raises `AlreadyExists`, a duplicate UID code
raises `KeyError`. -/
def registerEntity (reg : List (String × String)) (name code : String) :
    Except String (List (String × String)) :=
  if (alook reg name).isSome then .error "AlreadyExists"
  else if reg.any (fun p => p.2 == code) then
    .error "KeyError: cannot register two Entity classes with the same UID code"
  else .ok (reg ++ [(name, code)])


/-- Translation of the duplicate-name guard of
`_EntityMeta.register_attr` / `_DataBlobMeta.register_attr`: registering
a field whose name already exists on the class raises `AlreadyExists`;
otherwise the name is added to the class namespace. -/
def registerAttr (ns : List String) (name : String) :
    Except String (List String) :=
  if name ∈ ns then .error "AlreadyExists" else .ok (ns ++ [name])


/-- An integer-only attribute used by witnesses: validation rejects
anything that is not an int. -/
def intAttr : AttrSpec :=
  { default := .unset, readOnly := false,
    validate := fun v => match v with
      | .vint n => .ok (.vint n)
      | _ => .error "TypeError: must be int",
    finalize := id, ser := id, deser := id }


/-- The witness schema: a string key field `name` and an int field
`hp`; entities are stored under `name`. -/
def wsc : EntSchema :=
  { attrs := [("name", idAttr), ("hp", intAttr)], storeKey := "name",
    uidCode := "E" }


/-- A live witness entity with key `"A"`. -/
def went : Ent :=
  { uid := .vstr "E-1", vals := [("name", .vstr "A"), ("hp", .vint 5)],
    flags := [], tags := [], dirty := false, savable := true, active := true }


/-- The serialized record of `went`, as `Entity.serialize` emits it. -/
def wrec : Rec :=
  [("name", .vstr "A"), ("hp", .vint 5), ("uid", .vstr "E-1"),
   ("flags", .vlist []), ("tags", .vdict [])]


/-- The witness world: one live entity, registered and cached, whose
record sits in the store under `"A"`. -/
def wworld : World :=
  { ents := [went], instances := [(.vstr "E-1", 0)],
    cache := [(.vstr "A", 0)], cacheCap := 512,
    store := some [(.vstr "A", wrec)], uidCounter := 5 }


/-! ### Frame specification of construction (`Entity.__init__`)

`Tracks` captures that a world evolved from `w` by touching only heap
slot `eid` (the key cache is deliberately left unconstrained, since
key-changing commits relocate cache slots). -/

def Tracks (w w' : World) (eid : Nat) (e' : Ent) : Prop :=
  w'.ents.length = w.ents.length ∧ entAt w' eid = e' ∧
  (∀ i, i ≠ eid → entAt w' i = entAt w i) ∧ w'.store = w.store ∧
  w'.instances = w.instances ∧ w'.cacheCap = w.cacheCap ∧
  w'.uidCounter = w.uidCounter


/-- The tail of `Entity.__init__` after deserialization, as inlined in
`construct`: generate a UID when none resulted, register in
`_instances`, insert into the key cache unless occupied. -/
def constructTail (sc : EntSchema) (w2 : World) (eid : Nat) (now : Nat) :
    World :=
  let w3 :=
    if (entAt w2 eid).uid.isNone then
      let c2 := uidStep now w2.uidCounter
      setEnt { w2 with uidCounter := c2 } eid
        { entAt w2 eid with uid := .vstr (makeUidStr sc.uidCode c2) }
    else w2
  let w4 := { w3 with
    instances := pset w3.instances (entAt w3 eid).uid eid }
  let key := entKey sc (entAt w4 eid)
  if (plook w4.cache key).isSome then w4 else cacheSet w4 key eid


/-- The entity state produced by constructing from a record: the record
applied to a fresh entity, plus a generated UID when the record supplied
none. -/
def constructedEnt (sc : EntSchema) (w : World) (r : Rec)
    (active savable : Bool) (now : Nat) : Ent :=
  let ebase := applyRecToEnt sc (freshEnt sc active savable) r
  if ebase.uid.isNone then
    { ebase with
      uid := .vstr (makeUidStr sc.uidCode (uidStep now w.uidCounter)) }
  else ebase


/-- The record `Entity.clone` passes to the new entity's constructor:
the serialized data of the original with the `uid` entry deleted. -/
def cloneRec (sc : EntSchema) (e : Ent) : Rec :=
  (sc.attrs.map fun p => (p.1, serValOf e.vals p)) ++
    [("flags", .vlist (e.flags.map .vstr)), ("tags", .vdict e.tags)]


/-! ## Theorems -/

theorem uidStep_gt (t c : Nat) : c < uidStep t c := by
  simp only [uidStep]
  split <;> omega


theorem fromDigits_toDigitsRev (fuel : Nat) :
    ∀ n : Nat, n ≤ fuel → fromDigits (toDigitsRev fuel n) = n := by
  induction fuel with
  | zero =>
      intro n hn
      interval_cases n
      simp [toDigitsRev, fromDigits]
  | succ f ih =>
      intro n hn
      match n with
      | 0 => simp [toDigitsRev, fromDigits]
      | m + 1 =>
          have hdiv : (m + 1) / 58 ≤ f := by
            have h1 : (m + 1) / 58 < m + 1 := Nat.div_lt_self (Nat.succ_pos m) (by omega)
            omega
          simp only [toDigitsRev, fromDigits, ih _ hdiv]
          omega


theorem toDigitsRev_lt (fuel : Nat) :
    ∀ n d : Nat, d ∈ toDigitsRev fuel n → d < 58 := by
  induction fuel with
  | zero => intro n d hd; simp [toDigitsRev] at hd
  | succ f ih =>
      intro n d hd
      match n with
      | 0 => simp [toDigitsRev] at hd
      | m + 1 =>
          simp only [toDigitsRev, List.mem_cons] at hd
          rcases hd with h | h
          · have : (m + 1) % 58 < 58 := Nat.mod_lt _ (by omega)
            omega
          · exact ih _ _ h


theorem charset_getD_inj :
    ∀ i j : Fin 58,
      uidTimecodeCharset.getD i.val ' ' = uidTimecodeCharset.getD j.val ' ' →
      i = j := by decide


theorem renderDigits_inj :
    ∀ xs ys : List Nat, (∀ d ∈ xs, d < 58) → (∀ d ∈ ys, d < 58) →
      xs.map (fun d => uidTimecodeCharset.getD d ' ') =
        ys.map (fun d => uidTimecodeCharset.getD d ' ') →
      xs = ys := by
  intro xs
  induction xs with
  | nil =>
      intro ys _ _ h
      cases ys with
      | nil => rfl
      | cons y ys => simp at h
  | cons x xs ih =>
      intro ys hx hy h
      cases ys with
      | nil => simp at h
      | cons y ys =>
          simp only [List.map_cons, List.cons.injEq] at h
          obtain ⟨h1, h2⟩ := h
          have hx' : x < 58 := hx x (by simp)
          have hy' : y < 58 := hy y (by simp)
          have hf := charset_getD_inj ⟨x, hx'⟩ ⟨y, hy'⟩ h1
          have hxy : x = y := congrArg Fin.val hf
          have hrest := ih ys (fun d hd => hx d (by simp [hd]))
            (fun d hd => hy d (by simp [hd])) h2
          rw [hxy, hrest]


theorem string_mk_inj {a b : List Char} (h : String.mk a = String.mk b) :
    a = b := by
  injection h


theorem string_data_append (s t : String) : (s ++ t).data = s.data ++ t.data :=
  rfl


theorem string_data_inj {s t : String} (h : s.data = t.data) : s = t := by
  cases s
  cases t
  simp only at h
  rw [h]


theorem intToBaseN_inj {m n : Nat} (h : intToBaseN m = intToBaseN n) : m = n := by
  unfold intToBaseN at h
  have h1 := string_mk_inj h
  rw [List.reverse_inj] at h1
  have h2 := renderDigits_inj _ _ (fun d hd => toDigitsRev_lt m m d hd)
    (fun d hd => toDigitsRev_lt n n d hd) h1
  have hm := fromDigits_toDigitsRev m m (Nat.le_refl m)
  have hn := fromDigits_toDigitsRev n n (Nat.le_refl n)
  rw [← hm, ← hn, h2]


theorem makeUidStr_inj (code : String) {a b : Nat}
    (h : makeUidStr code a = makeUidStr code b) : a = b := by
  unfold makeUidStr at h
  have hd := congrArg String.data h
  simp only [string_data_append] at hd
  have hd2 := List.append_cancel_left hd
  exact intToBaseN_inj (string_data_inj hd2)


theorem uidCounters_pairwise_lt (ts : List Nat) :
    ∀ c : Nat, (uidCounters ts c).Pairwise (· < ·) ∧
      ∀ x ∈ uidCounters ts c, c < x := by
  induction ts with
  | nil => intro c; simp [uidCounters]
  | cons t ts ih =>
      intro c
      obtain ⟨hp, hgt⟩ := ih (uidStep t c)
      constructor
      · exact List.Pairwise.cons (fun x hx => hgt x hx) hp
      · intro x hx
        simp only [uidCounters, List.mem_cons] at hx
        rcases hx with h | h
        · rw [h]; exact uidStep_gt t c
        · exact Nat.lt_trans (uidStep_gt t c) (hgt x h)


theorem uidCounters_chain (ts : List Nat) :
    ∀ c : Nat, List.Chain (· < ·) c (uidCounters ts c) := by
  induction ts with
  | nil => intro c; simp [uidCounters]
  | cons t ts ih =>
      intro c
      exact List.Chain.cons (uidStep_gt t c) (ih (uidStep t c))


/-- C2: within one process, successive `make_uid` calls produce strictly
monotonically increasing timecodes and pairwise distinct identifiers, for
any sequence of clock readings (including repeated or non-advancing ones):
each call computes `time * multiplier`, adopts it when it exceeds the
stored counter, and otherwise increments the counter by one (`uidStep`),
so the counter chain is strictly increasing and the rendered identifier
strings never collide. -/
theorem make_uid_monotone_collision_free (code : String) (ts : List Nat)
    (c0 : Nat) :
    List.Chain (· < ·) c0 (uidCounters ts c0) ∧
    List.Pairwise (· ≠ ·) ((uidCounters ts c0).map (makeUidStr code)) := by
  refine ⟨uidCounters_chain ts c0, ?_⟩
  have hp := (uidCounters_pairwise_lt ts c0).1
  exact hp.map (makeUidStr code)
    (fun a b hlt heq => Nat.ne_of_lt hlt (makeUidStr_inj code heq))


/-! ### Association-list lemmas -/

theorem alook_aset {α : Type} (d : List (String × α)) (k : String) (v : α)
    (q : String) :
    alook (aset d k v) q = if k = q then some v else alook d q := by
  induction d with
  | nil => simp [aset, alook, beq_iff_eq]
  | cons p rest ih =>
      obtain ⟨pk, pv⟩ := p
      by_cases hpk : pk = k
      · subst hpk
        by_cases hq : pk = q <;> simp [aset, alook, beq_iff_eq, hq]
      · by_cases hq : pk = q
        · subst hq
          have hk : ¬(k = pk) := fun h => hpk h.symm
          simp [aset, alook, beq_iff_eq, hpk, hk]
        · simp [aset, alook, beq_iff_eq, hpk, hq, ih]


theorem alook_eq_none_of_not_mem {α : Type} (d : List (String × α))
    (q : String) (h : q ∉ d.map Prod.fst) : alook d q = none := by
  induction d with
  | nil => rfl
  | cons p rest ih =>
      simp only [List.map_cons, List.mem_cons] at h
      push_neg at h
      simp only [alook, beq_iff_eq]
      rw [if_neg (Ne.symm h.1), ih h.2]


theorem alook_isSome_of_mem {α : Type} (d : List (String × α)) (q : String)
    (h : q ∈ d.map Prod.fst) : (alook d q).isSome := by
  induction d with
  | nil => simp at h
  | cons p rest ih =>
      simp only [List.map_cons, List.mem_cons] at h
      simp only [alook, beq_iff_eq]
      by_cases he : p.1 = q
      · simp [he]
      · rcases h with h | h
        · exact absurd h.symm he
        · simpa [he] using ih h


theorem alook_self_of_nodup {α : Type} (d : List (String × α))
    (hn : (d.map Prod.fst).Nodup) :
    ∀ p ∈ d, alook d p.1 = some p.2 := by
  induction d with
  | nil => intro p hp; simp at hp
  | cons q rest ih =>
      simp only [List.map_cons, List.nodup_cons] at hn
      intro p hp
      rcases List.mem_cons.mp hp with h | h
      · subst h; simp [alook]
      · have hne : q.1 ≠ p.1 := by
          intro he
          exact hn.1 (he ▸ List.mem_map_of_mem Prod.fst h)
        simp only [alook, beq_iff_eq, if_neg hne]
        exact ih hn.2 p h


theorem alook_append_left {α : Type} (d1 d2 : List (String × α)) (q : String)
    (h : alook d1 q = none) : alook (d1 ++ d2) q = alook d2 q := by
  induction d1 with
  | nil => rfl
  | cons p rest ih =>
      simp only [alook] at h ⊢
      by_cases he : (p.1 == q) = true
      · simp [he] at h
      · simp only [he, if_false] at h ⊢
        simp only [Bool.not_eq_true] at he
        exact ih h


theorem alook_append_some {α : Type} (d1 d2 : List (String × α)) (q : String)
    {v : α} (h : alook d1 q = some v) : alook (d1 ++ d2) q = some v := by
  induction d1 with
  | nil => simp [alook] at h
  | cons p rest ih =>
      simp only [alook] at h ⊢
      by_cases he : (p.1 == q) = true
      · simpa [he] using h
      · simp only [he, if_false] at h ⊢
        exact ih h


theorem aset_eq_append_of_not_mem {α : Type} (d : List (String × α))
    (k : String) (v : α) (h : k ∉ d.map Prod.fst) :
    aset d k v = d ++ [(k, v)] := by
  induction d with
  | nil => rfl
  | cons p rest ih =>
      simp only [List.map_cons, List.mem_cons] at h
      push_neg at h
      simp only [aset, beq_iff_eq]
      rw [if_neg (Ne.symm h.1)]
      simp [ih h.2]


theorem aset_append_left_of_not_mem {α : Type} (d1 d2 : List (String × α))
    (k : String) (v : α) (h : k ∉ d1.map Prod.fst) :
    aset (d1 ++ d2) k v = d1 ++ aset d2 k v := by
  induction d1 with
  | nil => rfl
  | cons p rest ih =>
      simp only [List.map_cons, List.mem_cons] at h
      push_neg at h
      simp only [List.cons_append, aset, beq_iff_eq]
      rw [if_neg (Ne.symm h.1)]
      simp [ih h.2]


theorem aset_cons_self {α : Type} (k : String) (w v : α)
    (rest : List (String × α)) :
    aset ((k, w) :: rest) k v = (k, v) :: rest := by
  simp [aset]


theorem keys_aset_of_not_mem {α : Type} (d : List (String × α)) (k : String)
    (v : α) (h : k ∉ d.map Prod.fst) :
    (aset d k v).map Prod.fst = d.map Prod.fst ++ [k] := by
  rw [aset_eq_append_of_not_mem d k v h]
  simp


theorem mem_keys_of_alook_some {α : Type} {d : List (String × α)}
    {q : String} {v : α} (h : alook d q = some v) : q ∈ d.map Prod.fst := by
  by_contra hq
  rw [alook_eq_none_of_not_mem d q hq] at h
  exact Option.noConfusion h


theorem freshSubs_eq (ps : List (String × Blob)) :
    freshSubs ps = ps.map fun p => (p.1, freshBlob p.2) := by
  induction ps with
  | nil => rfl
  | cons p rest ih => obtain ⟨k, s⟩ := p; simp [freshSubs, ih]


theorem serializeAttrs_spec (pa : List (String × AttrSpec))
    (vals : List (String × PVal)) :
    ∀ data0 : List (String × PVal),
      (∀ p ∈ pa, p.1 ∉ data0.map Prod.fst) →
      (pa.map Prod.fst).Nodup →
      serializeAttrs pa vals data0 =
        .ok (data0 ++ pa.map fun p => (p.1, serValOf vals p)) := by
  induction pa with
  | nil => intro d _ _; simp [serializeAttrs]
  | cons p rest ih =>
      intro d h hn
      obtain ⟨k, a⟩ := p
      have hmem : k ∉ d.map Prod.fst := h (k, a) (List.mem_cons_self _ _)
      have hnone := alook_eq_none_of_not_mem d k hmem
      simp only [List.map_cons, List.nodup_cons] at hn
      simp only [serializeAttrs, hnone, Option.isSome_none, Bool.false_eq_true,
        if_false]
      rw [aset_eq_append_of_not_mem d k _ hmem]
      rw [ih (d ++ [(k, if ((alook vals k).getD PVal.vnone).isUnset then
            (alook vals k).getD PVal.vnone
          else a.ser ((alook vals k).getD PVal.vnone))])
        ?_ hn.2]
      · simp [serValOf]
      · intro q hq
        simp only [List.map_append, List.mem_append, List.map_cons]
        push_neg
        refine ⟨fun hc => h q (List.mem_cons_of_mem _ hq) hc, ?_⟩
        simp only [List.map_nil, List.mem_singleton]
        intro hc
        exact hn.1 (hc ▸ List.mem_map_of_mem Prod.fst hq)


theorem serializeSubs_spec :
    ∀ (ps : List (String × Blob)) (data0 : List (String × PVal)),
      (∀ p ∈ ps, ∃ d, serializeBlob p.2 = .ok d ∧
          deserializeItems (freshBlob p.2) d = .ok p.2) →
      (∀ p ∈ ps, p.1 ∉ data0.map Prod.fst) →
      (ps.map Prod.fst).Nodup →
      ∃ entries, serializeSubs ps data0 = .ok (data0 ++ entries) ∧
        entries.map Prod.fst = ps.map Prod.fst ∧
        List.Forall₂ (fun (p : String × Blob) (q : String × PVal) =>
          q.1 = p.1 ∧ ∃ d, q.2 = PVal.vdict d ∧
            deserializeItems (freshBlob p.2) d = .ok p.2) ps entries := by
  intro ps
  induction ps with
  | nil => intro d _ _ _; exact ⟨[], by simp [serializeSubs], by simp, .nil⟩
  | cons p rest ih =>
      intro d h hmem hn
      obtain ⟨k, s⟩ := p
      obtain ⟨ds, hser, hdes⟩ := h (k, s) (List.mem_cons_self _ _)
      have hkmem : k ∉ d.map Prod.fst := hmem (k, s) (List.mem_cons_self _ _)
      simp only [List.map_cons, List.nodup_cons] at hn
      have hstep : ∀ q ∈ rest, q.1 ∉ (aset d k (PVal.vdict ds)).map Prod.fst := by
        intro q hq
        rw [keys_aset_of_not_mem d k _ hkmem]
        simp only [List.mem_append, List.mem_singleton]
        push_neg
        refine ⟨fun hc => hmem q (List.mem_cons_of_mem _ hq) hc, ?_⟩
        intro hc
        exact hn.1 (hc ▸ List.mem_map_of_mem Prod.fst hq)
      obtain ⟨entries, hserR, hkeys, hfar⟩ :=
        ih (aset d k (.vdict ds))
          (fun q hq => h q (List.mem_cons_of_mem _ hq))
          hstep hn.2
      refine ⟨(k, .vdict ds) :: entries, ?_, ?_, ?_⟩
      · simp only [serializeSubs, hser]
        rw [hserR, aset_eq_append_of_not_mem d k _ hkmem]
        simp
      · simp [hkeys]
      · exact .cons ⟨rfl, ds, rfl, hdes⟩ hfar


theorem deser_subs_phase :
    ∀ (ps : List (String × Blob)) (entries : List (String × PVal)),
      List.Forall₂ (fun (p : String × Blob) (q : String × PVal) =>
        q.1 = p.1 ∧ ∃ d, q.2 = PVal.vdict d ∧
          deserializeItems (freshBlob p.2) d = .ok p.2) ps entries →
      ∀ (attrs : List (String × AttrSpec)) (vals : List (String × PVal))
        (pre : List (String × Blob)) (rest : List (String × PVal)),
      (∀ p ∈ ps, alook attrs p.1 = none) →
      (ps.map Prod.fst).Nodup →
      (∀ p ∈ ps, p.1 ∉ pre.map Prod.fst) →
      deserializeItems (.mk attrs vals (pre ++ freshSubs ps)) (entries ++ rest) =
        deserializeItems (.mk attrs vals (pre ++ ps)) rest := by
  intro ps entries hfar
  induction hfar with
  | nil => intro attrs vals pre rest _ _ _; simp [freshSubs]
  | @cons p q ps' es' hpq htail ih =>
      obtain ⟨k, s⟩ := p
      obtain ⟨q1, q2⟩ := q
      obtain ⟨hq1, d, hq2, hdes⟩ := hpq
      simp only at hq1 hq2
      subst hq1
      subst hq2
      intro attrs vals pre rest hattrs hn hpre
      simp only [List.map_cons, List.nodup_cons] at hn
      have hattr : alook attrs q1 = none := hattrs (q1, s) (List.mem_cons_self _ _)
      have hprek : q1 ∉ pre.map Prod.fst := hpre (q1, s) (List.mem_cons_self _ _)
      have hsub : alook (pre ++ (q1, freshBlob s) :: freshSubs ps') q1 =
          some (freshBlob s) := by
        rw [alook_append_left _ _ _ (alook_eq_none_of_not_mem _ _ hprek)]
        simp [alook]
      simp only [freshSubs, List.cons_append, deserializeItems, hattr, hsub, hdes]
      rw [aset_append_left_of_not_mem _ _ _ _ hprek, aset_cons_self]
      have hshape : pre ++ (q1, s) :: freshSubs ps' =
          (pre ++ [(q1, s)]) ++ freshSubs ps' := by simp
      rw [hshape]
      rw [ih attrs vals (pre ++ [(q1, s)]) rest
        (fun r hr => hattrs r (List.mem_cons_of_mem _ hr)) hn.2 ?_]
      · have : (pre ++ [(q1, s)]) ++ ps' = pre ++ (q1, s) :: ps' := by simp
        rw [this]
      · intro r hr
        simp only [List.map_append, List.mem_append, List.map_cons, List.map_nil,
          List.mem_singleton]
        push_neg
        refine ⟨fun hc => hpre r (List.mem_cons_of_mem _ hr) hc, ?_⟩
        intro hc
        exact hn.1 (hc ▸ List.mem_map_of_mem Prod.fst hr)


theorem deser_attrs_phase :
    ∀ (pa : List (String × AttrSpec)) (entries : List (String × PVal))
      (g : String → PVal),
      List.Forall₂ (fun (p : String × AttrSpec) (q : String × PVal) =>
        q.1 = p.1 ∧ (if q.2.isUnset then q.2 else p.2.deser q.2) = g p.1)
        pa entries →
      ∀ (attrs : List (String × AttrSpec)) (subs : List (String × Blob))
        (pre : List (String × PVal)) (h0 : String × AttrSpec → PVal),
      (∀ p ∈ pa, alook attrs p.1 = some p.2) →
      (pa.map Prod.fst).Nodup →
      (∀ p ∈ pa, p.1 ∉ pre.map Prod.fst) →
      deserializeItems (.mk attrs (pre ++ pa.map fun p => (p.1, h0 p)) subs)
          entries =
        .ok (.mk attrs (pre ++ pa.map fun p => (p.1, g p.1)) subs) := by
  intro pa entries g hfar
  induction hfar with
  | nil => intro attrs subs pre h0 _ _ _; simp [deserializeItems]
  | @cons p q pa' es' hpq htail ih =>
      obtain ⟨k, a⟩ := p
      obtain ⟨q1, q2⟩ := q
      obtain ⟨hq1, hval⟩ := hpq
      simp only at hq1 hval
      subst hq1
      intro attrs subs pre h0 hatt hn hpre
      simp only [List.map_cons, List.nodup_cons] at hn
      have ha : alook attrs q1 = some a := hatt (q1, a) (List.mem_cons_self _ _)
      have hprek : q1 ∉ pre.map Prod.fst := hpre (q1, a) (List.mem_cons_self _ _)
      simp only [List.map_cons, List.cons_append, deserializeItems, ha]
      rw [hval]
      rw [aset_append_left_of_not_mem _ _ _ _ hprek, aset_cons_self]
      have hshape : pre ++ (q1, g q1) :: pa'.map (fun p => (p.1, h0 p)) =
          (pre ++ [(q1, g q1)]) ++ pa'.map (fun p => (p.1, h0 p)) := by simp
      rw [hshape]
      rw [ih attrs subs (pre ++ [(q1, g q1)]) h0
        (fun r hr => hatt r (List.mem_cons_of_mem _ hr)) hn.2 ?_]
      · have : (pre ++ [(q1, g q1)]) ++ pa'.map (fun p => (p.1, g p.1)) =
            pre ++ (q1, g q1) :: pa'.map (fun p => (p.1, g p.1)) := by simp
        rw [this]
      · intro r hr
        simp only [List.map_append, List.mem_append, List.map_cons, List.map_nil,
          List.mem_singleton]
        push_neg
        refine ⟨fun hc => hpre r (List.mem_cons_of_mem _ hr) hc, ?_⟩
        intro hc
        exact hn.1 (hc ▸ List.mem_map_of_mem Prod.fst hr)


theorem map_alook_eq_vals :
    ∀ (attrs : List (String × AttrSpec)) (vals : List (String × PVal)),
      vals.map Prod.fst = attrs.map Prod.fst →
      (attrs.map Prod.fst).Nodup →
      (attrs.map fun p => (p.1, (alook vals p.1).getD PVal.vnone)) = vals := by
  intro attrs
  induction attrs with
  | nil =>
      intro vals hk _
      simp only [List.map_nil, List.map_eq_nil_iff] at hk ⊢
      exact hk.symm
  | cons p arest ih =>
      intro vals hk hn
      obtain ⟨k, a⟩ := p
      cases vals with
      | nil => simp at hk
      | cons v vrest =>
          simp only [List.map_cons, List.cons.injEq] at hk
          obtain ⟨hk1, hk2⟩ := hk
          simp only [List.map_cons, List.nodup_cons] at hn
          obtain ⟨v1, v2⟩ := v
          simp only at hk1
          subst hk1
          simp only [List.map_cons, List.cons.injEq]
          refine ⟨by simp [alook], ?_⟩
          have hcongr : (arest.map fun p =>
              (p.1, (alook ((v1, v2) :: vrest) p.1).getD PVal.vnone)) =
              arest.map fun p => (p.1, (alook vrest p.1).getD PVal.vnone) := by
            apply List.map_congr_left
            intro q hq
            have hne : v1 ≠ q.1 := by
              intro he
              exact hn.1 (he ▸ List.mem_map_of_mem Prod.fst hq)
            simp [alook, beq_iff_eq, hne]
          rw [hcongr]
          exact ih vrest hk2 hn.2


theorem alook_serAttrs_unset :
    ∀ (attrs : List (String × AttrSpec)) (vals : List (String × PVal))
      (q : String), alook vals q = some .unset → q ∈ attrs.map Prod.fst →
      alook (attrs.map fun p => (p.1, serValOf vals p)) q = some .unset := by
  intro attrs
  induction attrs with
  | nil => intro vals q _ hq; simp at hq
  | cons p arest ih =>
      intro vals q hv hq
      obtain ⟨k, a⟩ := p
      by_cases he : k = q
      · subst he
        simp [alook, serValOf, hv, PVal.isUnset]
      · simp only [List.map_cons, List.mem_cons] at hq
        rcases hq with h | h
        · exact absurd h.symm he
        · simp only [List.map_cons, alook, beq_iff_eq, if_neg he]
          exact ih vals q hv h


theorem blob_serialize_roundtrip :
    ∀ b, BlobWF b → HookInv b →
      ∃ data, serializeBlob b = .ok data ∧
        deserializeItems (freshBlob b) data = .ok b ∧
        ∀ q, alook b.vals q = some .unset → alook data q = some .unset := by
  intro b hwf
  induction hwf with
  | @mk attrs vals subs h1 h2 h3 h4 h5 ih =>
      intro hinv
      cases hinv with
      | mk ha hs =>
          have hsubsne : ∀ p ∈ subs, ∃ d, serializeBlob p.2 = .ok d ∧
              deserializeItems (freshBlob p.2) d = .ok p.2 := by
            intro p hp
            obtain ⟨data, hd1, hd2, _⟩ := ih p hp (hs p hp)
            exact ⟨data, hd1, hd2⟩
          obtain ⟨entries, hserS, hkeysS, hfar⟩ :=
            serializeSubs_spec subs [] hsubsne (by simp) h2
          simp only [List.nil_append] at hserS
          have hdisj : ∀ p ∈ attrs, p.1 ∉ entries.map Prod.fst := by
            intro p hp
            rw [hkeysS]
            exact h3 p.1 (List.mem_map_of_mem Prod.fst hp)
          have hserA := serializeAttrs_spec attrs vals entries hdisj h1
          refine ⟨entries ++ attrs.map (fun p => (p.1, serValOf vals p)),
            ?_, ?_, ?_⟩
          · simp only [serializeBlob, hserS, hserA]
          · have hfresh : freshBlob (.mk attrs vals subs) =
                .mk attrs (attrs.map fun p => (p.1, p.2.default))
                  (freshSubs subs) := by
              simp [freshBlob]
            rw [hfresh]
            have hsubsattr : ∀ p ∈ subs, alook attrs p.1 = none := by
              intro p hp
              apply alook_eq_none_of_not_mem
              intro hc
              exact h3 p.1 hc (List.mem_map_of_mem Prod.fst hp)
            have hphase1 := deser_subs_phase subs entries hfar attrs
              (attrs.map fun p => (p.1, p.2.default)) []
              (attrs.map fun p => (p.1, serValOf vals p))
              hsubsattr h2 (by simp)
            simp only [List.nil_append] at hphase1
            rw [hphase1]
            have hfarA : List.Forall₂ (fun (p : String × AttrSpec)
                (q : String × PVal) => q.1 = p.1 ∧
                (if q.2.isUnset then q.2 else p.2.deser q.2) =
                  (alook vals p.1).getD PVal.vnone) attrs
                (attrs.map fun p => (p.1, serValOf vals p)) := by
              rw [List.forall₂_map_right_iff]
              rw [List.forall₂_same]
              intro p hp
              refine ⟨rfl, ?_⟩
              have hksome : (alook vals p.1).isSome := by
                apply alook_isSome_of_mem
                rw [h4]
                exact List.mem_map_of_mem Prod.fst hp
              obtain ⟨v, hv⟩ := Option.isSome_iff_exists.mp hksome
              rw [hv]
              simp only [Option.getD_some, serValOf, hv]
              by_cases hu : v.isUnset
              · cases v <;> simp [PVal.isUnset] at hu ⊢
              · have hub : v.isUnset = false := by
                  simpa [Bool.not_eq_true] using hu
                obtain ⟨hser_nu, hser_inv⟩ := ha p hp v hv hub
                simp only [Option.getD_some, hub, Bool.false_eq_true, if_false,
                  hser_nu, hser_inv]
            have hattrsome := alook_self_of_nodup attrs h1
            have hphase2 := deser_attrs_phase attrs
              (attrs.map fun p => (p.1, serValOf vals p))
              (fun k => (alook vals k).getD PVal.vnone) hfarA attrs subs []
              (fun p => p.2.default) hattrsome h1 (by simp)
            simp only [List.nil_append] at hphase2
            rw [hphase2, map_alook_eq_vals attrs vals h4 h1]
          · intro q hq
            simp only [Blob.vals] at hq
            have hqmem : q ∈ attrs.map Prod.fst := by
              rw [← h4]
              exact mem_keys_of_alook_some hq
            have hqnotsub : q ∉ entries.map Prod.fst := by
              rw [hkeysS]
              exact h3 q hqmem
            rw [alook_append_left _ _ _ (alook_eq_none_of_not_mem _ _ hqnotsub)]
            exact alook_serAttrs_unset attrs vals q hq hqmem


/-- C3: serializing a blob and deserializing the result into an instance
of the same schema (a freshly constructed blob) reproduces the exact
field-value mapping, including nested sub-blobs; fields holding the
`Unset` sentinel stay `Unset` in the serialized data — the `_serialize`
hook is skipped for them, as the third conjunct shows for an arbitrary
hook — and on the way back in the `_deserialize` hook is skipped for the
sentinel, so unset fields remain unset.  Holds for every well-formed blob
whose hooks convert faithfully to and from storable primitives. -/
theorem serialize_roundtrip_c3 (b : Blob) (hwf : BlobWF b)
    (hinv : HookInv b) :
    ∃ data, serializeBlob b = .ok data ∧
      deserializeItems (freshBlob b) data = .ok b ∧
      ∀ q, alook b.vals q = some .unset → alook data q = some .unset :=
  blob_serialize_roundtrip b hwf hinv


theorem sampleBlob_wf : BlobWF sampleBlob := by
  refine BlobWF.mk ?_ ?_ ?_ rfl ?_
  · decide
  · decide
  · decide
  · intro p hp
    simp only [sampleBlob, List.mem_singleton] at hp
    subst hp
    refine BlobWF.mk ?_ ?_ ?_ rfl ?_
    · decide
    · decide
    · decide
    · intro p hp
      simp [sampleSub] at hp


theorem sampleBlob_hooks : HookInv sampleBlob := by
  refine HookInv.mk ?_ ?_
  · intro p hp v _ hnu
    simp only [sampleBlob, List.mem_cons, List.mem_singleton] at hp
    rcases hp with hp | hp | hp
    · subst hp; simpa [idAttr] using hnu
    · subst hp; simpa [idAttr] using hnu
    · simp at hp
  · intro p hp
    simp only [sampleBlob, List.mem_singleton] at hp
    subst hp
    refine HookInv.mk ?_ ?_
    · intro q hq v _ hnu
      simp only [sampleSub, List.mem_singleton] at hq
      subst hq
      simpa [idAttr] using hnu
    · intro q hq
      simp [sampleSub] at hq


/-- Witness for C3 at a concrete blob: a set field, an unset field and a
sub-blob round-trip exactly. -/
theorem serialize_roundtrip_c3_witness :
    ∃ data, serializeBlob sampleBlob = .ok data ∧
      deserializeItems (freshBlob sampleBlob) data = .ok sampleBlob ∧
      ∀ q, alook sampleBlob.vals q = some .unset →
        alook data q = some .unset :=
  serialize_roundtrip_c3 sampleBlob sampleBlob_wf sampleBlob_hooks


theorem mem_foldl_insertNew :
    ∀ (l : List String) (acc : List String) (n : String),
      n ∈ l.foldl insertNew acc ↔ n ∈ acc ∨ n ∈ l := by
  intro l
  induction l with
  | nil => intro acc n; simp
  | cons x xs ih =>
      intro acc n
      simp only [List.foldl_cons, ih, insertNew]
      by_cases hx : x ∈ acc
      · simp only [hx, if_true, List.mem_cons]
        constructor
        · rintro (h | h)
          · exact .inl h
          · exact .inr (.inr h)
        · rintro (h | h | h)
          · exact .inl h
          · exact .inl (h ▸ hx)
          · exact .inr h
      · simp only [hx, if_false, List.mem_append, List.mem_singleton,
          List.mem_cons]
        tauto


theorem nodup_foldl_insertNew :
    ∀ (l : List String) (acc : List String), acc.Nodup →
      (l.foldl insertNew acc).Nodup := by
  intro l
  induction l with
  | nil => intro acc h; exact h
  | cons x xs ih =>
      intro acc h
      simp only [List.foldl_cons]
      apply ih
      simp only [insertNew]
      by_cases hx : x ∈ acc
      · simpa [hx] using h
      · simp only [hx, if_false]
        simpa [List.nodup_append] using ⟨h, hx⟩


theorem foldl_insertNew_extends :
    ∀ (l : List String) (acc : List String),
      ∃ g, l.foldl insertNew acc = acc ++ g := by
  intro l
  induction l with
  | nil => intro acc; exact ⟨[], by simp⟩
  | cons x xs ih =>
      intro acc
      simp only [List.foldl_cons, insertNew]
      by_cases hx : x ∈ acc
      · simpa [hx] using ih acc
      · obtain ⟨g, hg⟩ := ih (acc ++ [x])
        exact ⟨[x] ++ g, by simp [hx, hg]⟩


theorem before_append (l m : List String) (a b : String)
    (h : Before l a b) : Before (l ++ m) a b := by
  obtain ⟨l1, l2, hl, ha⟩ := h
  exact ⟨l1, l2 ++ m, by simp [hl], ha⟩


theorem before_foldl_insertNew :
    ∀ (Y acc : List String) (a b : String), a ∈ acc → b ∉ acc → b ∈ Y →
      Before (Y.foldl insertNew acc) a b := by
  intro Y
  induction Y with
  | nil => intro acc a b _ _ hb; simp at hb
  | cons y ys ih =>
      intro acc a b ha hb hY
      simp only [List.foldl_cons]
      by_cases hyb : y = b
      · subst hyb
        simp only [insertNew, hb, if_false]
        have hbase : Before (acc ++ [y]) a y := ⟨acc, [], rfl, ha⟩
        obtain ⟨g, hg⟩ := foldl_insertNew_extends ys (acc ++ [y])
        rw [hg]
        exact before_append _ _ _ _ hbase
      · rcases List.mem_cons.mp hY with h | h
        · exact absurd h.symm hyb
        · apply ih (insertNew acc y) a b
          · simp only [insertNew]
            by_cases hy : y ∈ acc <;> simp [hy, ha]
          · simp only [insertNew]
            by_cases hy : y ∈ acc <;> simp [hy, hb, Ne.symm hyb]
          · exact h


theorem alook_dictUpdate {α : Type} :
    ∀ (u d : List (String × α)) (nm : String), (u.map Prod.fst).Nodup →
      alook (dictUpdate d u) nm =
        match alook u nm with
        | some v => some v
        | none => alook d nm := by
  intro u
  induction u with
  | nil => intro d nm _; simp [dictUpdate, alook]
  | cons p ps ih =>
      intro d nm hn
      obtain ⟨k, v⟩ := p
      simp only [List.map_cons, List.nodup_cons] at hn
      simp only [dictUpdate, List.foldl_cons] at *
      rw [ih (aset d k v) nm hn.2]
      by_cases hk : k = nm
      · subst hk
        have hnone : alook ps k = none := by
          apply alook_eq_none_of_not_mem
          exact hn.1
        simp [alook, hnone, alook_aset]
      · simp only [alook, beq_iff_eq, if_neg hk]
        cases halook : alook ps nm with
        | some w => simp
        | none => simp [alook_aset, hk]


theorem foldl_schemaUpdate_attrs (σ : String → BlobSchema) :
    ∀ (ns : List String) (s0 : BlobSchema),
      (ns.foldl (fun sch n => schemaUpdate sch (σ n)) s0).attrs =
        ns.foldl (fun d n => dictUpdate d (σ n).attrs) s0.attrs := by
  intro ns
  induction ns with
  | nil => intro s0; rfl
  | cons n ns' ih =>
      intro s0
      simp only [List.foldl_cons]
      rw [ih (schemaUpdate s0 (σ n))]
      rfl


theorem foldl_schemaUpdate_blobs (σ : String → BlobSchema) :
    ∀ (ns : List String) (s0 : BlobSchema),
      (ns.foldl (fun sch n => schemaUpdate sch (σ n)) s0).blobs =
        ns.foldl (fun d n => dictUpdate d (σ n).blobs) s0.blobs := by
  intro ns
  induction ns with
  | nil => intro s0; rfl
  | cons n ns' ih =>
      intro s0
      simp only [List.foldl_cons]
      rw [ih (schemaUpdate s0 (σ n))]
      rfl


theorem alook_foldl_dictUpdate (g : String → List (String × Nat)) :
    ∀ (ns : List String) (d0 : List (String × Nat)) (nm : String),
      (∀ n ∈ ns, ((g n).map Prod.fst).Nodup) →
      alook (ns.foldl (fun d n => dictUpdate d (g n)) d0) nm =
        match ns.reverse.find? (fun n => (alook (g n) nm).isSome) with
        | some n => alook (g n) nm
        | none => alook d0 nm := by
  intro ns
  induction ns with
  | nil => intro d0 nm _; simp
  | cons n ns' ih =>
      intro d0 nm hw
      simp only [List.foldl_cons]
      rw [ih (dictUpdate d0 (g n)) nm
        (fun m hm => hw m (List.mem_cons_of_mem _ hm))]
      simp only [List.reverse_cons]
      rw [List.find?_append]
      cases hfind : ns'.reverse.find?
          (fun m => (alook (g m) nm).isSome) with
      | some m => simp
      | none =>
          by_cases hp : (alook (g n) nm).isSome
          · have hfn : List.find? (fun m => (alook (g m) nm).isSome) [n] =
                some n := List.find?_cons_of_pos _ hp
            simp only [hfn, Option.none_orElse]
            rw [alook_dictUpdate _ _ _ (hw n (List.mem_cons_self _ _))]
            obtain ⟨v, hv⟩ := Option.isSome_iff_exists.mp hp
            simp [hv]
          · have hfn : List.find? (fun m => (alook (g m) nm).isSome) [n] =
                none := by
              simp only [List.find?_eq_none, List.mem_singleton]
              intro m hm
              subst hm
              simpa using hp
            simp only [hfn, Option.none_orElse]
            rw [alook_dictUpdate _ _ _ (hw n (List.mem_cons_self _ _))]
            have : alook (g n) nm = none := by
              cases h : alook (g n) nm with
              | none => rfl
              | some v => rw [h] at hp; simp at hp
            simp [this]


theorem find?_reverse_of_before (vis l1 l2 : List String)
    (p : String → Bool) (b : String) (hsplit : vis = l1 ++ b :: l2)
    (hb : p b = true) (hl2 : ∀ m ∈ l2, p m = false) :
    vis.reverse.find? p = some b := by
  subst hsplit
  rw [List.reverse_append, List.reverse_cons, List.append_assoc,
    List.find?_append]
  have h1 : l2.reverse.find? p = none := by
    rw [List.find?_eq_none]
    intro m hm
    rw [List.mem_reverse] at hm
    simp [hl2 m hm]
  rw [h1]
  simp [List.find?_cons_of_pos _ hb]


theorem sizeOf_base_lt (n : String) (e : Bool) (blobs attrs : List (String × Nat))
    (bases : List PyClass) (b : PyClass) (hb : b ∈ bases) :
    sizeOf b < sizeOf (PyClass.mk n e blobs attrs bases) := by
  have h1 := List.sizeOf_lt_of_mem hb
  simp only [PyClass.mk.sizeOf_spec]
  omega


theorem self_mem_classesIn (n : String) (e : Bool)
    (blobs attrs : List (String × Nat)) (bases : List PyClass) :
    PyClass.mk n e blobs attrs bases ∈
      classesIn (PyClass.mk n e blobs attrs bases) := by
  simp [classesIn]


theorem mem_classesInL_iff :
    ∀ (bs : List PyClass) (d : PyClass),
      d ∈ classesInL bs ↔ ∃ b ∈ bs, d ∈ classesIn b := by
  intro bs
  induction bs with
  | nil => intro d; simp [classesInL]
  | cons b rest ih =>
      intro d
      simp only [classesInL, List.mem_append, ih, List.mem_cons]
      constructor
      · rintro (h | ⟨b', hb', hd⟩)
        · exact ⟨b, .inl rfl, h⟩
        · exact ⟨b', .inr hb', hd⟩
      · rintro ⟨b', hb' | hb', hd⟩
        · exact .inl (hb' ▸ hd)
        · exact .inr ⟨b', hb', hd⟩


theorem entAncestors_sub :
    ∀ (bs : List PyClass) (b : PyClass), b ∈ bs →
      ∀ x ∈ entAncestors b, x ∈ entAncestorsL bs := by
  intro bs
  induction bs with
  | nil => intro b hb; simp at hb
  | cons b0 rest ih =>
      intro b hb x hx
      simp only [entAncestorsL, List.mem_append]
      rcases List.mem_cons.mp hb with h | h
      · exact .inl (h ▸ hx)
      · exact .inr (ih b h x hx)


theorem buildBase_spec (σ : String → BlobSchema) :
    ∀ N : Nat, ∀ c : PyClass, sizeOf c ≤ N →
      (∀ d ∈ classesIn c, isEntOf d = true → ownSchema d = σ (nameOf d)) →
      ∀ s vis, ∃ g, buildBase c (s, vis) =
          (g.foldl (fun sch m => schemaUpdate sch (σ m)) s, vis ++ g) ∧
        vis ++ g = (entAncestors c).foldl insertNew vis := by
  intro N
  induction N with
  | zero =>
      intro c hc
      obtain ⟨n, e, blobs, attrs, bases⟩ := c
      exfalso
      simp only [PyClass.mk.sizeOf_spec] at hc
      omega
  | succ N ih =>
      intro c hc hσ s vis
      obtain ⟨n, e, blobs, attrs, bases⟩ := c
      have hlist : ∀ bs : List PyClass, (∀ b ∈ bs, sizeOf b ≤ N) →
          (∀ d ∈ classesInL bs, isEntOf d = true → ownSchema d = σ (nameOf d)) →
          ∀ s vis, ∃ g, buildBaseL bs (s, vis) =
              (g.foldl (fun sch m => schemaUpdate sch (σ m)) s, vis ++ g) ∧
            vis ++ g = (entAncestorsL bs).foldl insertNew vis := by
        intro bs
        induction bs with
        | nil =>
            intro _ _ s vis
            exact ⟨[], by simp [buildBaseL], by simp [entAncestorsL]⟩
        | cons b rest ihl =>
            intro hsz hσl s vis
            obtain ⟨g1, hb1, hb2⟩ := ih b (hsz b (List.mem_cons_self _ _))
              (fun d hd he => hσl d ((mem_classesInL_iff _ _).mpr
                ⟨b, List.mem_cons_self _ _, hd⟩) he) s vis
            obtain ⟨g2, hr1, hr2⟩ :=
              ihl (fun b' hb' => hsz b' (List.mem_cons_of_mem _ hb'))
                (fun d hd he => hσl d (by
                  obtain ⟨b', hb', hd'⟩ := (mem_classesInL_iff _ _).mp hd
                  exact (mem_classesInL_iff _ _).mpr
                    ⟨b', List.mem_cons_of_mem _ hb', hd'⟩) he)
                (g1.foldl (fun sch m => schemaUpdate sch (σ m)) s) (vis ++ g1)
            refine ⟨g1 ++ g2, ?_, ?_⟩
            · simp only [buildBaseL, hb1, hr1, List.foldl_append,
                List.append_assoc]
            · simp only [entAncestorsL, List.foldl_append, ← hb2, ← hr2,
                List.append_assoc]
      obtain ⟨g1, h1, h2⟩ := hlist bases
        (fun b hb => by
          have := sizeOf_base_lt n e blobs attrs bases b hb
          omega)
        (fun d hd he => hσ d (by
          simp only [classesIn, List.mem_append]
          exact .inl hd) he) s vis
      cases e with
      | false =>
          refine ⟨g1, ?_, ?_⟩
          · simp only [buildBase, h1, Bool.false_eq_true, if_false]
          · simp only [entAncestors, Bool.false_eq_true, if_false,
              List.append_nil, h2]
      | true =>
          by_cases hn : n ∈ vis ++ g1
          · refine ⟨g1, ?_, ?_⟩
            · simp only [buildBase, h1, if_true]
              rw [if_pos hn]
            · simp only [entAncestors, if_true, List.foldl_append, ← h2]
              simp [insertNew, hn]
          · refine ⟨g1 ++ [n], ?_, ?_⟩
            · simp only [buildBase, h1, if_true]
              rw [if_neg hn]
              have hself : ownSchema (PyClass.mk n true blobs attrs bases) =
                  σ n := hσ _ (self_mem_classesIn n true blobs attrs bases) rfl
              simp only [ownSchema] at hself
              rw [hself]
              simp [List.foldl_append]
            · simp only [entAncestors, if_true, List.foldl_append, ← h2]
              simp [insertNew, hn]


theorem name_mem_entAncestors :
    ∀ N : Nat, ∀ c : PyClass, sizeOf c ≤ N →
      ∀ d ∈ classesIn c, isEntOf d = true → nameOf d ∈ entAncestors c := by
  intro N
  induction N with
  | zero =>
      intro c hc
      obtain ⟨n, e, blobs, attrs, bases⟩ := c
      exfalso
      simp only [PyClass.mk.sizeOf_spec] at hc
      omega
  | succ N ih =>
      intro c hc d hd he
      obtain ⟨n, e, blobs, attrs, bases⟩ := c
      simp only [classesIn, List.mem_append, List.mem_singleton] at hd
      rcases hd with hd | hd
      · obtain ⟨b, hb, hdb⟩ := (mem_classesInL_iff _ _).mp hd
        have hsz : sizeOf b ≤ N := by
          have := sizeOf_base_lt n e blobs attrs bases b hb
          omega
        have := ih b hsz d hdb he
        simp only [entAncestors, List.mem_append]
        exact .inl (entAncestors_sub bases b hb _ this)
      · subst hd
        simp only [isEntOf] at he
        simp [entAncestors, he, nameOf]


theorem first_occurrence_split :
    ∀ (l : List String) (b : String), b ∈ l →
      ∃ l1 l2, l = l1 ++ b :: l2 ∧ b ∉ l1 := by
  intro l
  induction l with
  | nil => intro b hb; simp at hb
  | cons x xs ih =>
      intro b hb
      by_cases hx : x = b
      · exact ⟨[], xs, by simp [hx], by simp⟩
      · rcases List.mem_cons.mp hb with h | h
        · exact absurd h.symm hx
        · obtain ⟨l1, l2, hsplit, hmem⟩ := ih b h
          exact ⟨x :: l1, l2, by simp [hsplit], by
            simp only [List.mem_cons]
            push_neg
            exact ⟨Ne.symm hx, hmem⟩⟩


theorem entAncestors_split :
    ∀ N : Nat, ∀ c : PyClass, sizeOf c ≤ N →
      ∀ X Z nm, entAncestors c = X ++ nm :: Z →
      ∃ d, d ∈ classesIn c ∧ isEntOf d = true ∧ nameOf d = nm ∧
        ∀ a ∈ strictEntAncestors d, a ∈ X := by
  intro N
  induction N with
  | zero =>
      intro c hc
      obtain ⟨n, e, blobs, attrs, bases⟩ := c
      exfalso
      simp only [PyClass.mk.sizeOf_spec] at hc
      omega
  | succ N ih =>
      intro c hc X Z nm hsplit
      obtain ⟨n, e, blobs, attrs, bases⟩ := c
      have hlist : ∀ bs : List PyClass, (∀ b ∈ bs, sizeOf b ≤ N) →
          ∀ X Z nm, entAncestorsL bs = X ++ nm :: Z →
          ∃ d, d ∈ classesInL bs ∧ isEntOf d = true ∧ nameOf d = nm ∧
            ∀ a ∈ strictEntAncestors d, a ∈ X := by
        intro bs
        induction bs with
        | nil =>
            intro _ X Z nm h
            simp only [entAncestorsL] at h
            exact absurd h (by simp)
        | cons b rest ihl =>
            intro hsz X Z nm h
            simp only [entAncestorsL] at h
            rcases List.append_eq_append_iff.mp h with ⟨a', ha1, ha2⟩ |
              ⟨c', hc1, hc2⟩
            · -- X = entAncestors b ++ a', entAncestorsL rest = a' ++ nm :: Z
              obtain ⟨d, hd, he, hname, hanc⟩ :=
                ihl (fun b' hb' => hsz b' (List.mem_cons_of_mem _ hb'))
                  a' Z nm ha2
              refine ⟨d, ?_, he, hname, ?_⟩
              · exact (mem_classesInL_iff _ _).mpr (by
                  obtain ⟨b', hb', hd'⟩ := (mem_classesInL_iff _ _).mp hd
                  exact ⟨b', List.mem_cons_of_mem _ hb', hd'⟩)
              · intro a ha
                rw [ha1]
                exact List.mem_append_right _ (hanc a ha)
            · -- entAncestors b = X ++ c', nm :: Z = c' ++ entAncestorsL rest
              cases c' with
              | nil =>
                  -- nm :: Z = entAncestorsL rest, X = entAncestors b
                  simp only [List.nil_append] at hc2
                  obtain ⟨d, hd, he, hname, hanc⟩ :=
                    ihl (fun b' hb' => hsz b' (List.mem_cons_of_mem _ hb'))
                      [] Z nm (by simp [← hc2])
                  refine ⟨d, ?_, he, hname, ?_⟩
                  · exact (mem_classesInL_iff _ _).mpr (by
                      obtain ⟨b', hb', hd'⟩ := (mem_classesInL_iff _ _).mp hd
                      exact ⟨b', List.mem_cons_of_mem _ hb', hd'⟩)
                  · intro a ha
                    exact absurd (hanc a ha) (by simp)
              | cons x c'' =>
                  simp only [List.cons_append, List.cons.injEq] at hc2
                  obtain ⟨hx, hZ⟩ := hc2
                  subst hx
                  obtain ⟨d, hd, he, hname, hanc⟩ :=
                    ih b (hsz b (List.mem_cons_self _ _)) X c'' nm hc1
                  refine ⟨d, ?_, he, hname, hanc⟩
                  exact (mem_classesInL_iff _ _).mpr
                    ⟨b, List.mem_cons_self _ _, hd⟩
      simp only [entAncestors] at hsplit
      rcases List.append_eq_append_iff.mp hsplit with ⟨a', ha1, ha2⟩ |
        ⟨c', hc1, hc2⟩
      · cases e with
        | false => simp at ha2
        | true =>
            simp only [if_true] at ha2
            cases a' with
            | nil =>
                simp only [List.nil_append, List.cons.injEq] at ha2
                obtain ⟨hnm, hZ⟩ := ha2
                refine ⟨PyClass.mk n true blobs attrs bases,
                  self_mem_classesIn n true blobs attrs bases, rfl,
                  by simp [nameOf, hnm], ?_⟩
                intro a ha
                rw [ha1]
                simp only [List.append_nil]
                exact ha
            | cons x a'' =>
                simp only [List.cons_append, List.cons.injEq] at ha2
                obtain ⟨_, hbad⟩ := ha2
                exact absurd hbad.symm (by simp)
      · cases c' with
        | nil =>
            simp only [List.nil_append] at hc2
            cases e with
            | false => simp at hc2
            | true =>
                simp only [if_true, List.cons.injEq] at hc2
                obtain ⟨hnm, hZ⟩ := hc2
                refine ⟨PyClass.mk n true blobs attrs bases,
                  self_mem_classesIn n true blobs attrs bases, rfl,
                  by simp [nameOf, hnm], ?_⟩
                have hX : entAncestorsL bases = X := by simpa using hc1
                intro a ha
                rw [← hX]
                exact ha
        | cons x c'' =>
            simp only [List.cons_append, List.cons.injEq] at hc2
            obtain ⟨hx, _⟩ := hc2
            subst hx
            obtain ⟨d, hd, he, hname, hanc⟩ := hlist bases
              (fun b hb => by
                have := sizeOf_base_lt n e blobs attrs bases b hb
                omega) X c'' nm hc1
            refine ⟨d, ?_, he, hname, hanc⟩
            simp only [classesIn, List.mem_append]
            exact .inl hd


theorem find?_of_unique :
    ∀ (l : List String) (p : String → Bool) (a : String),
      a ∈ l → p a = true → (∀ m ∈ l, m ≠ a → p m = false) →
      l.find? p = some a := by
  intro l
  induction l with
  | nil => intro p a ha; simp at ha
  | cons x xs ih =>
      intro p a ha hp huniq
      by_cases px : p x = true
      · have hxa : x = a := by
          by_contra hne
          rw [huniq x (List.mem_cons_self _ _) hne] at px
          exact Bool.noConfusion px
        rw [List.find?_cons_of_pos _ px, hxa]
      · have hxa : x ≠ a := fun he => px (he ▸ hp)
        rw [List.find?_cons_of_neg _ (by simpa using px)]
        apply ih p a
        · rcases List.mem_cons.mp ha with h | h
          · exact absurd h.symm hxa
          · exact h
        · exact hp
        · exact fun m hm hne => huniq m (List.mem_cons_of_mem _ hm) hne


theorem foldl_schemaUpdate_proj (σ : String → BlobSchema)
    (proj : BlobSchema → List (String × Nat))
    (hproj : ∀ s t : BlobSchema,
      proj (schemaUpdate s t) = dictUpdate (proj s) (proj t)) :
    ∀ (ns : List String) (s0 : BlobSchema),
      proj (ns.foldl (fun sch m => schemaUpdate sch (σ m)) s0) =
        ns.foldl (fun d m => dictUpdate d (proj (σ m))) (proj s0) := by
  intro ns
  induction ns with
  | nil => intro s0; rfl
  | cons m ns' ih =>
      intro s0
      simp only [List.foldl_cons]
      rw [ih (schemaUpdate s0 (σ m)), hproj]


/-- C4: constructing an entity instance merges the blob schema of every
`Entity`-derived ancestor type exactly once — the merge order is
duplicate-free and covers exactly the entity ancestors (conjunct 1) —
and in the merged schema a more-derived type's attribute or sub-blob
wins over a same-named one from any of its ancestors (conjuncts 2a/2b),
while sub-blobs registered under names that no other merged type uses
all survive with their own definitions (conjunct 3).  The hierarchy is a
tree of class occurrences; `σ` names each registered class's own schema
(`hσ`), same-named occurrences are the same class (`hcoh`, Python object
identity), and registered schemas have duplicate-free names (`hwfA`,
`hwfB`, enforced by `register_attr`/`register_blob`). -/
theorem schema_merge_c4 (c : PyClass) (σ : String → BlobSchema)
    (hσ : ∀ d ∈ classesIn c, isEntOf d = true → ownSchema d = σ (nameOf d))
    (hcoh : ∀ d1 ∈ classesIn c, ∀ d2 ∈ classesIn c, nameOf d1 = nameOf d2 →
      strictEntAncestors d1 = strictEntAncestors d2)
    (hwfA : ∀ m ∈ (buildEntitySchema c).2, ((σ m).attrs.map Prod.fst).Nodup)
    (hwfB : ∀ m ∈ (buildEntitySchema c).2, ((σ m).blobs.map Prod.fst).Nodup) :
    ((buildEntitySchema c).2.Nodup ∧
      ∀ m, m ∈ (buildEntitySchema c).2 ↔ m ∈ entAncestors c) ∧
    (∀ dOcc aName nm idD idA, dOcc ∈ classesIn c → isEntOf dOcc = true →
      aName ∈ strictEntAncestors dOcc → aName ≠ nameOf dOcc →
      alook (σ (nameOf dOcc)).attrs nm = some idD →
      alook (σ aName).attrs nm = some idA →
      (∀ m ∈ (buildEntitySchema c).2, m ≠ nameOf dOcc → m ≠ aName →
        alook (σ m).attrs nm = none) →
      alook (buildEntitySchema c).1.attrs nm = some idD) ∧
    (∀ dOcc aName nm idD idA, dOcc ∈ classesIn c → isEntOf dOcc = true →
      aName ∈ strictEntAncestors dOcc → aName ≠ nameOf dOcc →
      alook (σ (nameOf dOcc)).blobs nm = some idD →
      alook (σ aName).blobs nm = some idA →
      (∀ m ∈ (buildEntitySchema c).2, m ≠ nameOf dOcc → m ≠ aName →
        alook (σ m).blobs nm = none) →
      alook (buildEntitySchema c).1.blobs nm = some idD) ∧
    (∀ a1 a2 n1 n2 id1 id2,
      a1 ∈ (buildEntitySchema c).2 → a2 ∈ (buildEntitySchema c).2 →
      alook (σ a1).blobs n1 = some id1 → alook (σ a2).blobs n2 = some id2 →
      (∀ m ∈ (buildEntitySchema c).2, m ≠ a1 → alook (σ m).blobs n1 = none) →
      (∀ m ∈ (buildEntitySchema c).2, m ≠ a2 → alook (σ m).blobs n2 = none) →
      alook (buildEntitySchema c).1.blobs n1 = some id1 ∧
      alook (buildEntitySchema c).1.blobs n2 = some id2) := by
  obtain ⟨g, hbuild, hvis⟩ := buildBase_spec σ (sizeOf c) c (Nat.le_refl _) hσ
    (ownSchema c) []
  simp only [List.nil_append] at hvis
  have hsch : buildEntitySchema c =
      (g.foldl (fun sch m => schemaUpdate sch (σ m)) (ownSchema c), g) := by
    simp only [buildEntitySchema, hbuild, List.nil_append]
  have hg2 : (buildEntitySchema c).2 = g := by rw [hsch]
  have hg1 : (buildEntitySchema c).1 =
      g.foldl (fun sch m => schemaUpdate sch (σ m)) (ownSchema c) := by
    rw [hsch]
  have hnodup : g.Nodup := by
    rw [hvis]
    exact nodup_foldl_insertNew _ _ List.nodup_nil
  have hmemg : ∀ m, m ∈ g ↔ m ∈ entAncestors c := by
    intro m
    rw [hvis, mem_foldl_insertNew]
    simp
  rw [hg1, hg2]
  rw [hg2] at hwfA hwfB
  have hoverride : ∀ (proj : BlobSchema → List (String × Nat)),
      (∀ s t : BlobSchema, proj (schemaUpdate s t) =
        dictUpdate (proj s) (proj t)) →
      (∀ m ∈ g, ((proj (σ m)).map Prod.fst).Nodup) →
      ∀ dOcc aName nm idD idA, dOcc ∈ classesIn c → isEntOf dOcc = true →
      aName ∈ strictEntAncestors dOcc → aName ≠ nameOf dOcc →
      alook (proj (σ (nameOf dOcc))) nm = some idD →
      alook (proj (σ aName)) nm = some idA →
      (∀ m ∈ g, m ≠ nameOf dOcc → m ≠ aName →
        alook (proj (σ m)) nm = none) →
      alook (proj (g.foldl (fun sch m => schemaUpdate sch (σ m))
        (ownSchema c))) nm = some idD := by
    intro proj hproj hwf dOcc aName nm idD idA hdOcc hent haanc hane hD hA hnone
    have hmD : nameOf dOcc ∈ entAncestors c :=
      name_mem_entAncestors (sizeOf c) c (Nat.le_refl _) dOcc hdOcc hent
    obtain ⟨X, Z, hXZ, hnotX⟩ := first_occurrence_split _ _ hmD
    obtain ⟨d2, hd2, hent2, hname2, hanc2⟩ :=
      entAncestors_split (sizeOf c) c (Nat.le_refl _) X Z (nameOf dOcc) hXZ
    have hancEq : strictEntAncestors d2 = strictEntAncestors dOcc :=
      hcoh d2 hd2 dOcc hdOcc (by rw [hname2])
    have haX : aName ∈ X := hanc2 aName (by rw [hancEq]; exact haanc)
    have hbefore : Before g aName (nameOf dOcc) := by
      rw [hvis, hXZ, List.foldl_append]
      apply before_foldl_insertNew
      · rw [mem_foldl_insertNew]
        exact .inr haX
      · rw [mem_foldl_insertNew]
        push_neg
        exact ⟨by simp, hnotX⟩
      · exact List.mem_cons_self _ _
    obtain ⟨l1, l2, hgsplit, haIn⟩ := hbefore
    rw [foldl_schemaUpdate_proj σ proj hproj g (ownSchema c)]
    rw [alook_foldl_dictUpdate (fun m => proj (σ m)) g (proj (ownSchema c))
      nm hwf]
    have hgn : (l1 ++ nameOf dOcc :: l2).Nodup := hgsplit ▸ hnodup
    rw [List.nodup_append] at hgn
    have hfind := find?_reverse_of_before g l1 l2
      (fun m => (alook (proj (σ m)) nm).isSome) (nameOf dOcc) hgsplit
      (by simp [hD]) ?_
    · rw [hfind]
      simp [hD]
    · intro m hm
      have hmg : m ∈ g := by
        rw [hgsplit]
        exact List.mem_append_right _ (List.mem_cons_of_mem _ hm)
      have hmD2 : m ≠ nameOf dOcc := by
        intro he
        exact (List.nodup_cons.mp hgn.2.1).1 (he ▸ hm)
      have hmA : m ≠ aName := by
        intro he
        exact hgn.2.2 haIn (he ▸ List.mem_cons_of_mem _ hm)
      simp [hnone m hmg hmD2 hmA]
  refine ⟨⟨hnodup, hmemg⟩, ?_, ?_, ?_⟩
  · exact hoverride BlobSchema.attrs (fun s t => rfl) hwfA
  · exact hoverride BlobSchema.blobs (fun s t => rfl) hwfB
  · intro a1 a2 n1 n2 id1 id2 ha1 ha2 hl1 hl2 hu1 hu2
    rw [foldl_schemaUpdate_proj σ BlobSchema.blobs (fun s t => rfl) g
      (ownSchema c)]
    rw [alook_foldl_dictUpdate (fun m => (σ m).blobs) g
      (ownSchema c).blobs n1 hwfB,
      alook_foldl_dictUpdate (fun m => (σ m).blobs) g
      (ownSchema c).blobs n2 hwfB]
    have hf1 : g.reverse.find?
        (fun m => (alook (σ m).blobs n1).isSome) = some a1 := by
      apply find?_of_unique
      · exact List.mem_reverse.mpr ha1
      · simp [hl1]
      · intro m hm hne
        simp [hu1 m (List.mem_reverse.mp hm) hne]
    have hf2 : g.reverse.find?
        (fun m => (alook (σ m).blobs n2).isSome) = some a2 := by
      apply find?_of_unique
      · exact List.mem_reverse.mpr ha2
      · simp [hl2]
      · intro m hm hne
        simp [hu2 m (List.mem_reverse.mp hm) hne]
    rw [hf1, hf2]
    exact ⟨hl1, hl2⟩


theorem classesIn_clsC :
    classesIn clsC = [clsEntity, clsA, clsEntity, clsB, clsC] := rfl


/-- Witness for C4 on a diamond hierarchy: `C` derives from `A` and `B`,
both deriving from `Entity`; `A` overrides the attribute `pow` and the
sub-blob `core` it shares with `Entity`, while the sub-blobs `stats`
(from `A`) and `gear` (from `B`) both survive, and the merge order is
duplicate-free. -/
theorem schema_merge_c4_witness :
    alook (buildEntitySchema clsC).1.attrs "pow" = some 1 ∧
    alook (buildEntitySchema clsC).1.blobs "core" = some 21 ∧
    alook (buildEntitySchema clsC).1.blobs "stats" = some 10 ∧
    alook (buildEntitySchema clsC).1.blobs "gear" = some 11 ∧
    (buildEntitySchema clsC).2.Nodup := by
  have hcl := classesIn_clsC
  have hs : ∀ d ∈ classesIn clsC, isEntOf d = true →
      ownSchema d = sigC (nameOf d) := by
    intro d hd _
    rw [hcl] at hd
    fin_cases hd <;> rfl
  have hc : ∀ d1 ∈ classesIn clsC, ∀ d2 ∈ classesIn clsC,
      nameOf d1 = nameOf d2 →
      strictEntAncestors d1 = strictEntAncestors d2 := by
    intro d1 h1 d2 h2 hname
    rw [hcl] at h1 h2
    fin_cases h1 <;> fin_cases h2 <;>
      first
        | rfl
        | (exact absurd hname (by decide))
  have hwa : ∀ m ∈ (buildEntitySchema clsC).2,
      ((sigC m).attrs.map Prod.fst).Nodup := by
    intro m hm
    have hv : (buildEntitySchema clsC).2 = ["Entity", "A", "B", "C"] := rfl
    rw [hv] at hm
    fin_cases hm <;> decide
  have hwb : ∀ m ∈ (buildEntitySchema clsC).2,
      ((sigC m).blobs.map Prod.fst).Nodup := by
    intro m hm
    have hv : (buildEntitySchema clsC).2 = ["Entity", "A", "B", "C"] := rfl
    rw [hv] at hm
    fin_cases hm <;> decide
  obtain ⟨⟨hnd, _⟩, hovA, hovB, hsurv⟩ :=
    schema_merge_c4 clsC sigC hs hc hwa hwb
  have hmemA : clsA ∈ classesIn clsC := by rw [hcl]; simp
  obtain ⟨hstats, hgear⟩ := hsurv "A" "B" "stats" "gear" 10 11
    (by decide) (by decide) (by decide) (by decide) (by decide) (by decide)
  exact ⟨hovA clsA "Entity" "pow" 1 0 hmemA rfl (by decide) (by decide)
      (by decide) (by decide) (by decide),
    hovB clsA "Entity" "core" 21 20 hmemA rfl (by decide) (by decide)
      (by decide) (by decide) (by decide),
    hstats, hgear, hnd⟩


/-- C9: registering an entity type under an already-registered class
name fails with the duplicate-name error; registering a type whose
`_uid_code` equals a registered type's code fails with the uniqueness
error; and registering a second field under an existing name on one
schema fails with `AlreadyExists`. -/
theorem registration_errors_c9 (reg : List (String × String))
    (name code : String) (ns : List String) :
    ((alook reg name).isSome →
      registerEntity reg name code = .error "AlreadyExists") ∧
    (alook reg name = none → (∃ p ∈ reg, p.2 = code) →
      registerEntity reg name code = .error
        "KeyError: cannot register two Entity classes with the same UID code") ∧
    (name ∈ ns → registerAttr ns name = .error "AlreadyExists") := by
  refine ⟨?_, ?_, ?_⟩
  · intro h
    simp only [registerEntity, h, if_true]
  · intro hnone hex
    obtain ⟨p, hp, hcode⟩ := hex
    have hany : reg.any (fun p => p.2 == code) = true :=
      List.any_eq_true.mpr ⟨p, hp, by simp [hcode]⟩
    simp only [registerEntity, hnone, Option.isSome_none, Bool.false_eq_true,
      if_false, hany, if_true]
  · intro h
    simp only [registerAttr, h, if_true]


/-- Witness for C9: a duplicate class name, a duplicate UID code, and a
duplicate field name each raise. -/
theorem registration_errors_c9_witness :
    registerEntity [("Item", "I")] "Item" "X" = .error "AlreadyExists" ∧
    registerEntity [("Item", "I")] "Gear" "I" = .error
      "KeyError: cannot register two Entity classes with the same UID code" ∧
    registerAttr ["version"] "version" = .error "AlreadyExists" :=
  ⟨(registration_errors_c9 [("Item", "I")] "Item" "X" []).1 (by decide),
   (registration_errors_c9 [("Item", "I")] "Gear" "I" []).2.1 (by decide)
     ⟨("Item", "I"), by decide, rfl⟩,
   (registration_errors_c9 [] "version" "X" ["version"]).2.2 (by decide)⟩


/-- C8: when a descriptor's validation rejects a candidate value, the
error propagates synchronously out of the field write and the caller's
state is unchanged — in the source the assignment, dirty-marking and
cache relocation all come after validation, mirrored here by the commit
running only in the `ok` branch, so the caller observes the original
world together with the raised error. -/
theorem validation_rejection_c8 (sc : EntSchema) (w : World) (eid : Nat)
    (name : String) (v : PVal) (a : AttrSpec) (err : String)
    (hattr : alook sc.attrs name = some a)
    (hv : v.isUnset = false)
    (hval : a.validate v = .error err) :
    setAttrVal sc w eid name v true false = .error err ∧
    setAttrTry sc w eid name v true false = (w, some err) := by
  have h1 : setAttrVal sc w eid name v true false = .error err := by
    simp only [setAttrVal, hattr, applyPipeline, hv, Bool.false_eq_true,
      if_false, if_true, hval]
  exact ⟨h1, by simp only [setAttrTry, h1]⟩


/-- Witness for C8: writing the string `"x"` into the int-validated
`hp` field raises and leaves the world untouched. -/
theorem validation_rejection_c8_witness :
    setAttrVal wsc wworld 0 "hp" (.vstr "x") true false =
      .error "TypeError: must be int" ∧
    setAttrTry wsc wworld 0 "hp" (.vstr "x") true false =
      (wworld, some "TypeError: must be int") :=
  validation_rejection_c8 wsc wworld 0 "hp" (.vstr "x") intAttr
    "TypeError: must be int" rfl rfl rfl


/-! ### `pbeq` is structural equality -/

theorem pbeq_iff_aux : ∀ N : Nat,
    (∀ a b : PVal, sizeOf a ≤ N → (pbeq a b = true ↔ a = b)) ∧
    (∀ l m : List PVal, sizeOf l ≤ N → (pbeqList l m = true ↔ l = m)) ∧
    (∀ d e : List (String × PVal), sizeOf d ≤ N →
      (pbeqDict d e = true ↔ d = e)) := by
  intro N
  induction N with
  | zero =>
      refine ⟨?_, ?_, ?_⟩
      · intro a b ha
        exfalso
        cases a <;> simp at ha
      · intro l m hl
        exfalso
        cases l <;> simp at hl
      · intro d e hd
        exfalso
        cases d <;> simp at hd
  | succ N ih =>
      obtain ⟨ihv, ihl, ihd⟩ := ih
      refine ⟨?_, ?_, ?_⟩
      · intro a b ha
        cases a with
        | unset => cases b <;> simp [pbeq]
        | vnone => cases b <;> simp [pbeq]
        | vbool x => cases b <;> simp [pbeq]
        | vint x => cases b <;> simp [pbeq]
        | vstr x => cases b <;> simp [pbeq]
        | vlist xs =>
            cases b with
            | vlist ys =>
                simp only [pbeq, PVal.vlist.injEq]
                apply ihl
                simp only [PVal.vlist.sizeOf_spec] at ha
                omega
            | unset => simp [pbeq]
            | vnone => simp [pbeq]
            | vbool y => simp [pbeq]
            | vint y => simp [pbeq]
            | vstr y => simp [pbeq]
            | vdict y => simp [pbeq]
        | vdict d =>
            cases b with
            | vdict e =>
                simp only [pbeq, PVal.vdict.injEq]
                apply ihd
                simp only [PVal.vdict.sizeOf_spec] at ha
                omega
            | unset => simp [pbeq]
            | vnone => simp [pbeq]
            | vbool y => simp [pbeq]
            | vint y => simp [pbeq]
            | vstr y => simp [pbeq]
            | vlist y => simp [pbeq]
      · intro l m hl
        cases l with
        | nil => cases m <;> simp [pbeqList]
        | cons x xs =>
            cases m with
            | nil => simp [pbeqList]
            | cons y ys =>
                simp only [pbeqList, Bool.and_eq_true, List.cons.injEq]
                simp only [List.cons.sizeOf_spec] at hl
                rw [ihv x y (by omega), ihl xs ys (by omega)]
      · intro d e hd
        cases d with
        | nil => cases e <;> simp [pbeqDict]
        | cons p ps =>
            cases e with
            | nil => obtain ⟨k, v⟩ := p; simp [pbeqDict]
            | cons q qs =>
                obtain ⟨k, v⟩ := p
                obtain ⟨l2, w2⟩ := q
                simp only [pbeqDict, Bool.and_eq_true, List.cons.injEq,
                  Prod.mk.injEq, beq_iff_eq]
                simp only [List.cons.sizeOf_spec, Prod.mk.sizeOf_spec] at hd
                rw [ihv v w2 (by omega), ihd ps qs (by omega)]


theorem pbeq_iff (a b : PVal) : pbeq a b = true ↔ a = b :=
  (pbeq_iff_aux (sizeOf a)).1 a b (Nat.le_refl _)


theorem pbeq_self (a : PVal) : pbeq a a = true := (pbeq_iff a a).mpr rfl


instance : DecidableEq PVal := fun a b =>
  decidable_of_iff (pbeq a b = true) (pbeq_iff a b)


theorem pbeq_false_iff (a b : PVal) : pbeq a b = false ↔ a ≠ b := by
  rw [← Bool.not_eq_true, not_iff_not]
  exact pbeq_iff a b


/-! ### `pbeq`-keyed map lemmas -/

theorem plook_pset {α : Type} (l : List (PVal × α)) (k : PVal) (v : α)
    (q : PVal) :
    plook (pset l k v) q = if k = q then some v else plook l q := by
  induction l with
  | nil =>
      simp only [pset, plook]
      by_cases h : k = q
      · simp [h, pbeq_self]
      · simp [h, (pbeq_false_iff k q).mpr h]
  | cons p rest ih =>
      obtain ⟨pk, pv⟩ := p
      by_cases hpk : pk = k
      · subst hpk
        simp only [pset, pbeq_self, if_true]
        by_cases hq : pk = q
        · simp [plook, hq, pbeq_self]
        · simp [plook, hq, (pbeq_false_iff pk q).mpr hq]
      · simp only [pset, (pbeq_false_iff pk k).mpr hpk, Bool.false_eq_true,
          if_false]
        by_cases hq : pk = q
        · subst hq
          have hk : ¬(k = pk) := fun h => hpk h.symm
          simp [plook, pbeq_self, hk]
        · simp [plook, (pbeq_false_iff pk q).mpr hq, ih]


theorem plook_perase {α : Type} (l : List (PVal × α)) (k q : PVal) :
    plook (perase l k) q = if k = q then none else plook l q := by
  induction l with
  | nil => simp [perase, plook]
  | cons p rest ih =>
      obtain ⟨pk, pv⟩ := p
      by_cases hpk : pk = k
      · subst hpk
        simp only [perase, pbeq_self, if_true, ih]
        by_cases hq : pk = q
        · simp [hq]
        · simp [hq, plook, (pbeq_false_iff pk q).mpr hq]
      · simp only [perase, (pbeq_false_iff pk k).mpr hpk, Bool.false_eq_true,
          if_false]
        by_cases hq : pk = q
        · subst hq
          have hk : ¬(k = pk) := fun h => hpk h.symm
          simp [plook, pbeq_self, hk, ih]
        · simp [plook, (pbeq_false_iff pk q).mpr hq, ih]


theorem pmem_iff (l : List PVal) (k : PVal) : pmem l k = true ↔ k ∈ l := by
  simp only [pmem, List.any_eq_true]
  constructor
  · rintro ⟨c, hc, hbeq⟩
    rw [pbeq_iff] at hbeq
    exact hbeq ▸ hc
  · intro h
    exact ⟨k, h, pbeq_self k⟩


/-! ### World frame lemmas -/

theorem entAt_setEnt_self (w : World) (eid : Nat) (e : Ent)
    (h : eid < w.ents.length) : entAt (setEnt w eid e) eid = e := by
  simp [entAt, setEnt, List.getD, List.getElem?_set_self h]


theorem entAt_setEnt_ne (w : World) (eid i : Nat) (e : Ent)
    (h : i ≠ eid) : entAt (setEnt w eid e) i = entAt w i := by
  simp [entAt, setEnt, List.getD, List.getElem?_set_ne (Ne.symm h)]


theorem length_setEnt (w : World) (eid : Nat) (e : Ent) :
    (setEnt w eid e).ents.length = w.ents.length := by
  simp [setEnt]


theorem plook_take_none {α : Type} (l : List (PVal × α)) (n : Nat) (k : PVal)
    (h : plook l k = none) : plook (l.take n) k = none := by
  induction l generalizing n with
  | nil => simp [List.take_nil, plook]
  | cons p rest ih =>
      cases n with
      | zero => simp [plook]
      | succ m =>
          simp only [List.take_succ_cons, plook] at h ⊢
          by_cases hb : (pbeq p.1 k) = true
          · simp [hb] at h
          · simp only [Bool.not_eq_true] at hb
            simp only [hb, Bool.false_eq_true, if_false] at h ⊢
            exact ih m h


theorem plook_cons_take {α : Type} (k : PVal) (v : α) (t : List (PVal × α))
    (n : Nat) (h : 0 < n) : plook (((k, v) :: t).take n) k = some v := by
  cases n with
  | zero => omega
  | succ m => simp [List.take_succ_cons, plook, pbeq_self]


theorem entAt_cacheSet (w : World) (k : PVal) (i eid : Nat) :
    entAt (cacheSet w k i) eid = entAt w eid := rfl


theorem entAt_cacheDel (w : World) (k : PVal) (eid : Nat) :
    entAt (cacheDel w k) eid = entAt w eid := rfl


/-- Explicit world equation for a key-changing commit: the entity gets
the new value, the `_old_key` tag and the dirty mark; the cache drops
the old key's slot (when present) and gains the entity under the new
key, truncated by the LRU capacity; nothing else changes. -/
theorem commitAttr_migrate (sc : EntSchema) (w : World) (eid : Nat)
    (name : String) (cv : PVal)
    (hne : pbeq (entKey sc { entAt w eid with
        vals := aset (entAt w eid).vals name cv })
      (entKey sc (entAt w eid)) = false) :
    commitAttr sc w eid name cv =
      { w with
        ents := w.ents.set eid
          { entAt w eid with
            vals := aset (entAt w eid).vals name cv,
            tags := aset (entAt w eid).tags "_old_key"
              (entKey sc (entAt w eid)),
            dirty := true },
        cache := ((entKey sc { entAt w eid with
            vals := aset (entAt w eid).vals name cv }, eid) ::
          perase (if (plook w.cache (entKey sc (entAt w eid))).isSome then
              perase w.cache (entKey sc (entAt w eid))
            else w.cache)
            (entKey sc { entAt w eid with
              vals := aset (entAt w eid).vals name cv })).take
          w.cacheCap } := by
  simp only [commitAttr, hne, Bool.false_eq_true, if_false, setTag]
  by_cases hb : (plook w.cache (entKey sc (entAt w eid))).isSome
  · simp only [setEnt, hb, if_true, cacheDel, cacheSet]
  · simp only [setEnt, hb, Bool.false_eq_true, if_false, cacheSet]


/-- Explicit world equation for a key-preserving commit. -/
theorem commitAttr_same (sc : EntSchema) (w : World) (eid : Nat)
    (name : String) (cv : PVal)
    (heq : pbeq (entKey sc { entAt w eid with
        vals := aset (entAt w eid).vals name cv })
      (entKey sc (entAt w eid)) = true) :
    commitAttr sc w eid name cv =
      setEnt w eid { entAt w eid with
        vals := aset (entAt w eid).vals name cv, dirty := true } := by
  simp only [commitAttr, heq, if_true]


theorem commitAttr_ents_length (sc : EntSchema) (w : World) (eid : Nat)
    (name : String) (cv : PVal) :
    (commitAttr sc w eid name cv).ents.length = w.ents.length := by
  simp only [commitAttr]
  split
  · simp [setEnt]
  · split <;> simp [cacheSet, cacheDel, setEnt]


theorem commitAttr_store (sc : EntSchema) (w : World) (eid : Nat)
    (name : String) (cv : PVal) :
    (commitAttr sc w eid name cv).store = w.store := by
  simp only [commitAttr]
  split
  · simp [setEnt]
  · split <;> simp [cacheSet, cacheDel, setEnt]


theorem commitAttr_instances (sc : EntSchema) (w : World) (eid : Nat)
    (name : String) (cv : PVal) :
    (commitAttr sc w eid name cv).instances = w.instances := by
  simp only [commitAttr]
  split
  · simp [setEnt]
  · split <;> simp [cacheSet, cacheDel, setEnt]


theorem commitAttr_cacheCap (sc : EntSchema) (w : World) (eid : Nat)
    (name : String) (cv : PVal) :
    (commitAttr sc w eid name cv).cacheCap = w.cacheCap := by
  simp only [commitAttr]
  split
  · simp [setEnt]
  · split <;> simp [cacheSet, cacheDel, setEnt]


theorem commitAttr_uidCounter (sc : EntSchema) (w : World) (eid : Nat)
    (name : String) (cv : PVal) :
    (commitAttr sc w eid name cv).uidCounter = w.uidCounter := by
  simp only [commitAttr]
  split
  · simp [setEnt]
  · split <;> simp [cacheSet, cacheDel, setEnt]


theorem entAt_commitAttr_self (sc : EntSchema) (w : World) (eid : Nat)
    (name : String) (cv : PVal) (heid : eid < w.ents.length) :
    entAt (commitAttr sc w eid name cv) eid =
      commitEnt sc (entAt w eid) name cv := by
  simp only [commitAttr, commitEnt, setTag]
  split
  · rw [entAt_setEnt_self _ _ _ heid]
  · split <;>
      simp only [entAt_cacheSet, entAt_cacheDel] <;>
      rw [entAt_setEnt_self _ _ _ heid]


theorem entAt_commitAttr_ne (sc : EntSchema) (w : World) (eid i : Nat)
    (name : String) (cv : PVal) (h : i ≠ eid) :
    entAt (commitAttr sc w eid name cv) i = entAt w i := by
  simp only [commitAttr]
  split
  · rw [entAt_setEnt_ne _ _ _ _ h]
  · split <;>
      simp only [entAt_cacheSet, entAt_cacheDel] <;>
      rw [entAt_setEnt_ne _ _ _ _ h]


theorem alook_aerase {α : Type} (l : List (String × α)) (k q : String) :
    alook (aerase l k) q = if k = q then none else alook l q := by
  induction l with
  | nil => simp [aerase, alook]
  | cons p rest ih =>
      obtain ⟨pk, pv⟩ := p
      by_cases hpk : pk = k
      · subst hpk
        simp only [aerase, beq_self_eq_true, if_true, ih]
        by_cases hq : pk = q
        · simp [hq]
        · simp [hq, alook, beq_iff_eq]
      · simp only [aerase, beq_iff_eq, if_neg hpk]
        by_cases hq : pk = q
        · subst hq
          have hk : ¬(k = pk) := fun h => hpk h.symm
          simp [alook, beq_iff_eq, hk, ih]
        · simp [alook, beq_iff_eq, hq, ih]


/-- What a save does when a pending `_old_key` differs from the current
key: the stale record is deleted (or was already absent), the fresh
record is written under the current key, the tag is dropped and the
entity comes out clean. -/
theorem save_oldkey (sc : EntSchema) (w : World) (eid : Nat)
    (st : List (PVal × Rec)) (oldKey : PVal)
    (hst : w.store = some st)
    (hsav : (entAt w eid).savable = true)
    (heid : eid < w.ents.length)
    (htag : alook (entAt w eid).tags "_old_key" = some oldKey)
    (hne : entKey sc (entAt w eid) ≠ oldKey)
    (hwf : (sc.attrs.map Prod.fst).Nodup) :
    ∃ w3 st2 r, save sc w eid = .ok w3 ∧ w3.store = some st2 ∧
      plook st2 oldKey = none ∧
      plook st2 (entKey sc (entAt w eid)) = some r ∧
      (entAt w3 eid).dirty = false ∧
      alook (entAt w3 eid).tags "_old_key" = none := by
  have hser := serializeAttrs_spec sc.attrs (entAt w eid).vals []
    (by simp) hwf
  set e := entAt w eid with hedef
  set stDel := (if (plook st oldKey).isSome then perase st oldKey else st)
    with hstDel
  set e1 := delTag e "_old_key" with he1
  set wmid := setEnt { w with store := some stDel } eid e1 with hwmid
  set rAttrs := sc.attrs.map (fun p => (p.1, serValOf e.vals p)) with hra
  set r := aset (aset (aset rAttrs "uid" e.uid)
    "flags" (.vlist (e.flags.map .vstr))) "tags" (.vdict e1.tags) with hrdef
  have hent1 : entAt wmid eid = e1 := by
    rw [hwmid]
    exact entAt_setEnt_self _ _ _ (by simpa using heid)
  have hkey1 : entKey sc e1 = entKey sc e := rfl
  have hserE : serializeEnt sc e1 = .ok r := by
    have hvals : e1.vals = e.vals := rfl
    simp only [serializeEnt, hvals, hser, List.nil_append]
    have huid : e1.uid = e.uid := rfl
    have hflags : e1.flags = e.flags := rfl
    rw [hrdef, hra, huid, hflags]
  have hfin : save sc w eid = .ok (setEnt { wmid with
      store := some (pset stDel (entKey sc e1) r) } eid
      { e1 with dirty := false }) := by
    simp only [save, hst, ← hedef, hsav, Bool.true_eq_false, if_false, htag,
      hent1, hserE]
  have hstore3 : (setEnt { wmid with
      store := some (pset stDel (entKey sc e1) r) } eid
      { e1 with dirty := false }).store = some (pset stDel (entKey sc e1) r) :=
    rfl
  have hlen3 : eid < ({ wmid with
      store := some (pset stDel (entKey sc e1) r) } : World).ents.length := by
    rw [hwmid]
    simpa [setEnt] using heid
  refine ⟨_, pset stDel (entKey sc e1) r, r, hfin, hstore3, ?_, ?_, ?_, ?_⟩
  · rw [plook_pset, hkey1, if_neg hne, hstDel]
    by_cases hb : (plook st oldKey).isSome
    · simp only [hb, if_true]
      rw [plook_perase]
      simp
    · simp only [hb, Bool.false_eq_true, if_false]
      simpa using hb
  · rw [plook_pset, hkey1, if_pos rfl]
  · rw [entAt_setEnt_self _ _ _ hlen3]
  · rw [entAt_setEnt_self _ _ _ hlen3]
    show alook e1.tags "_old_key" = none
    rw [he1]
    show alook (aerase e.tags "_old_key") "_old_key" = none
    rw [alook_aerase]
    simp


/-- C1: a committed field write that changes the value the entity's
storage key resolves to (the write validates and finalizes to `cv`, and
the key computed over the updated values differs from the old key)
removes the cache entry under the old key, inserts the entity under the
new key, records the old key in the `_old_key` tag and dirties the
entity — and the entity's next save first deletes the stale store record
under the old key and then writes the new record under the new key. -/
theorem key_migration_c1 (sc : EntSchema) (w : World) (eid : Nat)
    (name : String) (v cv : PVal) (a : AttrSpec)
    (heid : eid < w.ents.length)
    (hattr : alook sc.attrs name = some a)
    (hpipe : applyPipeline a v true false = .ok cv)
    (hne : entKey sc { entAt w eid with
        vals := aset (entAt w eid).vals name cv } ≠ entKey sc (entAt w eid))
    (hcap : 0 < w.cacheCap)
    (hwf : (sc.attrs.map Prod.fst).Nodup) :
    ∃ w2, setAttrVal sc w eid name v true false = .ok w2 ∧
      alook (entAt w2 eid).tags "_old_key" =
        some (entKey sc (entAt w eid)) ∧
      plook w2.cache (entKey sc (entAt w eid)) = none ∧
      plook w2.cache (entKey sc (entAt w2 eid)) = some eid ∧
      entKey sc (entAt w2 eid) =
        entKey sc { entAt w eid with
          vals := aset (entAt w eid).vals name cv } ∧
      (entAt w2 eid).dirty = true ∧
      alook (entAt w2 eid).vals name = some cv ∧
      (∀ st, w.store = some st → (entAt w eid).savable = true →
        ∃ w3 st2 r, save sc w2 eid = .ok w3 ∧ w3.store = some st2 ∧
          plook st2 (entKey sc (entAt w eid)) = none ∧
          plook st2 (entKey sc (entAt w2 eid)) = some r) := by
  have hbeq : pbeq (entKey sc { entAt w eid with
      vals := aset (entAt w eid).vals name cv })
      (entKey sc (entAt w eid)) = false := (pbeq_false_iff _ _).mpr hne
  have heqn := commitAttr_migrate sc w eid name cv hbeq
  set e := entAt w eid with hedef
  set oldKey := entKey sc e with hok
  set newKey := entKey sc { e with vals := aset e.vals name cv } with hnk
  set e2 : Ent :=
    { e with
      vals := aset e.vals name cv,
      tags := aset e.tags "_old_key" oldKey,
      dirty := true } with he2
  set w2 := commitAttr sc w eid name cv with hw2
  have hw2eq : w2 = { w with
      ents := w.ents.set eid e2,
      cache := ((newKey, eid) ::
        perase (if (plook w.cache oldKey).isSome then perase w.cache oldKey
          else w.cache) newKey).take w.cacheCap } := heqn
  have hent2 : entAt w2 eid = e2 := by
    rw [hw2eq]
    show (w.ents.set eid e2).getD eid defaultEnt = e2
    simp [List.getD, List.getElem?_set_self heid]
  have hkey2 : entKey sc e2 = newKey := rfl
  have hlen2 : w2.ents.length = w.ents.length := by
    rw [hw2eq]
    simp
  refine ⟨w2, ?_, ?_, ?_, ?_, ?_, ?_, ?_, ?_⟩
  · simp only [setAttrVal, hattr, hpipe, hw2]
  · rw [hent2, he2]
    show alook (aset e.tags "_old_key" oldKey) "_old_key" = some oldKey
    rw [alook_aset]
    simp
  · rw [hw2eq]
    show plook (((newKey, eid) ::
      perase (if (plook w.cache oldKey).isSome then perase w.cache oldKey
        else w.cache) newKey).take w.cacheCap) oldKey = none
    apply plook_take_none
    have hneq : pbeq newKey oldKey = false := hbeq
    simp only [plook, hneq, Bool.false_eq_true, if_false]
    rw [plook_perase]
    by_cases hb : (plook w.cache oldKey).isSome
    · simp only [hb, if_true]
      rw [plook_perase]
      simp
    · simp only [hb, Bool.false_eq_true, if_false]
      rw [if_neg (fun h => hne h)]
      simpa using hb
  · rw [hent2, hkey2, hw2eq]
    show plook (((newKey, eid) ::
      perase (if (plook w.cache oldKey).isSome then perase w.cache oldKey
        else w.cache) newKey).take w.cacheCap) newKey = some eid
    exact plook_cons_take _ _ _ _ hcap
  · rw [hent2, hkey2]
  · rw [hent2]
  · rw [hent2, he2]
    show alook (aset e.vals name cv) name = some cv
    rw [alook_aset]
    simp
  · intro st hst hsavable
    have hst2 : w2.store = some st := by
      rw [commitAttr_store]
      exact hst
    have hsav2 : (entAt w2 eid).savable = true := by
      rw [hent2]
      exact hsavable
    have htag2 : alook (entAt w2 eid).tags "_old_key" = some oldKey := by
      rw [hent2, he2]
      show alook (aset e.tags "_old_key" oldKey) "_old_key" = some oldKey
      rw [alook_aset]
      simp
    have hne2 : entKey sc (entAt w2 eid) ≠ oldKey := by
      rw [hent2, hkey2]
      exact hne
    obtain ⟨w3, st2, r, hsave, hstore3, hold, hnew, _, _⟩ :=
      save_oldkey sc w2 eid st oldKey hst2 hsav2 (by omega) htag2 hne2 hwf
    refine ⟨w3, st2, r, hsave, hstore3, hold, ?_⟩
    rw [hent2, hkey2] at hnew ⊢
    exact hnew


/-- Witness for C1: rewriting the key field `name` of the cached, stored
entity from `"A"` to `"B"` relocates the cache slot, records the old
key, and the next save retires the `"A"` record while writing `"B"`. -/
theorem key_migration_c1_witness :
    ∃ w2, setAttrVal wsc wworld 0 "name" (.vstr "B") true false = .ok w2 ∧
      alook (entAt w2 0).tags "_old_key" =
        some (entKey wsc (entAt wworld 0)) ∧
      plook w2.cache (entKey wsc (entAt wworld 0)) = none ∧
      plook w2.cache (entKey wsc (entAt w2 0)) = some 0 ∧
      entKey wsc (entAt w2 0) =
        entKey wsc { entAt wworld 0 with
          vals := aset (entAt wworld 0).vals "name" (.vstr "B") } ∧
      (entAt w2 0).dirty = true ∧
      alook (entAt w2 0).vals "name" = some (.vstr "B") ∧
      (∀ st, wworld.store = some st → (entAt wworld 0).savable = true →
        ∃ w3 st2 r, save wsc w2 0 = .ok w3 ∧ w3.store = some st2 ∧
          plook st2 (entKey wsc (entAt wworld 0)) = none ∧
          plook st2 (entKey wsc (entAt w2 0)) = some r) :=
  key_migration_c1 wsc wworld 0 "name" (.vstr "B") (.vstr "B") idAttr
    (by decide) rfl rfl (by decide) (by decide) (by decide)


theorem Tracks_refl (w : World) (eid : Nat) : Tracks w w eid (entAt w eid) :=
  ⟨rfl, rfl, fun _ _ => rfl, rfl, rfl, rfl, rfl⟩


theorem Tracks_optStep {α : Type} (w w' : World) (eid : Nat) (e' : Ent)
    (o : Option α) (f : α → Ent → Ent)
    (h : Tracks w w' eid e') (heid : eid < w.ents.length) :
    Tracks w
      (match o with
        | some u => setEnt w' eid (f u (entAt w' eid))
        | none => w') eid
      (match o with | some u => f u e' | none => e') := by
  cases o with
  | none => exact h
  | some u =>
      obtain ⟨hl, he, hfr, hs, hi, hc, hu⟩ := h
      have heid' : eid < w'.ents.length := by omega
      refine ⟨?_, ?_, ?_, hs, hi, hc, hu⟩
      · rw [length_setEnt]; exact hl
      · rw [entAt_setEnt_self _ _ _ heid', he]
      · intro i hi2
        rw [entAt_setEnt_ne _ _ _ _ hi2]
        exact hfr i hi2


theorem Tracks_step (sc : EntSchema) (w w' : World) (eid : Nat) (e' : Ent)
    (p : String × PVal) (h : Tracks w w' eid e')
    (heid : eid < w.ents.length) :
    Tracks w (deserStepW sc eid w' p) eid (deserStepE sc e' p) := by
  obtain ⟨hl, he, hfr, hs, hi, hc, hu⟩ := h
  have heid' : eid < w'.ents.length := by omega
  unfold deserStepW deserStepE
  cases halk : alook sc.attrs p.1 with
  | none => exact ⟨hl, he, hfr, hs, hi, hc, hu⟩
  | some a =>
      refine ⟨?_, ?_, ?_, ?_, ?_, ?_, ?_⟩
      · rw [commitAttr_ents_length]; exact hl
      · rw [entAt_commitAttr_self _ _ _ _ _ heid', he]
      · intro i hi2
        rw [entAt_commitAttr_ne _ _ _ _ _ _ hi2]
        exact hfr i hi2
      · rw [commitAttr_store]; exact hs
      · rw [commitAttr_instances]; exact hi
      · rw [commitAttr_cacheCap]; exact hc
      · rw [commitAttr_uidCounter]; exact hu


theorem Tracks_fold (sc : EntSchema) (w : World) (eid : Nat) :
    ∀ (items : Rec) (w' : World) (e' : Ent),
    Tracks w w' eid e' → eid < w.ents.length →
    Tracks w (items.foldl (deserStepW sc eid) w') eid
      (items.foldl (deserStepE sc) e') := by
  intro items
  induction items with
  | nil => intro w' e' h _; simpa using h
  | cons p rest ih =>
      intro w' e' h heid
      simp only [List.foldl_cons]
      exact ih _ _ (Tracks_step sc w w' eid e' p h heid) heid


/-- `Entity.deserialize` at heap slot `eid` rewrites only that slot, to
`applyRecToEnt` of its previous state; everything else except the key
cache is untouched. -/
theorem deserializeEnt_tracks (sc : EntSchema) (w : World) (eid : Nat)
    (r : Rec) (heid : eid < w.ents.length) :
    Tracks w (deserializeEnt sc w eid r) eid
      (applyRecToEnt sc (entAt w eid) r) := by
  cases hu : alook r "uid" with
  | none =>
      cases hf : alook (aerase r "uid") "flags" with
      | none =>
          cases ht : alook (aerase (aerase r "uid") "flags") "tags" with
          | none =>
              simp only [deserializeEnt, applyRecToEnt, hu, hf, ht]
              exact Tracks_fold sc w eid _ _ _ (Tracks_refl w eid) heid
          | some tv =>
              simp only [deserializeEnt, applyRecToEnt, hu, hf, ht]
              have t3 := Tracks_optStep w w eid (entAt w eid) (some tv)
                (fun tv e => { e with tags := tagsFrom tv, dirty := true })
                (Tracks_refl w eid) heid
              exact Tracks_fold sc w eid _ _ _ t3 heid
      | some fv =>
          have t2 := Tracks_optStep w w eid (entAt w eid) (some fv)
            (fun fv e => { e with flags := flagsMerge e.flags fv, dirty := true })
            (Tracks_refl w eid) heid
          cases ht : alook (aerase (aerase r "uid") "flags") "tags" with
          | none =>
              simp only [deserializeEnt, applyRecToEnt, hu, hf, ht]
              exact Tracks_fold sc w eid _ _ _ t2 heid
          | some tv =>
              simp only [deserializeEnt, applyRecToEnt, hu, hf, ht]
              have t3 := Tracks_optStep w _ eid _ (some tv)
                (fun tv e => { e with tags := tagsFrom tv, dirty := true })
                t2 heid
              exact Tracks_fold sc w eid _ _ _ t3 heid
  | some u =>
      have t1 := Tracks_optStep w w eid (entAt w eid) (some u)
        (fun u e => { e with uid := u }) (Tracks_refl w eid) heid
      cases hf : alook (aerase r "uid") "flags" with
      | none =>
          cases ht : alook (aerase (aerase r "uid") "flags") "tags" with
          | none =>
              simp only [deserializeEnt, applyRecToEnt, hu, hf, ht]
              exact Tracks_fold sc w eid _ _ _ t1 heid
          | some tv =>
              simp only [deserializeEnt, applyRecToEnt, hu, hf, ht]
              have t3 := Tracks_optStep w _ eid _ (some tv)
                (fun tv e => { e with tags := tagsFrom tv, dirty := true })
                t1 heid
              exact Tracks_fold sc w eid _ _ _ t3 heid
      | some fv =>
          have t2 := Tracks_optStep w _ eid _ (some fv)
            (fun fv e => { e with flags := flagsMerge e.flags fv, dirty := true })
            t1 heid
          cases ht : alook (aerase (aerase r "uid") "flags") "tags" with
          | none =>
              simp only [deserializeEnt, applyRecToEnt, hu, hf, ht]
              exact Tracks_fold sc w eid _ _ _ t2 heid
          | some tv =>
              simp only [deserializeEnt, applyRecToEnt, hu, hf, ht]
              have t3 := Tracks_optStep w _ eid _ (some tv)
                (fun tv e => { e with tags := tagsFrom tv, dirty := true })
                t2 heid
              exact Tracks_fold sc w eid _ _ _ t3 heid


theorem getD_append_self {α : Type} (l : List α) (x d : α) :
    (l ++ [x]).getD l.length d = x := by
  induction l with
  | nil => rfl
  | cons a t ih => simp [ih]


theorem getD_append_lt {α : Type} (l : List α) (x d : α) (i : Nat)
    (h : i < l.length) : (l ++ [x]).getD i d = l.getD i d := by
  induction l generalizing i with
  | nil => simp at h
  | cons a t ih =>
      cases i with
      | zero => rfl
      | succ j =>
          simp only [List.cons_append, List.getD_cons_succ]
          exact ih j (by simpa using h)


theorem constructTail_eq (sc : EntSchema) (w2 : World) (eid now : Nat)
    (w3 : World)
    (hw3 : w3 = (if (entAt w2 eid).uid.isNone then
        setEnt { w2 with uidCounter := uidStep now w2.uidCounter } eid
          { entAt w2 eid with
            uid := .vstr (makeUidStr sc.uidCode (uidStep now w2.uidCounter)) }
      else w2)) :
    constructTail sc w2 eid now =
      (if (plook w3.cache (entKey sc (entAt w3 eid))).isSome then
        { w3 with instances := pset w3.instances (entAt w3 eid).uid eid }
      else
        cacheSet { w3 with
            instances := pset w3.instances (entAt w3 eid).uid eid }
          (entKey sc (entAt w3 eid)) eid) := by
  subst hw3
  rfl


theorem constructTail_spec (sc : EntSchema) (w2 : World) (eid : Nat)
    (now : Nat) (heid : eid < w2.ents.length) :
    (constructTail sc w2 eid now).ents.length = w2.ents.length ∧
    entAt (constructTail sc w2 eid now) eid =
      (if (entAt w2 eid).uid.isNone then
        { entAt w2 eid with
          uid := .vstr (makeUidStr sc.uidCode (uidStep now w2.uidCounter)) }
       else entAt w2 eid) ∧
    (∀ i, i ≠ eid → entAt (constructTail sc w2 eid now) i = entAt w2 i) ∧
    (constructTail sc w2 eid now).store = w2.store ∧
    (constructTail sc w2 eid now).cacheCap = w2.cacheCap ∧
    (constructTail sc w2 eid now).instances =
      pset w2.instances (entAt (constructTail sc w2 eid now) eid).uid eid ∧
    (constructTail sc w2 eid now).uidCounter =
      (if (entAt w2 eid).uid.isNone then uidStep now w2.uidCounter
       else w2.uidCounter) := by
  set w3 := (if (entAt w2 eid).uid.isNone then
      setEnt { w2 with uidCounter := uidStep now w2.uidCounter } eid
        { entAt w2 eid with
          uid := .vstr (makeUidStr sc.uidCode (uidStep now w2.uidCounter)) }
    else w2) with hw3
  have hct := constructTail_eq sc w2 eid now w3 hw3
  have hl3 : w3.ents.length = w2.ents.length := by
    rw [hw3]
    split
    · rw [length_setEnt]
    · rfl
  have he3 : entAt w3 eid =
      (if (entAt w2 eid).uid.isNone then
        { entAt w2 eid with
          uid := .vstr (makeUidStr sc.uidCode (uidStep now w2.uidCounter)) }
       else entAt w2 eid) := by
    rw [hw3]
    by_cases hnb : (entAt w2 eid).uid.isNone = true
    · simp only [hnb, if_true]
      exact entAt_setEnt_self _ _ _ heid
    · simp only [hnb, Bool.false_eq_true, if_false]
  have hfr3 : ∀ i, i ≠ eid → entAt w3 i = entAt w2 i := by
    intro i hi
    rw [hw3]
    split
    · rw [entAt_setEnt_ne _ _ _ _ hi]; rfl
    · rfl
  have hs3 : w3.store = w2.store := by
    rw [hw3]; split <;> rfl
  have hcc3 : w3.cacheCap = w2.cacheCap := by
    rw [hw3]; split <;> rfl
  have hi3 : w3.instances = w2.instances := by
    rw [hw3]; split <;> rfl
  have hu3 : w3.uidCounter =
      (if (entAt w2 eid).uid.isNone then uidStep now w2.uidCounter
       else w2.uidCounter) := by
    rw [hw3]
    by_cases hnb : (entAt w2 eid).uid.isNone = true
    · simp only [hnb, if_true]; rfl
    · simp only [hnb, Bool.false_eq_true, if_false]
  rw [hct]
  by_cases hcb : (plook w3.cache (entKey sc (entAt w3 eid))).isSome = true
  · simp only [hcb, if_true]
    refine ⟨hl3, he3, hfr3, hs3, hcc3, ?_, hu3⟩
    show pset w3.instances (entAt w3 eid).uid eid =
      pset w2.instances (entAt w3 eid).uid eid
    rw [hi3]
  · simp only [hcb, Bool.false_eq_true, if_false]
    refine ⟨?_, ?_, ?_, ?_, ?_, ?_, ?_⟩
    · show w3.ents.length = w2.ents.length
      exact hl3
    · show entAt w3 eid = _
      exact he3
    · intro i hi
      show entAt w3 i = entAt w2 i
      exact hfr3 i hi
    · show w3.store = w2.store
      exact hs3
    · show w3.cacheCap = w2.cacheCap
      exact hcc3
    · show pset w3.instances (entAt w3 eid).uid eid =
        pset w2.instances (entAt w3 eid).uid eid
      rw [hi3]
    · show w3.uidCounter = _
      exact hu3


/-- Frame specification of `Entity.__init__` with supplied data: the new
entity lands at index `w.ents.length` in the constructed state; the old
heap slots, the store and the cache capacity are untouched; the entity
is registered in `_instances` under its final UID; the UID counter steps
exactly when a UID had to be generated. -/
theorem construct_some_spec (sc : EntSchema) (w : World) (r : Rec)
    (active savable : Bool) (now : Nat) :
    (construct sc w (some r) active savable now).2 = w.ents.length ∧
    (construct sc w (some r) active savable now).1.ents.length =
      w.ents.length + 1 ∧
    entAt (construct sc w (some r) active savable now).1 w.ents.length =
      constructedEnt sc w r active savable now ∧
    (∀ i, i < w.ents.length →
      entAt (construct sc w (some r) active savable now).1 i = entAt w i) ∧
    (construct sc w (some r) active savable now).1.store = w.store ∧
    (construct sc w (some r) active savable now).1.cacheCap = w.cacheCap ∧
    (construct sc w (some r) active savable now).1.instances =
      pset w.instances (constructedEnt sc w r active savable now).uid
        w.ents.length ∧
    (construct sc w (some r) active savable now).1.uidCounter =
      (if (applyRecToEnt sc (freshEnt sc active savable) r).uid.isNone then
        uidStep now w.uidCounter else w.uidCounter) := by
  have hconEq : construct sc w (some r) active savable now =
      (constructTail sc (deserializeEnt sc
          { w with ents := w.ents ++ [freshEnt sc active savable] }
          w.ents.length r) w.ents.length now, w.ents.length) := rfl
  set w1 : World := { w with ents := w.ents ++ [freshEnt sc active savable] }
    with hw1
  set eid := w.ents.length with heiddef
  have hlen1 : w1.ents.length = w.ents.length + 1 := by
    rw [hw1]; simp
  have heid1 : eid < w1.ents.length := by omega
  have hent1 : entAt w1 eid = freshEnt sc active savable :=
    getD_append_self w.ents _ _
  have hfr1 : ∀ i, i < w.ents.length → entAt w1 i = entAt w i :=
    fun i hi => getD_append_lt w.ents _ _ i hi
  obtain ⟨hl2, he2, hfr2, hs2, hi2, hc2, hu2⟩ :=
    deserializeEnt_tracks sc w1 eid r heid1
  set w2 := deserializeEnt sc w1 eid r with hw2
  rw [hent1] at he2
  have heid2 : eid < w2.ents.length := by omega
  obtain ⟨tl, te, tfr, ts, tc, ti, tu⟩ := constructTail_spec sc w2 eid now heid2
  have hu1 : w1.uidCounter = w.uidCounter := rfl
  have hentfin : entAt (constructTail sc w2 eid now) eid =
      constructedEnt sc w r active savable now := by
    rw [te, he2, hu2, hu1]
    rfl
  refine ⟨?_, ?_, ?_, ?_, ?_, ?_, ?_, ?_⟩
  · rw [hconEq]
  · rw [hconEq]
    show (constructTail sc w2 eid now).ents.length = w.ents.length + 1
    omega
  · rw [hconEq]
    exact hentfin
  · intro i hi
    rw [hconEq]
    show entAt (constructTail sc w2 eid now) i = entAt w i
    rw [tfr i (by omega), hfr2 i (by omega), hfr1 i hi]
  · rw [hconEq]
    show (constructTail sc w2 eid now).store = w.store
    rw [ts, hs2]
  · rw [hconEq]
    show (constructTail sc w2 eid now).cacheCap = w.cacheCap
    rw [tc, hc2]
  · rw [hconEq]
    show (constructTail sc w2 eid now).instances =
      pset w.instances (constructedEnt sc w r active savable now).uid eid
    rw [ti, hi2, hentfin]
  · rw [hconEq]
    show (constructTail sc w2 eid now).uidCounter = _
    rw [tu, he2, hu2, hu1]


/-- C6: the observable behaviours of `Entity.load(key, from_cache,
default)`.  (1) With `from_cache` permitting, a UID-keyed instance
registered under the identifier is returned as-is (heap, registry, store
and counter untouched); (2) a key-cache hit is returned with the world
exactly unchanged; (3) for non-UID keys a live-instance scan hit is
returned as-is; (4) with `from_cache` disabled the store is re-read
regardless of any registered instance: a store hit materializes a brand
new entity (at a fresh index) with the dirty flag cleared and registers
it in `_instances` under its UID; (5) when nothing is found, the
caller-supplied default value is returned, or raised when it names an
error kind. -/
theorem load_spec_c6 (sc : EntSchema) (w : World) (key : PVal)
    (d : LoadDefault) (now : Nat) :
    (∀ eid, sc.storeKey = "uid" → plook w.instances key = some eid →
      ∃ w2, load sc w key true d now = (w2, .ent eid) ∧
        w2.ents = w.ents ∧ w2.instances = w.instances ∧
        w2.store = w.store ∧ w2.uidCounter = w.uidCounter) ∧
    (∀ eid, (sc.storeKey = "uid" → plook w.instances key = none) →
      plook w.cache key = some eid →
      load sc w key true d now = (w, .ent eid)) ∧
    (∀ eid, sc.storeKey ≠ "uid" → plook w.cache key = none →
      scanInstances sc w key w.instances = some eid →
      ∃ w2, load sc w key true d now = (w2, .ent eid) ∧
        w2.ents = w.ents ∧ w2.instances = w.instances ∧
        w2.store = w.store ∧ w2.uidCounter = w.uidCounter) ∧
    (∀ st r, w.store = some st → plook st key = some r → r ≠ [] →
      ∃ w2, load sc w key false d now = (w2, .ent w.ents.length) ∧
        w2.ents.length = w.ents.length + 1 ∧
        (∀ i, i < w.ents.length → entAt w2 i = entAt w i) ∧
        (entAt w2 w.ents.length).dirty = false ∧
        plook w2.instances (entAt w2 w.ents.length).uid =
          some w.ents.length ∧
        w2.store = w.store) ∧
    (∀ fc : Bool,
      (fc = true → (sc.storeKey = "uid" → plook w.instances key = none) ∧
        plook w.cache key = none ∧
        (sc.storeKey ≠ "uid" →
          scanInstances sc w key w.instances = none)) →
      (match w.store with
        | none => True
        | some st => plook st key = none ∨ plook st key = some []) →
      load sc w key fc d now =
        (w, match d with | .val v => .val v | .exc nm => .raised nm)) := by
  refine ⟨?_, ?_, ?_, ?_, ?_⟩
  · intro eid hsk hinst
    have hcore : loadCore sc w key true now = (w, some eid) := by
      simp [loadCore, hsk, hinst]
    have hload : load sc w key true d now =
        (if (plook w.cache key).isSome then w else cacheSet w key eid,
          .ent eid) := by
      simp [load, hcore]
    by_cases hcb : (plook w.cache key).isSome = true
    · refine ⟨w, ?_, rfl, rfl, rfl, rfl⟩
      rw [hload, if_pos hcb]
    · refine ⟨cacheSet w key eid, ?_, rfl, rfl, rfl, rfl⟩
      rw [hload, if_neg hcb]
  · intro eid h1 hcache
    have hcore : loadCore sc w key true now = (w, some eid) := by
      by_cases hsk : sc.storeKey = "uid"
      · simp [loadCore, hsk, h1 hsk, hcache]
      · simp [loadCore, hsk, hcache]
    simp [load, hcore, hcache]
  · intro eid hsk hcache hscan
    have hcore : loadCore sc w key true now = (w, some eid) := by
      simp [loadCore, hsk, hcache, hscan]
    refine ⟨cacheSet w key eid, ?_, rfl, rfl, rfl, rfl⟩
    simp [load, hcore, hcache]
  · intro st r hst hlook hne
    have hre : r.isEmpty = false := by
      cases r with
      | nil => exact absurd rfl hne
      | cons a t => rfl
    rcases hc : construct sc w (some r) false true now with ⟨wc, ec⟩
    have hspec := construct_some_spec sc w r false true now
    rw [hc] at hspec
    obtain ⟨h2, hlen, hent, hfr, hstore, hcap, hinst, hcnt⟩ := hspec
    have h2' : ec = w.ents.length := h2
    have hlen' : wc.ents.length = w.ents.length + 1 := hlen
    have hent' : entAt wc w.ents.length =
        constructedEnt sc w r false true now := hent
    have hfr' : ∀ i, i < w.ents.length → entAt wc i = entAt w i := hfr
    have hstore' : wc.store = w.store := hstore
    have hinst' : wc.instances =
        pset w.instances (constructedEnt sc w r false true now).uid
          w.ents.length := hinst
    have hcore : loadCore sc w key false now =
        (setDirty wc ec false, some ec) := by
      simp [loadCore, hst, hlook, hre, hc]
    set wd := setDirty wc ec false with hwd
    have hload : load sc w key false d now =
        (if (plook wd.cache key).isSome then wd else cacheSet wd key ec,
          .ent ec) := by
      simp [load, hcore]
    have hecwc : ec < wc.ents.length := by omega
    have hlend : wd.ents.length = w.ents.length + 1 := by
      rw [hwd]
      show (setEnt wc ec _).ents.length = _
      rw [length_setEnt]
      exact hlen'
    have hentd : entAt wd ec = { entAt wc ec with dirty := false } := by
      rw [hwd]
      exact entAt_setEnt_self _ _ _ hecwc
    have hfrd : ∀ i, i ≠ ec → entAt wd i = entAt wc i := by
      intro i hi
      rw [hwd]
      exact entAt_setEnt_ne _ _ _ _ hi
    refine ⟨if (plook wd.cache key).isSome then wd else cacheSet wd key ec,
      ?_, ?_, ?_, ?_, ?_, ?_⟩
    · rw [hload, h2']
    · split
      · exact hlend
      · show wd.ents.length = _
        exact hlend
    · intro i hi
      have hine : i ≠ ec := by omega
      have : entAt wd i = entAt w i := by
        rw [hfrd i hine]
        exact hfr' i hi
      split
      · exact this
      · rw [entAt_cacheSet]
        exact this
    · have : (entAt wd w.ents.length).dirty = false := by
        rw [← h2', hentd]
      split
      · exact this
      · rw [entAt_cacheSet]
        exact this
    · have huid : (entAt wd w.ents.length).uid =
          (constructedEnt sc w r false true now).uid := by
        rw [← h2', hentd]
        show (entAt wc ec).uid = _
        rw [h2', hent']
      have hval : plook wd.instances (entAt wd w.ents.length).uid =
          some w.ents.length := by
        have hwi : wd.instances = wc.instances := rfl
        rw [hwi, hinst', huid, plook_pset, if_pos rfl]
      split
      · exact hval
      · show plook wd.instances _ = _
        rw [← hval]
        rfl
    · have hsd : wd.store = w.store := hstore'
      split
      · exact hsd
      · show wd.store = w.store
        exact hsd
  · intro fc hcm hsm
    have hcore : loadCore sc w key fc now = (w, none) := by
      cases fc with
      | false =>
          cases hws : w.store with
          | none => simp [loadCore, hws]
          | some st =>
              rw [hws] at hsm
              replace hsm : plook st key = none ∨ plook st key = some [] :=
                hsm
              rcases hsm with hnone | hemp
              · simp [loadCore, hws, hnone]
              · simp [loadCore, hws, hemp]
      | true =>
          obtain ⟨hi1, hc1, hs1⟩ := hcm rfl
          by_cases hsk : sc.storeKey = "uid"
          · cases hws : w.store with
            | none => simp [loadCore, hws, hsk, hi1 hsk, hc1]
            | some st =>
                rw [hws] at hsm
                replace hsm : plook st key = none ∨ plook st key = some [] :=
                  hsm
                rcases hsm with hnone | hemp
                · simp [loadCore, hws, hsk, hi1 hsk, hc1, hnone]
                · simp [loadCore, hws, hsk, hi1 hsk, hc1, hemp]
          · cases hws : w.store with
            | none => simp [loadCore, hws, hsk, hc1, hs1 hsk]
            | some st =>
                rw [hws] at hsm
                replace hsm : plook st key = none ∨ plook st key = some [] :=
                  hsm
                rcases hsm with hnone | hemp
                · simp [loadCore, hws, hsk, hc1, hs1 hsk, hnone]
                · simp [loadCore, hws, hsk, hc1, hs1 hsk, hemp]
    cases d with
    | val v => simp [load, hcore]
    | exc nm => simp [load, hcore]


/-- Witness for C6 on the concrete world: a cache hit under key `"A"`
returns instance `0` with the world unchanged; with `from_cache`
disabled the same key is re-read from the store and materializes a brand
new instance `1`; a miss under key `"Z"` raises the supplied error
kind. -/
theorem load_spec_c6_witness :
    load wsc wworld (.vstr "A") true (.val .vnone) 7 = (wworld, .ent 0) ∧
    (∃ w2, load wsc wworld (.vstr "A") false (.exc "RuntimeError") 7 =
      (w2, .ent 1)) ∧
    load wsc wworld (.vstr "Z") true (.exc "RuntimeError") 7 =
      (wworld, .raised "RuntimeError") := by
  obtain ⟨-, h2, -, -, -⟩ :=
    load_spec_c6 wsc wworld (.vstr "A") (.val .vnone) 7
  obtain ⟨-, -, -, h4, -⟩ :=
    load_spec_c6 wsc wworld (.vstr "A") (.exc "RuntimeError") 7
  obtain ⟨-, -, -, -, h5⟩ :=
    load_spec_c6 wsc wworld (.vstr "Z") (.exc "RuntimeError") 7
  refine ⟨?_, ?_, ?_⟩
  · exact h2 0 (by decide) (by decide)
  · obtain ⟨w2, hl, -, -, -, -, -⟩ :=
      h4 [(.vstr "A", wrec)] wrec rfl (by decide) (by decide)
    exact ⟨w2, hl⟩
  · exact h5 true (fun _ => ⟨by decide, by decide, by decide⟩)
      (Or.inl (by decide))


/-! ### Cloning (claims C7, C10) -/

theorem commitEnt_vals (sc : EntSchema) (e : Ent) (k : String) (v : PVal) :
    (commitEnt sc e k v).vals = aset e.vals k v := by
  simp only [commitEnt, setTag]
  split <;> rfl


theorem commitEnt_uid (sc : EntSchema) (e : Ent) (k : String) (v : PVal) :
    (commitEnt sc e k v).uid = e.uid := by
  simp only [commitEnt, setTag]
  split <;> rfl


theorem commitEnt_savable (sc : EntSchema) (e : Ent) (k : String)
    (v : PVal) : (commitEnt sc e k v).savable = e.savable := by
  simp only [commitEnt, setTag]
  split <;> rfl


theorem foldE_uid_savable (sc : EntSchema) :
    ∀ (items : Rec) (e : Ent),
      (items.foldl (deserStepE sc) e).uid = e.uid ∧
      (items.foldl (deserStepE sc) e).savable = e.savable := by
  intro items
  induction items with
  | nil => intro e; exact ⟨rfl, rfl⟩
  | cons p rest ih =>
      intro e
      simp only [List.foldl_cons]
      have hstep : (deserStepE sc e p).uid = e.uid ∧
          (deserStepE sc e p).savable = e.savable := by
        unfold deserStepE
        cases alook sc.attrs p.1 with
        | none => exact ⟨rfl, rfl⟩
        | some a => exact ⟨commitEnt_uid sc e p.1 _, commitEnt_savable sc e p.1 _⟩
      obtain ⟨h1, h2⟩ := ih (deserStepE sc e p)
      exact ⟨h1.trans hstep.1, h2.trans hstep.2⟩


theorem foldE_vals (sc : EntSchema) :
    ∀ (pa : List (String × AttrSpec)) (items : Rec) (g : String → PVal),
      List.Forall₂ (fun (p : String × AttrSpec) (q : String × PVal) =>
        q.1 = p.1 ∧ alook sc.attrs p.1 = some p.2 ∧
        (if q.2.isUnset then q.2 else p.2.deser q.2) = g p.1) pa items →
      (pa.map Prod.fst).Nodup →
      ∀ (e : Ent) (n : String),
        alook (items.foldl (deserStepE sc) e).vals n =
          (if n ∈ pa.map Prod.fst then some (g n) else alook e.vals n) := by
  intro pa items g hfar
  induction hfar with
  | nil => intro _ e n; simp
  | @cons p q pa' es' hpq htail ih =>
      intro hnd e n
      obtain ⟨hq1, hlk, hval⟩ := hpq
      simp only [List.map_cons, List.nodup_cons] at hnd
      simp only [List.foldl_cons]
      have hstepvals : (deserStepE sc e q).vals =
          aset e.vals p.1 (g p.1) := by
        unfold deserStepE
        simp only [hq1, hlk]
        rw [commitEnt_vals, hval]
      rw [ih hnd.2 (deserStepE sc e q) n]
      simp only [List.map_cons, List.mem_cons]
      by_cases hmem : n ∈ pa'.map Prod.fst
      · rw [if_pos hmem, if_pos (Or.inr hmem)]
      · rw [if_neg hmem]
        by_cases hn : n = p.1
        · subst hn
          rw [if_pos (Or.inl rfl), hstepvals, alook_aset, if_pos rfl]
        · rw [if_neg (by
            intro hcon
            rcases hcon with hcon | hcon
            · exact hn hcon
            · exact hmem hcon)]
          rw [hstepvals, alook_aset, if_neg (fun hcon => hn hcon.symm)]


theorem aerase_append_left {α : Type} (l1 l2 : List (String × α))
    (k : String) (h : k ∉ l1.map Prod.fst) :
    aerase (l1 ++ l2) k = l1 ++ aerase l2 k := by
  induction l1 with
  | nil => rfl
  | cons p rest ih =>
      simp only [List.map_cons, List.mem_cons] at h
      push_neg at h
      simp only [List.cons_append, aerase, beq_iff_eq]
      rw [if_neg (Ne.symm h.1)]
      simp [ih h.2]


theorem aerase_of_not_mem {α : Type} (l : List (String × α)) (k : String)
    (h : k ∉ l.map Prod.fst) : aerase l k = l := by
  induction l with
  | nil => rfl
  | cons p rest ih =>
      simp only [List.map_cons, List.mem_cons] at h
      push_neg at h
      simp only [aerase, beq_iff_eq]
      rw [if_neg (Ne.symm h.1)]
      simp [ih h.2]


theorem map_fst_keyed {α β γ : Type} (l : List (α × β)) (f : α × β → γ) :
    ((l.map fun p => (p.1, f p)).map Prod.fst) = l.map Prod.fst := by
  induction l with
  | nil => rfl
  | cons p rest ih => simp [ih]


theorem serializeEnt_ok (sc : EntSchema) (e : Ent)
    (hnd : (sc.attrs.map Prod.fst).Nodup)
    (hu : "uid" ∉ sc.attrs.map Prod.fst)
    (hf : "flags" ∉ sc.attrs.map Prod.fst)
    (ht : "tags" ∉ sc.attrs.map Prod.fst) :
    serializeEnt sc e = .ok
      ((sc.attrs.map fun p => (p.1, serValOf e.vals p)) ++
        [("uid", e.uid), ("flags", .vlist (e.flags.map .vstr)),
         ("tags", .vdict e.tags)]) := by
  have hser := serializeAttrs_spec sc.attrs e.vals [] (by simp) hnd
  have hkeys : ((sc.attrs.map fun p => (p.1, serValOf e.vals p)).map
      Prod.fst) = sc.attrs.map Prod.fst := map_fst_keyed _ _
  have h1 : "uid" ∉ ((sc.attrs.map fun p =>
      (p.1, serValOf e.vals p)).map Prod.fst) := by
    rw [hkeys]; exact hu
  have h2 : "flags" ∉ (((sc.attrs.map fun p => (p.1, serValOf e.vals p)) ++
      [("uid", e.uid)]).map Prod.fst) := by
    simp only [List.map_append, List.mem_append, List.map_cons,
      List.map_nil, List.mem_singleton, hkeys]
    push_neg
    exact ⟨hf, by decide⟩
  have h3 : "tags" ∉ ((((sc.attrs.map fun p => (p.1, serValOf e.vals p)) ++
      [("uid", e.uid)]) ++
        [("flags", PVal.vlist (e.flags.map PVal.vstr))]).map Prod.fst) := by
    simp only [List.map_append, List.mem_append, List.map_cons,
      List.map_nil, List.mem_singleton, hkeys]
    push_neg
    exact ⟨⟨ht, by decide⟩, by decide⟩
  simp only [serializeEnt, hser, List.nil_append]
  rw [aset_eq_append_of_not_mem _ _ _ h1,
    aset_eq_append_of_not_mem _ _ _ h2,
    aset_eq_append_of_not_mem _ _ _ h3]
  simp [List.append_assoc]


theorem aerase_serializeEnt (sc : EntSchema) (e : Ent)
    (hu : "uid" ∉ sc.attrs.map Prod.fst) :
    aerase ((sc.attrs.map fun p => (p.1, serValOf e.vals p)) ++
        [("uid", e.uid), ("flags", .vlist (e.flags.map .vstr)),
         ("tags", .vdict e.tags)]) "uid" = cloneRec sc e := by
  rw [aerase_append_left _ _ _ (by rw [map_fst_keyed]; exact hu)]
  rfl


theorem applyRec_cloneRec (sc : EntSchema) (e : Ent) (active savable : Bool)
    (hnd : (sc.attrs.map Prod.fst).Nodup)
    (hu : "uid" ∉ sc.attrs.map Prod.fst)
    (hf : "flags" ∉ sc.attrs.map Prod.fst)
    (ht : "tags" ∉ sc.attrs.map Prod.fst)
    (hfaith : ∀ p ∈ sc.attrs,
      ((alook e.vals p.1).getD .vnone).isUnset = false →
        (p.2.ser ((alook e.vals p.1).getD .vnone)).isUnset = false ∧
        p.2.deser (p.2.ser ((alook e.vals p.1).getD .vnone)) =
          (alook e.vals p.1).getD .vnone) :
    (applyRecToEnt sc (freshEnt sc active savable) (cloneRec sc e)).uid =
      .vnone ∧
    (applyRecToEnt sc (freshEnt sc active savable) (cloneRec sc e)).savable
      = savable ∧
    (∀ n, n ∈ sc.attrs.map Prod.fst →
      alook (applyRecToEnt sc (freshEnt sc active savable)
        (cloneRec sc e)).vals n = some ((alook e.vals n).getD .vnone)) := by
  have hfar : List.Forall₂ (fun (p : String × AttrSpec) (q : String × PVal) =>
      q.1 = p.1 ∧ alook sc.attrs p.1 = some p.2 ∧
      (if q.2.isUnset then q.2 else p.2.deser q.2) =
        (alook e.vals p.1).getD .vnone)
      sc.attrs (sc.attrs.map fun p => (p.1, serValOf e.vals p)) := by
    rw [List.forall₂_map_right_iff, List.forall₂_same]
    intro p hp
    refine ⟨rfl, alook_self_of_nodup sc.attrs hnd p hp, ?_⟩
    by_cases hbu : ((alook e.vals p.1).getD .vnone).isUnset = true
    · simp [serValOf, hbu]
    · have hb : ((alook e.vals p.1).getD .vnone).isUnset = false := by
        simpa using hbu
      obtain ⟨hs1, hs2⟩ := hfaith p hp hb
      simp [serValOf, hb, hs1, hs2]
  have hdk : ((sc.attrs.map fun p => (p.1, serValOf e.vals p)).map
      Prod.fst) = sc.attrs.map Prod.fst := map_fst_keyed _ _
  have halu : alook (cloneRec sc e) "uid" = none := by
    unfold cloneRec
    rw [alook_append_left _ _ _
      (alook_eq_none_of_not_mem _ _ (by rw [hdk]; exact hu))]
    rfl
  have haeru : aerase (cloneRec sc e) "uid" = cloneRec sc e := by
    refine aerase_of_not_mem _ _ ?_
    unfold cloneRec
    simp only [List.map_append, List.mem_append, List.map_cons,
      List.map_nil, hdk]
    push_neg
    exact ⟨hu, by decide⟩
  have half : alook (cloneRec sc e) "flags" =
      some (.vlist (e.flags.map .vstr)) := by
    unfold cloneRec
    rw [alook_append_left _ _ _
      (alook_eq_none_of_not_mem _ _ (by rw [hdk]; exact hf))]
    rfl
  have haerf : aerase (cloneRec sc e) "flags" =
      (sc.attrs.map fun p => (p.1, serValOf e.vals p)) ++
        [("tags", .vdict e.tags)] := by
    unfold cloneRec
    rw [aerase_append_left _ _ _ (by rw [hdk]; exact hf)]
    rfl
  have halt : alook ((sc.attrs.map fun p => (p.1, serValOf e.vals p)) ++
      [("tags", .vdict e.tags)]) "tags" = some (.vdict e.tags) := by
    rw [alook_append_left _ _ _
      (alook_eq_none_of_not_mem _ _ (by rw [hdk]; exact ht))]
    rfl
  have haert : aerase ((sc.attrs.map fun p => (p.1, serValOf e.vals p)) ++
      [("tags", .vdict e.tags)]) "tags" =
        (sc.attrs.map fun p => (p.1, serValOf e.vals p)) := by
    rw [aerase_append_left _ _ _ (by rw [hdk]; exact ht)]
    simp [aerase]
  have happ : applyRecToEnt sc (freshEnt sc active savable)
      (cloneRec sc e) =
      ((sc.attrs.map fun p => (p.1, serValOf e.vals p)).foldl
        (deserStepE sc)
        { freshEnt sc active savable with
          flags := flagsMerge (freshEnt sc active savable).flags
            (.vlist (e.flags.map .vstr)),
          tags := tagsFrom (.vdict e.tags),
          dirty := true }) := by
    simp only [applyRecToEnt, halu, haeru, half, haerf, halt, haert]
  refine ⟨?_, ?_, ?_⟩
  · rw [happ]
    exact (foldE_uid_savable sc _ _).1
  · rw [happ]
    exact (foldE_uid_savable sc _ _).2
  · intro n hn
    rw [happ, foldE_vals sc sc.attrs _
      (fun n => (alook e.vals n).getD .vnone) hfar hnd _ n, if_pos hn]


theorem clone_reduces (sc : EntSchema) (w : World) (eid : Nat)
    (newKey cv : PVal) (now : Nat) (st : List (PVal × Rec)) (a : AttrSpec)
    (hstore : w.store = some st)
    (hnew : plook st newKey = none)
    (hnd : (sc.attrs.map Prod.fst).Nodup)
    (hu : "uid" ∉ sc.attrs.map Prod.fst)
    (hf : "flags" ∉ sc.attrs.map Prod.fst)
    (ht : "tags" ∉ sc.attrs.map Prod.fst)
    (hsk : sc.storeKey ≠ "uid")
    (hattr : alook sc.attrs sc.storeKey = some a)
    (hro : a.readOnly = false)
    (hpipe : applyPipeline a newKey true false = .ok cv) :
    clone sc w eid newKey now = .ok
      (commitAttr sc
        (construct sc w (some (cloneRec sc (entAt w eid))) false true now).1
        w.ents.length sc.storeKey cv, w.ents.length) := by
  have hser := serializeEnt_ok sc (entAt w eid) hnd hu hf ht
  have haer := aerase_serializeEnt sc (entAt w eid) hu
  rcases hc : construct sc w (some (cloneRec sc (entAt w eid))) false true
    now with ⟨wc, ec⟩
  have hec : ec = w.ents.length := by
    have h := (construct_some_spec sc w (cloneRec sc (entAt w eid)) false
      true now).1
    rw [hc] at h
    exact h
  have hwc : (construct sc w (some (cloneRec sc (entAt w eid))) false true
      now).1 = wc := by rw [hc]
  simp only [clone, hstore, hnew, Option.isSome_none, Bool.false_eq_true,
    if_false, hser, haer, hc]
  rw [if_neg hsk]
  simp only [hattr, hro, Bool.false_eq_true, if_false, setAttrVal, hpipe]
  rw [hec]


/-- C7: on an entity held in a store, `clone(new_key)` with an unoccupied
new key succeeds and yields a brand new entity (at a fresh heap index,
every existing entity untouched) whose storage key is the
validated/finalized new key, whose other fields hold exactly the
original's values, and whose identifier is freshly generated — distinct
from the original's whenever that one was produced by an earlier state
of the UID counter; cloning onto a key already present in the store
fails with `KeyError`. -/
theorem clone_spec_c7 (sc : EntSchema) (w : World) (eid : Nat)
    (newKey cv : PVal) (now : Nat) (st : List (PVal × Rec)) (a : AttrSpec)
    (hstore : w.store = some st)
    (hnew : plook st newKey = none)
    (hnd : (sc.attrs.map Prod.fst).Nodup)
    (hu : "uid" ∉ sc.attrs.map Prod.fst)
    (hf : "flags" ∉ sc.attrs.map Prod.fst)
    (ht : "tags" ∉ sc.attrs.map Prod.fst)
    (hsk : sc.storeKey ≠ "uid")
    (hattr : alook sc.attrs sc.storeKey = some a)
    (hro : a.readOnly = false)
    (hpipe : applyPipeline a newKey true false = .ok cv)
    (hfaith : ∀ p ∈ sc.attrs,
      ((alook (entAt w eid).vals p.1).getD .vnone).isUnset = false →
        (p.2.ser ((alook (entAt w eid).vals p.1).getD .vnone)).isUnset =
          false ∧
        p.2.deser (p.2.ser ((alook (entAt w eid).vals p.1).getD .vnone)) =
          (alook (entAt w eid).vals p.1).getD .vnone) :
    ∃ w2, clone sc w eid newKey now = .ok (w2, w.ents.length) ∧
      w2.ents.length = w.ents.length + 1 ∧
      (∀ i, i < w.ents.length → entAt w2 i = entAt w i) ∧
      entKey sc (entAt w2 w.ents.length) = cv ∧
      (∀ n b, alook sc.attrs n = some b → n ≠ sc.storeKey →
        alook (entAt w2 w.ents.length).vals n =
          some ((alook (entAt w eid).vals n).getD .vnone)) ∧
      (entAt w2 w.ents.length).uid =
        .vstr (makeUidStr sc.uidCode (uidStep now w.uidCounter)) ∧
      (∀ c, c ≤ w.uidCounter →
        (entAt w eid).uid = .vstr (makeUidStr sc.uidCode c) →
        (entAt w2 w.ents.length).uid ≠ (entAt w eid).uid) ∧
      (∀ k2, (plook st k2).isSome = true →
        clone sc w eid k2 now =
          .error "KeyError: key exists in entity store") := by
  have hred := clone_reduces sc w eid newKey cv now st a hstore hnew hnd hu
    hf ht hsk hattr hro hpipe
  obtain ⟨hbu, hbs, hbv⟩ := applyRec_cloneRec sc (entAt w eid) false true
    hnd hu hf ht hfaith
  obtain ⟨h2, hlen, hent, hfr, hsto, hcap, hinst, hcnt⟩ :=
    construct_some_spec sc w (cloneRec sc (entAt w eid)) false true now
  set w1 := (construct sc w (some (cloneRec sc (entAt w eid))) false true
    now).1 with hw1
  have hcd : constructedEnt sc w (cloneRec sc (entAt w eid)) false true now
      = { applyRecToEnt sc (freshEnt sc false true)
            (cloneRec sc (entAt w eid)) with
          uid := .vstr (makeUidStr sc.uidCode (uidStep now w.uidCounter)) }
      := by
    simp [constructedEnt, hbu, PVal.isNone]
  have he1 : entAt w1 w.ents.length =
      { applyRecToEnt sc (freshEnt sc false true)
          (cloneRec sc (entAt w eid)) with
        uid := .vstr (makeUidStr sc.uidCode (uidStep now w.uidCounter)) } :=
    hent.trans hcd
  have hnid1 : w.ents.length < w1.ents.length := by omega
  have hcome : entAt (commitAttr sc w1 w.ents.length sc.storeKey cv)
      w.ents.length =
      commitEnt sc (entAt w1 w.ents.length) sc.storeKey cv :=
    entAt_commitAttr_self _ _ _ _ _ hnid1
  have hkeyc : entKey sc (entAt (commitAttr sc w1 w.ents.length sc.storeKey
      cv) w.ents.length) = cv := by
    rw [hcome]
    unfold entKey
    rw [if_neg hsk, commitEnt_vals, alook_aset, if_pos rfl]
    rfl
  have huidc : (entAt (commitAttr sc w1 w.ents.length sc.storeKey cv)
      w.ents.length).uid =
      .vstr (makeUidStr sc.uidCode (uidStep now w.uidCounter)) := by
    rw [hcome, commitEnt_uid, he1]
  refine ⟨commitAttr sc w1 w.ents.length sc.storeKey cv, hred, ?_, ?_,
    hkeyc, ?_, huidc, ?_, ?_⟩
  · rw [commitAttr_ents_length]
    exact hlen
  · intro i hi
    rw [entAt_commitAttr_ne _ _ _ _ _ _ (by omega)]
    exact hfr i hi
  · intro n b hb hne
    have hmem : n ∈ sc.attrs.map Prod.fst := mem_keys_of_alook_some hb
    have hv1 : alook (entAt w1 w.ents.length).vals n =
        some ((alook (entAt w eid).vals n).getD .vnone) := by
      rw [he1]
      exact hbv n hmem
    rw [hcome, commitEnt_vals, alook_aset, if_neg (Ne.symm hne)]
    exact hv1
  · intro c hcle huid heq
    rw [huidc, huid] at heq
    have hstr : makeUidStr sc.uidCode (uidStep now w.uidCounter) =
        makeUidStr sc.uidCode c := by
      injection heq
    have hcc := makeUidStr_inj sc.uidCode hstr
    have := uidStep_gt now w.uidCounter
    omega
  · intro k2 hk2
    simp [clone, hstore, hk2]


/-- Witness for C7: cloning the stored entity with key `"A"` to the free
key `"B"` yields entity `1` with key `"B"`, the original's `hp` value,
and a fresh distinct UID; cloning onto the occupied key `"A"` fails. -/
theorem clone_spec_c7_witness :
    ∃ w2, clone wsc wworld 0 (.vstr "B") 7 = .ok (w2, 1) ∧
      w2.ents.length = 2 ∧
      (∀ i, i < 1 → entAt w2 i = entAt wworld i) ∧
      entKey wsc (entAt w2 1) = .vstr "B" ∧
      (∀ n b, alook wsc.attrs n = some b → n ≠ wsc.storeKey →
        alook (entAt w2 1).vals n =
          some ((alook (entAt wworld 0).vals n).getD .vnone)) ∧
      (entAt w2 1).uid =
        .vstr (makeUidStr wsc.uidCode (uidStep 7 wworld.uidCounter)) ∧
      (∀ c, c ≤ wworld.uidCounter →
        (entAt wworld 0).uid = .vstr (makeUidStr wsc.uidCode c) →
        (entAt w2 1).uid ≠ (entAt wworld 0).uid) ∧
      (∀ k2, (plook [(.vstr "A", wrec)] k2).isSome = true →
        clone wsc wworld 0 k2 7 =
          .error "KeyError: key exists in entity store") :=
  clone_spec_c7 wsc wworld 0 (.vstr "B") (.vstr "B") 7
    [(.vstr "A", wrec)] idAttr rfl (by decide) (by decide) (by decide)
    (by decide) (by decide) (by decide) rfl rfl rfl (by decide)


/-- C10: when a successful `clone(new_key)` changes the storage key (the
validated new key differs from the original's key), the key assignment
inside `clone` runs through `_set_attr_val` on the freshly deserialized
copy — whose key at that moment equals the original entity's key.  The
clone therefore leaves `clone` carrying a `_old_key` tag equal to the
original's key, the key cache holds no entry under the original's key
any more, and the clone's first save deletes the original entity's store
record before writing the clone's own record under its new key. -/
theorem clone_old_key_c10 (sc : EntSchema) (w : World) (eid : Nat)
    (newKey cv : PVal) (now : Nat) (st : List (PVal × Rec)) (a : AttrSpec)
    (hstore : w.store = some st)
    (hnew : plook st newKey = none)
    (hnd : (sc.attrs.map Prod.fst).Nodup)
    (hu : "uid" ∉ sc.attrs.map Prod.fst)
    (hf : "flags" ∉ sc.attrs.map Prod.fst)
    (ht : "tags" ∉ sc.attrs.map Prod.fst)
    (hsk : sc.storeKey ≠ "uid")
    (hattr : alook sc.attrs sc.storeKey = some a)
    (hro : a.readOnly = false)
    (hpipe : applyPipeline a newKey true false = .ok cv)
    (hfaith : ∀ p ∈ sc.attrs,
      ((alook (entAt w eid).vals p.1).getD .vnone).isUnset = false →
        (p.2.ser ((alook (entAt w eid).vals p.1).getD .vnone)).isUnset =
          false ∧
        p.2.deser (p.2.ser ((alook (entAt w eid).vals p.1).getD .vnone)) =
          (alook (entAt w eid).vals p.1).getD .vnone)
    (hkc : cv ≠ entKey sc (entAt w eid)) :
    ∃ w2, clone sc w eid newKey now = .ok (w2, w.ents.length) ∧
      alook (entAt w2 w.ents.length).tags "_old_key" =
        some (entKey sc (entAt w eid)) ∧
      plook w2.cache (entKey sc (entAt w eid)) = none ∧
      entKey sc (entAt w2 w.ents.length) = cv ∧
      (∃ w3 st2 rr, save sc w2 w.ents.length = .ok w3 ∧
        w3.store = some st2 ∧
        plook st2 (entKey sc (entAt w eid)) = none ∧
        plook st2 cv = some rr) := by
  have hred := clone_reduces sc w eid newKey cv now st a hstore hnew hnd hu
    hf ht hsk hattr hro hpipe
  obtain ⟨hbu, hbs, hbv⟩ := applyRec_cloneRec sc (entAt w eid) false true
    hnd hu hf ht hfaith
  obtain ⟨h2, hlen, hent, hfr, hsto, hcap, hinst, hcnt⟩ :=
    construct_some_spec sc w (cloneRec sc (entAt w eid)) false true now
  set w1 := (construct sc w (some (cloneRec sc (entAt w eid))) false true
    now).1 with hw1
  set nid := w.ents.length with hniddef
  have hcd : constructedEnt sc w (cloneRec sc (entAt w eid)) false true now
      = { applyRecToEnt sc (freshEnt sc false true)
            (cloneRec sc (entAt w eid)) with
          uid := .vstr (makeUidStr sc.uidCode (uidStep now w.uidCounter)) }
      := by
    simp [constructedEnt, hbu, PVal.isNone]
  have he1 : entAt w1 nid =
      { applyRecToEnt sc (freshEnt sc false true)
          (cloneRec sc (entAt w eid)) with
        uid := .vstr (makeUidStr sc.uidCode (uidStep now w.uidCounter)) } :=
    hent.trans hcd
  have hnid1 : nid < w1.ents.length := by omega
  have hvv : alook (entAt w1 nid).vals sc.storeKey =
      some ((alook (entAt w eid).vals sc.storeKey).getD .vnone) := by
    rw [he1]
    exact hbv sc.storeKey (mem_keys_of_alook_some hattr)
  have holdk : entKey sc (entAt w1 nid) = entKey sc (entAt w eid) := by
    unfold entKey
    rw [if_neg hsk, if_neg hsk, hvv]
    rfl
  have hnewkey : entKey sc { entAt w1 nid with
      vals := aset (entAt w1 nid).vals sc.storeKey cv } = cv := by
    unfold entKey
    rw [if_neg hsk]
    show (alook (aset (entAt w1 nid).vals sc.storeKey cv)
      sc.storeKey).getD .vnone = cv
    rw [alook_aset, if_pos rfl]
    rfl
  have hbeq : pbeq (entKey sc { entAt w1 nid with
      vals := aset (entAt w1 nid).vals sc.storeKey cv })
      (entKey sc (entAt w1 nid)) = false := by
    rw [pbeq_false_iff, hnewkey, holdk]
    exact hkc
  have hne1 : entKey sc { entAt w1 nid with
      vals := aset (entAt w1 nid).vals sc.storeKey cv } ≠
      entKey sc (entAt w1 nid) := (pbeq_false_iff _ _).mp hbeq
  have heqn := commitAttr_migrate sc w1 nid sc.storeKey cv hbeq
  set wK := commitAttr sc w1 nid sc.storeKey cv with hwK
  set e2 : Ent := { entAt w1 nid with
      vals := aset (entAt w1 nid).vals sc.storeKey cv,
      tags := aset (entAt w1 nid).tags "_old_key"
        (entKey sc (entAt w1 nid)),
      dirty := true } with he2
  have hwKeq : wK = { w1 with
      ents := w1.ents.set nid e2,
      cache := ((entKey sc { entAt w1 nid with
          vals := aset (entAt w1 nid).vals sc.storeKey cv }, nid) ::
        perase (if (plook w1.cache (entKey sc (entAt w1 nid))).isSome then
            perase w1.cache (entKey sc (entAt w1 nid))
          else w1.cache)
          (entKey sc { entAt w1 nid with
            vals := aset (entAt w1 nid).vals sc.storeKey cv })).take
        w1.cacheCap } := heqn
  have hent2 : entAt wK nid = e2 := by
    rw [hwKeq]
    show (w1.ents.set nid e2).getD nid defaultEnt = e2
    simp [List.getD, List.getElem?_set_self hnid1]
  have htag2 : alook (entAt wK nid).tags "_old_key" =
      some (entKey sc (entAt w eid)) := by
    rw [hent2, he2]
    show alook (aset (entAt w1 nid).tags "_old_key"
      (entKey sc (entAt w1 nid))) "_old_key" = _
    rw [alook_aset, if_pos rfl, holdk]
  have hkey2 : entKey sc (entAt wK nid) = cv := by
    rw [hent2]
    show entKey sc e2 = cv
    unfold entKey
    rw [if_neg hsk]
    show (alook (aset (entAt w1 nid).vals sc.storeKey cv)
      sc.storeKey).getD .vnone = cv
    rw [alook_aset, if_pos rfl]
    rfl
  have hcache2 : plook wK.cache (entKey sc (entAt w eid)) = none := by
    rw [← holdk, hwKeq]
    show plook (((entKey sc { entAt w1 nid with
        vals := aset (entAt w1 nid).vals sc.storeKey cv }, nid) ::
      perase (if (plook w1.cache (entKey sc (entAt w1 nid))).isSome then
          perase w1.cache (entKey sc (entAt w1 nid))
        else w1.cache)
        (entKey sc { entAt w1 nid with
          vals := aset (entAt w1 nid).vals sc.storeKey cv })).take
      w1.cacheCap) (entKey sc (entAt w1 nid)) = none
    apply plook_take_none
    simp only [plook, hbeq, Bool.false_eq_true, if_false]
    rw [plook_perase]
    by_cases hb : (plook w1.cache (entKey sc (entAt w1 nid))).isSome = true
    · simp only [hb, if_true]
      rw [plook_perase]
      simp
    · simp only [hb, Bool.false_eq_true, if_false]
      rw [if_neg (fun h => hne1 h)]
      simpa using hb
  have hsav2 : (entAt wK nid).savable = true := by
    rw [hent2, he2]
    show (entAt w1 nid).savable = true
    rw [he1]
    exact hbs
  have hst2 : wK.store = some st := by
    rw [hwK, commitAttr_store, hsto, hstore]
  have hlen2 : nid < wK.ents.length := by
    rw [hwK, commitAttr_ents_length]
    omega
  have hne2 : entKey sc (entAt wK nid) ≠ entKey sc (entAt w eid) := by
    rw [hkey2]
    exact hkc
  obtain ⟨w3, st2, rr, hsave, hst3, hold3, hnew3, hdirty3, htag3⟩ :=
    save_oldkey sc wK nid st (entKey sc (entAt w eid)) hst2 hsav2 hlen2
      htag2 hne2 hnd
  refine ⟨wK, hred, htag2, hcache2, hkey2, w3, st2, rr, hsave, hst3,
    hold3, ?_⟩
  rw [← hkey2]
  exact hnew3


/-- Witness for C10: cloning the cached, stored entity with key `"A"` to
`"B"` tags the clone with `_old_key = "A"`, evicts the `"A"` cache slot,
and the clone's first save retires the `"A"` store record while writing
the `"B"` record. -/
theorem clone_old_key_c10_witness :
    ∃ w2, clone wsc wworld 0 (.vstr "B") 7 = .ok (w2, 1) ∧
      alook (entAt w2 1).tags "_old_key" =
        some (entKey wsc (entAt wworld 0)) ∧
      plook w2.cache (entKey wsc (entAt wworld 0)) = none ∧
      entKey wsc (entAt w2 1) = .vstr "B" ∧
      (∃ w3 st2 rr, save wsc w2 1 = .ok w3 ∧
        w3.store = some st2 ∧
        plook st2 (entKey wsc (entAt wworld 0)) = none ∧
        plook st2 (.vstr "B") = some rr) :=
  clone_old_key_c10 wsc wworld 0 (.vstr "B") (.vstr "B") 7
    [(.vstr "A", wrec)] idAttr rfl (by decide) (by decide) (by decide)
    (by decide) (by decide) (by decide) rfl rfl rfl (by decide) (by decide)


/-! ### Searching (claim C5) -/

theorem mem_insertSet (found : List Nat) (x e : Nat) :
    e ∈ insertSet found x ↔ e = x ∨ e ∈ found := by
  by_cases h : x ∈ found
  · simp only [insertSet, h, if_true]
    constructor
    · exact Or.inr
    · rintro (rfl | he)
      · exact h
      · exact he
  · simp only [insertSet, h, if_false, List.mem_append, List.mem_singleton]
    tauto


theorem nodup_insertSet (found : List Nat) (x : Nat) (h : found.Nodup) :
    (insertSet found x).Nodup := by
  by_cases hx : x ∈ found
  · simpa [insertSet, hx] using h
  · simp only [insertSet, hx, if_false]
    rw [List.nodup_append]
    exact ⟨h, List.nodup_singleton x, by simpa using hx⟩


theorem findCacheLoop_zero_mem (sc : EntSchema) (w : World)
    (pairs : List (String × PVal)) (mp : MatchPolicy) :
    ∀ (eids : List Nat) (found : List Nat) (checked : List PVal) (e : Nat),
      e ∈ (findCacheLoop sc w pairs mp 0 eids found checked).1 ↔
        (e ∈ found ∨ (e ∈ eids ∧ entMatches w pairs mp e = true)) := by
  intro eids
  induction eids with
  | nil => intro found checked e; simp [findCacheLoop]
  | cons eid rest ih =>
      intro found checked e
      simp only [findCacheLoop]
      rw [if_neg (fun h => h.2.1 rfl)]
      rw [ih]
      by_cases hm : entMatches w pairs mp eid = true
      · by_cases he : e = eid
        · subst he
          simp [hm, mem_insertSet]
        · simp [hm, mem_insertSet, he]
      · by_cases he : e = eid
        · subst he
          simp [hm]
        · simp [hm, he]


theorem findCacheLoop_zero_nodup (sc : EntSchema) (w : World)
    (pairs : List (String × PVal)) (mp : MatchPolicy) :
    ∀ (eids : List Nat) (found : List Nat) (checked : List PVal),
      found.Nodup →
      (findCacheLoop sc w pairs mp 0 eids found checked).1.Nodup := by
  intro eids
  induction eids with
  | nil => intro found checked h; exact h
  | cons eid rest ih =>
      intro found checked h
      simp only [findCacheLoop]
      rw [if_neg (fun hh => hh.2.1 rfl)]
      by_cases hm : entMatches w pairs mp eid = true
      · simp only [hm, if_true]
        exact ih _ _ (nodup_insertSet _ _ h)
      · simp only [hm, if_false]
        exact ih _ _ h


theorem findStoreLoop_skip_step (sc : EntSchema)
    (pairs : List (String × PVal)) (mp : MatchPolicy) (n now : Nat)
    (st : List (PVal × Rec)) (k : PVal) (keys : List PVal) (w : World)
    (found : List Nat) (checked : List PVal)
    (hk : pmem checked k = true ∨ plook st k = none ∨
      plook st k = some [] ∨
      (∀ r2, plook st k = some r2 → recMatches pairs mp r2 = false)) :
    findStoreLoop sc pairs mp n now st (k :: keys) w found checked =
      findStoreLoop sc pairs mp n now st keys w found checked := by
  simp only [findStoreLoop]
  by_cases hcm : pmem checked k = true
  · rw [if_pos hcm]
  · rw [if_neg hcm]
    rcases hk with hc | hn | he | hm
    · exact absurd hc hcm
    · simp only [hn]
    · simp only [he, List.isEmpty_nil, if_true]
    · cases hp : plook st k with
      | none => simp only
      | some r =>
          have hmr := hm r hp
          simp only
          by_cases hre : r.isEmpty = true
          · rw [if_pos hre]
          · rw [if_neg hre, if_neg (by simp [hmr])]


theorem findStoreLoop_noop (sc : EntSchema) (pairs : List (String × PVal))
    (mp : MatchPolicy) (n now : Nat) (st : List (PVal × Rec)) :
    ∀ (keys : List PVal) (w : World) (found : List Nat)
      (checked : List PVal),
      (∀ k ∈ keys, pmem checked k = true ∨ plook st k = none ∨
        plook st k = some [] ∨
        (∀ r2, plook st k = some r2 → recMatches pairs mp r2 = false)) →
      findStoreLoop sc pairs mp n now st keys w found checked =
        (w, found) := by
  intro keys
  induction keys with
  | nil => intro w found checked _; rfl
  | cons k rest ih =>
      intro w found checked h
      rw [findStoreLoop_skip_step sc pairs mp n now st k rest w found
        checked (h k (List.mem_cons_self _ _))]
      exact ih w found checked (fun k2 hk2 => h k2 (List.mem_cons_of_mem _ hk2))


theorem findStoreLoop_single (sc : EntSchema)
    (pairs : List (String × PVal)) (mp : MatchPolicy) (now : Nat)
    (st : List (PVal × Rec)) (k : PVal) (r : Rec) :
    ∀ (ks1 ks2 : List PVal) (w : World) (found : List Nat)
      (checked : List PVal),
      (∀ k2 ∈ ks1 ++ ks2, pmem checked k2 = true ∨ plook st k2 = none ∨
        plook st k2 = some [] ∨
        (∀ r2, plook st k2 = some r2 → recMatches pairs mp r2 = false)) →
      pmem checked k = false → plook st k = some r → r.isEmpty = false →
      recMatches pairs mp r = true →
      findStoreLoop sc pairs mp 0 now st (ks1 ++ k :: ks2) w found checked =
        (setDirty (construct sc w (some r) false true now).1
          (construct sc w (some r) false true now).2 false,
         insertSet found (construct sc w (some r) false true now).2) := by
  intro ks1
  induction ks1 with
  | nil =>
      intro ks2 w found checked hskip hkc hkr hkne hkm
      simp only [List.nil_append, findStoreLoop]
      rw [if_neg (by simp [hkc])]
      simp only [hkr]
      rw [if_neg (by simp [hkne]), if_pos hkm]
      rcases hc : construct sc w (some r) false true now with ⟨wc, ec⟩
      simp only [hc]
      rw [if_neg (fun h => h.1 rfl)]
      rw [findStoreLoop_noop sc pairs mp 0 now st ks2 _ _ _
        (by simpa using hskip)]
  | cons k1 ks1t ih =>
      intro ks2 w found checked hskip hkc hkr hkne hkm
      have hk1 : pmem checked k1 = true ∨ plook st k1 = none ∨
          plook st k1 = some [] ∨
          (∀ r2, plook st k1 = some r2 → recMatches pairs mp r2 = false) :=
        hskip k1 (by simp)
      rw [List.cons_append, findStoreLoop_skip_step sc pairs mp 0 now st k1
        (ks1t ++ k :: ks2) w found checked hk1]
      exact ih ks2 w found checked
        (fun k2 hk2 => hskip k2 (by simp at hk2 ⊢; tauto)) hkc hkr hkne hkm


theorem setDirty_construct_spec (sc : EntSchema) (w : World) (r : Rec)
    (now : Nat) :
    (setDirty (construct sc w (some r) false true now).1
        (construct sc w (some r) false true now).2 false).ents.length =
      w.ents.length + 1 ∧
    (∀ i, i < w.ents.length →
      entAt (setDirty (construct sc w (some r) false true now).1
        (construct sc w (some r) false true now).2 false) i = entAt w i) ∧
    (entAt (setDirty (construct sc w (some r) false true now).1
        (construct sc w (some r) false true now).2 false)
      w.ents.length).dirty = false ∧
    plook (setDirty (construct sc w (some r) false true now).1
        (construct sc w (some r) false true now).2 false).instances
      (entAt (setDirty (construct sc w (some r) false true now).1
        (construct sc w (some r) false true now).2 false)
        w.ents.length).uid = some w.ents.length ∧
    (setDirty (construct sc w (some r) false true now).1
        (construct sc w (some r) false true now).2 false).store =
      w.store := by
  obtain ⟨h2, hlen, hent, hfr, hsto, hcap, hinst, hcnt⟩ :=
    construct_some_spec sc w r false true now
  rw [h2]
  set wc := (construct sc w (some r) false true now).1 with hwc
  have hnid : w.ents.length < wc.ents.length := by omega
  have hentd : entAt (setDirty wc w.ents.length false) w.ents.length =
      { entAt wc w.ents.length with dirty := false } := by
    unfold setDirty
    exact entAt_setEnt_self _ _ _ hnid
  refine ⟨?_, ?_, ?_, ?_, ?_⟩
  · show (setEnt wc _ _).ents.length = _
    rw [length_setEnt]
    exact hlen
  · intro i hi
    show entAt (setEnt wc _ _) i = entAt w i
    rw [entAt_setEnt_ne _ _ _ _ (by omega)]
    exact hfr i hi
  · rw [hentd]
  · rw [hentd]
    have huid : ({ entAt wc w.ents.length with dirty := false } : Ent).uid =
        (constructedEnt sc w r false true now).uid := by
      show (entAt wc w.ents.length).uid = _
      rw [hent]
    show plook wc.instances _ = _
    rw [hinst, huid, plook_pset, if_pos rfl]
  · show wc.store = w.store
    exact hsto


/-- C5: the behaviours of `Entity.find`.  (1)/(2) the ALL policy holds
exactly when every criterion matches and the ANY policy exactly when at
least one does; (3) an unlimited cache-only `find` returns, with the
world untouched, a duplicate-free result holding exactly the live
registered instances that match; (4) when a nonzero limit is already met
by the cache scan, enabling the store changes nothing — the store is
scanned only if the limit is not yet met; (5) the store walk skips every
key already checked in memory, missing from the store, pending deletion
(empty record) or non-matching, touching nothing; (6) a qualifying
unchecked store key is materialized as a brand new clean entity,
registered in `_instances` under its UID, and added to the result set;
(7) a limit of 1 yields a single optional match, any other limit yields
a list. -/
theorem find_spec_c5 (sc : EntSchema) (w : World) (st : List (PVal × Rec))
    (pairs : List (String × PVal)) (now : Nat) :
    (∀ eid, entMatches w pairs .pall eid = true ↔
      ∀ p ∈ pairs, pbeq (attrGet (entAt w eid) p.1) p.2 = true) ∧
    (∀ eid, entMatches w pairs .pany eid = true ↔
      ∃ p ∈ pairs, pbeq (attrGet (entAt w eid) p.1) p.2 = true) ∧
    (∀ mp, ∃ L, find sc w st pairs true false mp 0 now = (w, .many L) ∧
      (∀ e, e ∈ L ↔ e ∈ w.instances.map Prod.snd ∧
        entMatches w pairs mp e = true) ∧
      L.Nodup) ∧
    (∀ mp n, n ≠ 0 →
      n ≤ ((findCacheLoop sc w pairs mp n (w.instances.map Prod.snd)
        [] []).1).length →
      find sc w st pairs true true mp n now =
        find sc w st pairs true false mp n now) ∧
    (∀ mp n (keys : List PVal) (w' : World) (found : List Nat)
        (checked : List PVal),
      (∀ k ∈ keys, pmem checked k = true ∨ plook st k = none ∨
        plook st k = some [] ∨
        (∀ r2, plook st k = some r2 → recMatches pairs mp r2 = false)) →
      findStoreLoop sc pairs mp n now st keys w' found checked =
        (w', found)) ∧
    (∀ mp (ks1 ks2 : List PVal) (k : PVal) (r : Rec) (w' : World)
        (found : List Nat) (checked : List PVal),
      (∀ k2 ∈ ks1 ++ ks2, pmem checked k2 = true ∨ plook st k2 = none ∨
        plook st k2 = some [] ∨
        (∀ r2, plook st k2 = some r2 → recMatches pairs mp r2 = false)) →
      pmem checked k = false → plook st k = some r → r.isEmpty = false →
      recMatches pairs mp r = true →
      ∃ W, findStoreLoop sc pairs mp 0 now st (ks1 ++ k :: ks2) w' found
          checked = (W, insertSet found w'.ents.length) ∧
        W.ents.length = w'.ents.length + 1 ∧
        (∀ i, i < w'.ents.length → entAt W i = entAt w' i) ∧
        (entAt W w'.ents.length).dirty = false ∧
        plook W.instances (entAt W w'.ents.length).uid =
          some w'.ents.length ∧
        W.store = w'.store) ∧
    (∀ mp (cache store : Bool),
      (∃ wo o, find sc w st pairs cache store mp 1 now =
        (wo, FindRes.one o)) ∧
      (∀ n, n ≠ 1 → ∃ wo L, find sc w st pairs cache store mp n now =
        (wo, FindRes.many L))) := by
  refine ⟨?_, ?_, ?_, ?_, ?_, ?_, ?_⟩
  · intro eid
    simp [entMatches, evalMatch, List.all_eq_true]
  · intro eid
    simp [entMatches, evalMatch, List.any_eq_true]
  · intro mp
    rcases h1 : findCacheLoop sc w pairs mp 0 (w.instances.map Prod.snd)
      [] [] with ⟨L, C⟩
    refine ⟨L, ?_, ?_, ?_⟩
    · simp [find, h1]
    · intro e
      have hm := findCacheLoop_zero_mem sc w pairs mp
        (w.instances.map Prod.snd) [] [] e
      rw [h1] at hm
      simpa using hm
    · have hn := findCacheLoop_zero_nodup sc w pairs mp
        (w.instances.map Prod.snd) [] [] List.nodup_nil
      rw [h1] at hn
      exact hn
  · intro mp n hn0 hlen
    rcases h1 : findCacheLoop sc w pairs mp n (w.instances.map Prod.snd)
      [] [] with ⟨L, C⟩
    rw [h1] at hlen
    have hlen' : n ≤ L.length := hlen
    have h3 : ¬(n = 0 ∨ L.length < n) := by
      rintro (h | h)
      · exact hn0 h
      · omega
    simp only [find, h1]
    simp [h3]
  · intro mp n keys w' found checked h
    exact findStoreLoop_noop sc pairs mp n now st keys w' found checked h
  · intro mp ks1 ks2 k r w' found checked hskip hkc hkr hkne hkm
    obtain ⟨hl, hfr, hd, hreg, hs⟩ := setDirty_construct_spec sc w' r now
    have h2 : (construct sc w' (some r) false true now).2 =
        w'.ents.length := (construct_some_spec sc w' r false true now).1
    refine ⟨setDirty (construct sc w' (some r) false true now).1
      (construct sc w' (some r) false true now).2 false, ?_, hl, hfr, hd,
      hreg, hs⟩
    rw [findStoreLoop_single sc pairs mp now st k r ks1 ks2 w' found
      checked hskip hkc hkr hkne hkm, h2]
  · intro mp c s
    constructor
    · rcases h1 : (if c = true then findCacheLoop sc w pairs mp 1
          (w.instances.map Prod.snd) [] [] else ([], [])) with ⟨L, C⟩
      rcases h2 : (if s = true ∧ ((1 : Nat) = 0 ∨ L.length < 1) then
          findStoreLoop sc pairs mp 1 now st (st.map Prod.fst) w L C
        else (w, L)) with ⟨wo, F⟩
      have heq : find sc w st pairs c s mp 1 now = (wo, FindRes.one F.head?)
          := by
        simp only [find, h1, h2]
        simp
      exact ⟨wo, F.head?, heq⟩
    · intro n hn
      rcases h1 : (if c = true then findCacheLoop sc w pairs mp n
          (w.instances.map Prod.snd) [] [] else ([], [])) with ⟨L, C⟩
      rcases h2 : (if s = true ∧ (n = 0 ∨ L.length < n) then
          findStoreLoop sc pairs mp n now st (st.map Prod.fst) w L C
        else (w, L)) with ⟨wo, F⟩
      have heq : find sc w st pairs c s mp n now = (wo, FindRes.many F)
          := by
        simp only [find, h1, h2]
        rw [if_neg hn]
      exact ⟨wo, F, heq⟩


/-- Witness for C5 on the concrete world: an unlimited cache-only `find`
for `name == "A"` returns exactly the matching live instance `0` with
the world untouched; the ALL policy on instance `0` amounts to every
criterion matching; a limit-1 `find` yields a single optional result. -/
theorem find_spec_c5_witness :
    (∃ L, find wsc wworld [(.vstr "A", wrec)] [("name", .vstr "A")] true
        false .pall 0 7 = (wworld, .many L) ∧
      (∀ e, e ∈ L ↔ e ∈ wworld.instances.map Prod.snd ∧
        entMatches wworld [("name", .vstr "A")] .pall e = true) ∧
      L.Nodup) ∧
    (entMatches wworld [("name", .vstr "A")] .pall 0 = true ↔
      ∀ p ∈ [(("name" : String), PVal.vstr "A")],
        pbeq (attrGet (entAt wworld 0) p.1) p.2 = true) ∧
    (∃ wo o, find wsc wworld [(.vstr "A", wrec)] [("name", .vstr "A")]
      true true .pall 1 7 = (wo, FindRes.one o)) := by
  obtain ⟨h1, h2, h3, h4, h5, h6, h7⟩ := find_spec_c5 wsc wworld
    [(.vstr "A", wrec)] [("name", .vstr "A")] 7
  exact ⟨h3 .pall, h1 0, (h7 .pall true true).1⟩


end Atria
